import Mathlib

/-!
# TF-IDF search server: shallow embedding and verified properties

The C++ containers and scalars are embedded as follows.

* `std::string` / `std::string_view` : `Str`, a list of characters; the order on
  `Str` is the lexicographic order of `std::string`.
* `std::map<K, V>` : `StdMap K V`, an association list kept strictly ascending
  by key (the iteration order of `std::map`).
* `std::set<K>` : `StdSet K`, a strictly ascending list.
* `double` : an arbitrary linearly ordered field `R` with exact arithmetic, and
  `log` : an arbitrary function `ln : R → R`.  Every theorem holds for each
  such `R` and `ln`; over `ℚ` the definitions evaluate.
* `int` : `Int`; the 32-bit wrap-around is explicit where the code does
  arithmetic on it (`ComputeAverageRating`).
* a thrown exception : the `Except.error` branch; a member function that
  mutates the server returns its outcome together with the server afterwards.
* `std::sort` : `stdSort`, the insertion sort of the GNU library for short
  ranges; what the standard promises of the routine is `MeetsSortContract`.
-/

set_option linter.unusedSectionVars false

namespace TfIdf

/-! ## Containers -/

/-- Text of a `std::string` or `std::string_view`. -/
abbrev Str := List Char

/-- Ordered map `std::map<K, V>` as an association list ascending by key. -/
abbrev StdMap (K V : Type) := List (K × V)

/-- Ordered set `std::set<K>` as an ascending list. -/
abbrev StdSet (K : Type) := List K

/-- The C++ exceptions the server throws. -/
inductive Exn where
  | invalid_argument : Exn
  | out_of_range : Exn
  deriving DecidableEq, Repr

namespace StdMap

variable {K V : Type}

/-- Lookup of `std::map::find`: the value stored under `k`, when there is one. -/
def find [LinearOrder K] : StdMap K V → K → Option V
  | [], _ => none
  | (k', v) :: rest, k => if k' = k then some v else find rest k

/-- Member `std::map::count`. -/
def count [LinearOrder K] (m : StdMap K V) (k : K) : Nat :=
  if (find m k).isSome then 1 else 0

/-- Member `std::map::at`, which throws `std::out_of_range` on a missing key. -/
def atKey [LinearOrder K] (m : StdMap K V) (k : K) : Except Exn V :=
  match find m k with
  | some v => Except.ok v
  | none => Except.error Exn.out_of_range

/-- Store `v` under `k`, replacing the old value or inserting at the ordered position. -/
def insert [LinearOrder K] (k : K) (v : V) : StdMap K V → StdMap K V
  | [] => [(k, v)]
  | (k', v') :: rest =>
    if k < k' then (k, v) :: (k', v') :: rest
    else if k = k' then (k, v) :: rest
    else (k', v') :: insert k v rest

/-- Member `std::map::erase(key)`. -/
def erase [LinearOrder K] (k : K) (m : StdMap K V) : StdMap K V :=
  m.filter (fun p => !decide (p.1 = k))

/-- The keys in iteration order. -/
def keys (m : StdMap K V) : List K := m.map Prod.fst

/-- Member `std::map::size`. -/
def size (m : StdMap K V) : Nat := m.length

/-- The statement `m[k] += x` on a map of numbers: `operator[]` value-initialises
a missing entry to zero. -/
def addTo [LinearOrder K] [Zero V] [Add V] (m : StdMap K V) (k : K) (x : V) : StdMap K V :=
  insert k ((find m k).getD 0 + x) m

/-- The statement `m[k1][k2] += x` on a map of maps: the outer `operator[]`
default-constructs an empty inner map. -/
def addTo2 {K2 : Type} [LinearOrder K] [LinearOrder K2] [Zero V] [Add V]
    (m : StdMap K (StdMap K2 V)) (k1 : K) (k2 : K2) (x : V) : StdMap K (StdMap K2 V) :=
  insert k1 (addTo ((find m k1).getD []) k2 x) m

end StdMap

namespace StdSet

variable {K : Type}

/-- Member `std::set::insert`. -/
def insert [LinearOrder K] (k : K) : StdSet K → StdSet K
  | [] => [k]
  | k' :: rest =>
    if k < k' then k :: k' :: rest
    else if k = k' then k' :: rest
    else k' :: insert k rest

/-- Member `std::set::erase(key)`. -/
def erase [LinearOrder K] (k : K) (s : StdSet K) : StdSet K :=
  s.filter (fun x => !decide (x = k))

/-- Member `std::set::count`. -/
def count [LinearOrder K] (s : StdSet K) (k : K) : Nat :=
  if k ∈ s then 1 else 0

end StdSet

/-! ## string_processing -/

/-- Loop of `SplitIntoWords(std::string_view)`: `word_begin` is the text from the
iterator `word_begin` to the end; `find_if` with `sp` or `ch` is `dropWhile`. -/
def SplitIntoWordsView.loop : Nat → Str → List Str
  | 0, _ => []
  | fuel + 1, word_begin =>
    if word_begin.isEmpty then []
    else
      let word_end := word_begin.dropWhile (fun c => c != ' ')
      word_begin.takeWhile (fun c => c != ' ')
        :: SplitIntoWordsView.loop fuel (word_end.dropWhile (fun c => c == ' '))

/-- Overload `SplitIntoWords(std::string_view)`.  Every pass of the loop consumes
at least one character, so `text.length` passes are enough. -/
def SplitIntoWordsView (text : Str) : List Str :=
  if text.isEmpty then []
  else SplitIntoWordsView.loop text.length (text.dropWhile (fun c => c == ' '))

/-- Loop of `SplitIntoWords(const std::string&)` with the local `word` and the
result `words`. -/
def SplitIntoWords.loop : Str → Str → List Str → List Str
  | [], word, words => if !word.isEmpty then words ++ [word] else words
  | c :: text, word, words =>
    if c = ' ' then
      if !word.isEmpty then SplitIntoWords.loop text [] (words ++ [word])
      else SplitIntoWords.loop text word words
    else SplitIntoWords.loop text (word ++ [c]) words

/-- Overload `SplitIntoWords(const std::string&)`. -/
def SplitIntoWords (text : Str) : List Str :=
  SplitIntoWords.loop text [] []

/-- Function `MakeUniqueNonEmptyStrings`. -/
def MakeUniqueNonEmptyStrings (strings : List Str) : StdSet Str :=
  strings.foldl (fun non_empty_strings str =>
    if !str.isEmpty then StdSet.insert str non_empty_strings else non_empty_strings) []

/-! ## Documents -/

/-- Modelled from the spec: the enumeration `DocumentStatus` of `document.h`,
which is not among the sources; the spec lists `ACTUAL, IRRELEVANT, BANNED, REMOVED`. -/
inductive DocumentStatus where
  | ACTUAL : DocumentStatus
  | IRRELEVANT : DocumentStatus
  | BANNED : DocumentStatus
  | REMOVED : DocumentStatus
  deriving DecidableEq, Repr

/-- Modelled from the spec: the struct `Document` of `document.h`, which is not
among the sources; the ranker builds it from an id, a relevance and a rating. -/
structure Document (R : Type) where
  id : Int
  relevance : R
  rating : Int
  deriving DecidableEq, Repr

/-- Struct `SearchServer::DocumentData`. -/
structure DocumentData where
  rating : Int
  status : DocumentStatus
  deriving DecidableEq, Repr

/-- Data members of `SearchServer`. -/
structure SearchServer (R : Type) where
  stop_words_ : StdSet Str
  word_to_document_freqs_ : StdMap Str (StdMap Int R)
  documents_to_word_freqs_ : StdMap Int (StdMap Str R)
  documents_ : StdMap Int DocumentData
  document_ids_ : StdSet Int

/-- Constant `MAX_RESULT_DOCUMENT_COUNT`. -/
def MAX_RESULT_DOCUMENT_COUNT : Nat := 5

/-- Conversion of a value to `int` (32 bits, two's complement). -/
def wrapInt32 (x : Int) : Int := (x + 2147483648) % 4294967296 - 2147483648

section Server

variable {R : Type}

/-- Method `SearchServer::IsStopWord`. -/
def IsStopWord (s : SearchServer R) (word : Str) : Bool :=
  decide (StdSet.count s.stop_words_ word > 0)

/-- Method `SearchServer::IsValidWord`: no character `c` with `c >= 0 && c < 32`. -/
def IsValidWord (word : Str) : Bool :=
  !(word.any (fun c => decide (0 ≤ c.toNat) && decide (c.toNat < 32)))

/-- Constructor `SearchServer(const StringContainer& stop_words)`. -/
def SearchServer.new (stop_words : List Str) : Except Exn (SearchServer R) :=
  let stop_words_ := MakeUniqueNonEmptyStrings stop_words
  if !(stop_words_.all IsValidWord) then Except.error Exn.invalid_argument
  else Except.ok
    { stop_words_ := stop_words_
      word_to_document_freqs_ := []
      documents_to_word_freqs_ := []
      documents_ := []
      document_ids_ := [] }

/-- Constructor `SearchServer(std::string_view stop_words_text)`. -/
def SearchServer.ofText (stop_words_text : Str) : Except Exn (SearchServer R) :=
  SearchServer.new (SplitIntoWordsView stop_words_text)

/-- Loop of `SearchServer::SplitIntoWordsNoStop` over the words of the text,
with the local `words`. -/
def SplitIntoWordsNoStop.loop (s : SearchServer R) : List Str → List Str → Except Exn (List Str)
  | [], words => Except.ok words
  | word :: rest, words =>
    if !IsValidWord word then Except.error Exn.invalid_argument
    else if !IsStopWord s word then SplitIntoWordsNoStop.loop s rest (words ++ [word])
    else SplitIntoWordsNoStop.loop s rest words

/-- Method `SearchServer::SplitIntoWordsNoStop`. -/
def SplitIntoWordsNoStop (s : SearchServer R) (text : Str) : Except Exn (List Str) :=
  SplitIntoWordsNoStop.loop s (SplitIntoWordsView text) []

/-- Method `SearchServer::ComputeAverageRating`, on 32-bit `int`. -/
def ComputeAverageRating (ratings : List Int) : Int :=
  if ratings.isEmpty then 0
  else
    let rating_sum := ratings.foldl (fun rating_sum rating => wrapInt32 (rating_sum + rating)) 0
    Int.tdiv rating_sum (wrapInt32 (ratings.length : Int))

/-- Method `SearchServer::GetDocumentCount`: `documents_.size()` as an `int`,
taken without wrap-around (the keys are distinct non-negative `int`s). -/
def GetDocumentCount (s : SearchServer R) : Int :=
  (s.documents_.size : Int)

variable [LinearOrderedField R]

/-- Body of the loop of `SearchServer::AddDocument` for one word. -/
def AddDocument.step (document_id : Int) (inv_word_count : R) (s : SearchServer R) (word : Str) :
    SearchServer R :=
  { s with
    word_to_document_freqs_ :=
      StdMap.addTo2 s.word_to_document_freqs_ word document_id inv_word_count
    documents_to_word_freqs_ :=
      StdMap.addTo2 s.documents_to_word_freqs_ document_id word inv_word_count }

/-- Method `SearchServer::AddDocument`: the outcome and the server afterwards.
`documents_.emplace` stores nothing when the key is present, which the first
test excludes. -/
def AddDocument (s : SearchServer R) (document_id : Int) (document : Str)
    (status : DocumentStatus) (ratings : List Int) : Except Exn Unit × SearchServer R :=
  if document_id < 0 ∨ StdMap.count s.documents_ document_id > 0 then
    (Except.error Exn.invalid_argument, s)
  else
    match SplitIntoWordsNoStop s document with
    | Except.error e => (Except.error e, s)
    | Except.ok words =>
      let inv_word_count : R := 1 / (words.length : R)
      let s1 := words.foldl (AddDocument.step document_id inv_word_count) s
      (Except.ok (),
        { s1 with
          documents_ := StdMap.insert document_id
            { rating := ComputeAverageRating ratings, status := status } s1.documents_
          document_ids_ := StdSet.insert document_id s1.document_ids_ })

/-- Loop of `SearchServer::RemoveDocument` over the words of the forward entry:
`word_to_document_freqs_.at(word).erase(document_id)`. -/
def RemoveDocument.loop (document_id : Int) :
    List Str → StdMap Str (StdMap Int R) → Except Exn Unit × StdMap Str (StdMap Int R)
  | [], inverted => (Except.ok (), inverted)
  | word :: rest, inverted =>
    match StdMap.atKey inverted word with
    | Except.error e => (Except.error e, inverted)
    | Except.ok entry =>
      RemoveDocument.loop document_id rest
        (StdMap.insert word (StdMap.erase document_id entry) inverted)

/-- Method `SearchServer::RemoveDocument` (both overloads run this body). -/
def RemoveDocument (s : SearchServer R) (document_id : Int) : Except Exn Unit × SearchServer R :=
  if StdMap.count s.documents_to_word_freqs_ document_id = 0 then (Except.ok (), s)
  else
    match StdMap.atKey s.documents_to_word_freqs_ document_id with
    | Except.error e => (Except.error e, s)
    | Except.ok entry =>
      match RemoveDocument.loop document_id (StdMap.keys entry) s.word_to_document_freqs_ with
      | (Except.error e, inverted) => (Except.error e, { s with word_to_document_freqs_ := inverted })
      | (Except.ok (), inverted) =>
        (Except.ok (),
          { s with
            word_to_document_freqs_ := inverted
            documents_to_word_freqs_ := StdMap.erase document_id s.documents_to_word_freqs_
            document_ids_ := StdSet.erase document_id s.document_ids_
            documents_ := StdMap.erase document_id s.documents_ })

/-! ## Query parsing -/

/-- Struct `SearchServer::QueryWord`. -/
structure QueryWord where
  data : Str
  is_minus : Bool
  is_stop : Bool
  deriving DecidableEq, Repr

/-- Struct `SearchServer::Query`. -/
structure Query where
  plus_words : StdSet Str
  minus_words : StdSet Str
  deriving DecidableEq, Repr

omit [LinearOrderedField R] in
/-- Method `SearchServer::ParseQueryWord`. -/
def ParseQueryWord (s : SearchServer R) (word : Str) : Except Exn QueryWord :=
  if word.isEmpty then Except.error Exn.invalid_argument
  else
    let is_minus := decide (word.head? = some '-')
    let word := if is_minus then word.drop 1 else word
    if word.isEmpty || decide (word.head? = some '-') || !IsValidWord word then
      Except.error Exn.invalid_argument
    else Except.ok { data := word, is_minus := is_minus, is_stop := IsStopWord s word }

omit [LinearOrderedField R] in
/-- Loop of `SearchServer::ParseQuery` over the words of the text, with the
local `result`. -/
def ParseQuery.loop (s : SearchServer R) : List Str → Query → Except Exn Query
  | [], result => Except.ok result
  | word :: rest, result =>
    match ParseQueryWord s word with
    | Except.error e => Except.error e
    | Except.ok query_word =>
      if !query_word.is_stop then
        if query_word.is_minus then
          ParseQuery.loop s rest
            { result with minus_words := StdSet.insert query_word.data result.minus_words }
        else
          ParseQuery.loop s rest
            { result with plus_words := StdSet.insert query_word.data result.plus_words }
      else ParseQuery.loop s rest result

omit [LinearOrderedField R] in
/-- Method `SearchServer::ParseQuery`. -/
def ParseQuery (s : SearchServer R) (text : Str) : Except Exn Query :=
  ParseQuery.loop s (SplitIntoWordsView text) { plus_words := [], minus_words := [] }

/-! ## Sequential ranking -/

/-- A document predicate `(document_id, status, rating) -> bool`. -/
abbrev DocumentPredicate := Int → DocumentStatus → Int → Bool

/-- Method `SearchServer::ComputeWordInverseDocumentFreq`; `ln` stands for `log`. -/
def ComputeWordInverseDocumentFreq (ln : R → R) (s : SearchServer R) (word : Str) :
    Except Exn R :=
  match StdMap.atKey s.word_to_document_freqs_ word with
  | Except.error e => Except.error e
  | Except.ok entry => Except.ok (ln ((GetDocumentCount s : R) * 1 / (entry.size : R)))

/-- Inner loop of the plus words of `FindAllDocuments`, over the pairs
`(document_id, term_freq)` of one inverted entry. -/
def FindAllDocuments.plusEntry (s : SearchServer R) (document_predicate : DocumentPredicate)
    (inverse_document_freq : R) : StdMap Int R → StdMap Int R → Except Exn (StdMap Int R)
  | [], document_to_relevance => Except.ok document_to_relevance
  | (document_id, term_freq) :: rest, document_to_relevance =>
    match StdMap.atKey s.documents_ document_id with
    | Except.error e => Except.error e
    | Except.ok document_data =>
      if document_predicate document_id document_data.status document_data.rating then
        FindAllDocuments.plusEntry s document_predicate inverse_document_freq rest
          (StdMap.addTo document_to_relevance document_id (term_freq * inverse_document_freq))
      else
        FindAllDocuments.plusEntry s document_predicate inverse_document_freq rest
          document_to_relevance

/-- Body of the plus-word loop of `FindAllDocuments` for one word (also the body
of the task lambda of the parallel overload). -/
def FindAllDocuments.plusWord (ln : R → R) (s : SearchServer R)
    (document_predicate : DocumentPredicate) (word : Str) (document_to_relevance : StdMap Int R) :
    Except Exn (StdMap Int R) :=
  if StdMap.count s.word_to_document_freqs_ word = 0 then Except.ok document_to_relevance
  else
    match ComputeWordInverseDocumentFreq ln s word with
    | Except.error e => Except.error e
    | Except.ok inverse_document_freq =>
      match StdMap.atKey s.word_to_document_freqs_ word with
      | Except.error e => Except.error e
      | Except.ok entry =>
        FindAllDocuments.plusEntry s document_predicate inverse_document_freq entry
          document_to_relevance

/-- Loop of `FindAllDocuments` over `query.plus_words`. -/
def FindAllDocuments.plusLoop (ln : R → R) (s : SearchServer R)
    (document_predicate : DocumentPredicate) : List Str → StdMap Int R → Except Exn (StdMap Int R)
  | [], document_to_relevance => Except.ok document_to_relevance
  | word :: rest, document_to_relevance =>
    match FindAllDocuments.plusWord ln s document_predicate word document_to_relevance with
    | Except.error e => Except.error e
    | Except.ok next => FindAllDocuments.plusLoop ln s document_predicate rest next

/-- Body of the minus-word loop of `FindAllDocuments` for one word. -/
def FindAllDocuments.minusWord (s : SearchServer R) (word : Str)
    (document_to_relevance : StdMap Int R) : Except Exn (StdMap Int R) :=
  if StdMap.count s.word_to_document_freqs_ word = 0 then Except.ok document_to_relevance
  else
    match StdMap.atKey s.word_to_document_freqs_ word with
    | Except.error e => Except.error e
    | Except.ok entry =>
      Except.ok (entry.foldl (fun acc p => StdMap.erase p.1 acc) document_to_relevance)

/-- Loop of `FindAllDocuments` over `query.minus_words`. -/
def FindAllDocuments.minusLoop (s : SearchServer R) :
    List Str → StdMap Int R → Except Exn (StdMap Int R)
  | [], document_to_relevance => Except.ok document_to_relevance
  | word :: rest, document_to_relevance =>
    match FindAllDocuments.minusWord s word document_to_relevance with
    | Except.error e => Except.error e
    | Except.ok next => FindAllDocuments.minusLoop s rest next

/-- Final loop of `FindAllDocuments`: one `Document` per pair of the accumulator. -/
def FindAllDocuments.emit (s : SearchServer R) : StdMap Int R → Except Exn (List (Document R))
  | [] => Except.ok []
  | (document_id, relevance) :: rest =>
    match StdMap.atKey s.documents_ document_id with
    | Except.error e => Except.error e
    | Except.ok document_data =>
      match FindAllDocuments.emit s rest with
      | Except.error e => Except.error e
      | Except.ok matched_documents =>
        Except.ok
          ({ id := document_id, relevance := relevance, rating := document_data.rating }
            :: matched_documents)

/-- Method `SearchServer::FindAllDocuments(query, document_predicate)`. -/
def FindAllDocuments (ln : R → R) (s : SearchServer R) (query : Query)
    (document_predicate : DocumentPredicate) : Except Exn (List (Document R)) :=
  match FindAllDocuments.plusLoop ln s document_predicate query.plus_words [] with
  | Except.error e => Except.error e
  | Except.ok plus =>
    match FindAllDocuments.minusLoop s query.minus_words plus with
    | Except.error e => Except.error e
    | Except.ok document_to_relevance => FindAllDocuments.emit s document_to_relevance

/-- The comparison lambda given to `sort` in `FindTopDocuments`. -/
def compareDocuments (lhs rhs : Document R) : Bool :=
  if |lhs.relevance - rhs.relevance| < 1 / 1000000 then decide (lhs.rating > rhs.rating)
  else decide (lhs.relevance > rhs.relevance)

/-- Routine `__unguarded_linear_insert` of the GNU library, with the sorted
range read from its end: the value `x` moves towards the front past every
element it compares less than. -/
def sortInsert {α : Type} (comp : α → α → Bool) (x : α) : List α → List α
  | [] => [x]
  | y :: rest => if comp x y then y :: sortInsert comp x rest else x :: y :: rest

/-- One pass of the loop of `__insertion_sort` of the GNU library, with the
sorted range read from its end: a value that compares less than the first
element goes to the front, any other value is inserted from the end. -/
def sortStep {α : Type} (comp : α → α → Bool) (sorted : List α) (x : α) : List α :=
  match sorted.getLast? with
  | some first => if comp x first then sorted ++ [x] else sortInsert comp x sorted
  | none => [x]

/-- Library routine `std::sort(first, last, comp)`, which is not part of the
sources.  The standard fixes its result only for a comparison that is a strict
weak ordering, and then only up to the order of equivalent elements
(`MeetsSortContract`).  This definition is the insertion sort that the GNU
library runs on a range of at most 16 elements; for a longer range, or another
library, only the contract is known.  What depends on the order of the result
is stated for every routine that meets the contract (`FindTopDocumentsWith`). -/
def stdSort {α : Type} (comp : α → α → Bool) (l : List α) : List α :=
  (l.foldl (sortStep comp) []).reverse

/-- Method `SearchServer::FindTopDocuments(raw_query, document_predicate)`. -/
def FindTopDocuments (ln : R → R) (s : SearchServer R) (raw_query : Str)
    (document_predicate : DocumentPredicate) : Except Exn (List (Document R)) :=
  match ParseQuery s raw_query with
  | Except.error e => Except.error e
  | Except.ok query =>
    match FindAllDocuments ln s query document_predicate with
    | Except.error e => Except.error e
    | Except.ok matched_documents =>
      let sorted := stdSort compareDocuments matched_documents
      Except.ok
        (if sorted.length > MAX_RESULT_DOCUMENT_COUNT then sorted.take MAX_RESULT_DOCUMENT_COUNT
         else sorted)

/-- Method `SearchServer::FindTopDocuments(raw_query, status)`. -/
def FindTopDocumentsStatus (ln : R → R) (s : SearchServer R) (raw_query : Str)
    (status : DocumentStatus) : Except Exn (List (Document R)) :=
  FindTopDocuments ln s raw_query (fun _ document_status _ => decide (document_status = status))

/-- Method `SearchServer::FindTopDocuments(raw_query)`. -/
def FindTopDocumentsActual (ln : R → R) (s : SearchServer R) (raw_query : Str) :
    Except Exn (List (Document R)) :=
  FindTopDocumentsStatus ln s raw_query DocumentStatus.ACTUAL

/-! ## Sharded concurrent map and parallel ranking

The tasks started with `std::async` are run to completion, one after another,
at the point where they are launched; the mutexes then have no effect and are
left out.  This is one of the schedules of the code, the one in which every
task has finished before the shared map is read: in the code the futures of
the minus words are joined only when the function returns, after
`BuildOrdinaryMap`, so that under other schedules the map is read before an
erasure. -/

/-- How a run ends without a value: a C++ exception, an integer division or
modulo by zero, an iterator advanced beyond `end()`, or a loop that is still
running when the step budget of the model is used up. -/
inductive Fault where
  | thrown : Exn → Fault
  | division_by_zero : Fault
  | past_the_end : Fault
  | still_running : Fault
  deriving DecidableEq, Repr

/-- Lift of a computation that can only throw. -/
def liftExn {α : Type} : Except Exn α → Except Fault α
  | Except.ok a => Except.ok a
  | Except.error e => Except.error (Fault.thrown e)

/-- Class `ConcurrentMap<int, Value>`: the vector `map_vec_` of buckets. -/
structure ConcurrentMap (V : Type) where
  map_vec_ : List (StdMap Int V)

/-- Conversion `static_cast<uint64_t>(key)` of an `int`. -/
def toUInt64 (key : Int) : Nat := (key % 18446744073709551616).toNat

/-- Constructor `ConcurrentMap(bucket_count)`. -/
def ConcurrentMap.new {V : Type} (bucket_count : Nat) : ConcurrentMap V :=
  { map_vec_ := List.replicate bucket_count [] }

/-- Statement `m[key].ref_to_value = f(m[key].ref_to_value)`: `operator[]` picks
bucket `uint64(key) % map_vec_.size()` and value-initialises a missing entry
to `init`. -/
def ConcurrentMap.access {V : Type} (init : V) (m : ConcurrentMap V) (key : Int) (f : V → V) :
    Except Fault (ConcurrentMap V) :=
  if m.map_vec_.length = 0 then Except.error Fault.division_by_zero
  else
    let i := toUInt64 key % m.map_vec_.length
    Except.ok
      { map_vec_ := m.map_vec_.modify
          (fun mp => StdMap.insert key (f ((StdMap.find mp key).getD init)) mp) i }

/-- Method `ConcurrentMap::Erase`. -/
def ConcurrentMap.Erase {V : Type} (m : ConcurrentMap V) (key : Int) :
    Except Fault (ConcurrentMap V) :=
  if m.map_vec_.length = 0 then Except.error Fault.division_by_zero
  else
    let ukey := toUInt64 key % m.map_vec_.length
    Except.ok { map_vec_ := m.map_vec_.modify (fun mp => StdMap.erase key mp) ukey }

/-- Member `std::map::merge`: the elements of `source` whose key is not yet in
`result` move into `result`. -/
def StdMap.merge {V : Type} (result source : StdMap Int V) : StdMap Int V :=
  source.foldl (fun acc p => if StdMap.count acc p.1 = 0 then StdMap.insert p.1 p.2 acc else acc)
    result

/-- Method `ConcurrentMap::BuildOrdinaryMap`. -/
def ConcurrentMap.BuildOrdinaryMap {V : Type} (m : ConcurrentMap V) : StdMap Int V :=
  m.map_vec_.foldl (fun result mp => StdMap.merge result mp) []

/-- Inner loop of the plus-word task lambda, over one inverted entry. -/
def FindAllDocumentsPar.plusEntry (s : SearchServer R) (document_predicate : DocumentPredicate)
    (inverse_document_freq : R) :
    StdMap Int R → ConcurrentMap R → Except Fault (ConcurrentMap R)
  | [], document_to_relevance => Except.ok document_to_relevance
  | (document_id, term_freq) :: rest, document_to_relevance =>
    match StdMap.atKey s.documents_ document_id with
    | Except.error e => Except.error (Fault.thrown e)
    | Except.ok document_data =>
      if document_predicate document_id document_data.status document_data.rating then
        match ConcurrentMap.access 0 document_to_relevance document_id
            (fun v => v + term_freq * inverse_document_freq) with
        | Except.error e => Except.error e
        | Except.ok next =>
          FindAllDocumentsPar.plusEntry s document_predicate inverse_document_freq rest next
      else
        FindAllDocumentsPar.plusEntry s document_predicate inverse_document_freq rest
          document_to_relevance

/-- The plus-word task lambda: the words from `begin` to `end`. -/
def FindAllDocumentsPar.plusTask (ln : R → R) (s : SearchServer R)
    (document_predicate : DocumentPredicate) :
    List Str → ConcurrentMap R → Except Fault (ConcurrentMap R)
  | [], document_to_relevance => Except.ok document_to_relevance
  | word :: rest, document_to_relevance =>
    if StdMap.count s.word_to_document_freqs_ word = 0 then
      FindAllDocumentsPar.plusTask ln s document_predicate rest document_to_relevance
    else
      match ComputeWordInverseDocumentFreq ln s word with
      | Except.error e => Except.error (Fault.thrown e)
      | Except.ok inverse_document_freq =>
        match StdMap.atKey s.word_to_document_freqs_ word with
        | Except.error e => Except.error (Fault.thrown e)
        | Except.ok entry =>
          match FindAllDocumentsPar.plusEntry s document_predicate inverse_document_freq entry
              document_to_relevance with
          | Except.error e => Except.error e
          | Except.ok next => FindAllDocumentsPar.plusTask ln s document_predicate rest next

/-- The minus-word task lambda: the words from `begin` to `end`. -/
def FindAllDocumentsPar.minusTask (s : SearchServer R) :
    List Str → ConcurrentMap R → Except Fault (ConcurrentMap R)
  | [], document_to_relevance => Except.ok document_to_relevance
  | word :: rest, document_to_relevance =>
    if StdMap.count s.word_to_document_freqs_ word = 0 then
      FindAllDocumentsPar.minusTask s rest document_to_relevance
    else
      match StdMap.atKey s.word_to_document_freqs_ word with
      | Except.error e => Except.error (Fault.thrown e)
      | Except.ok entry =>
        match entry.foldl (fun acc p => acc.bind (fun m => ConcurrentMap.Erase m p.1))
            (Except.ok document_to_relevance) with
        | Except.error e => Except.error e
        | Except.ok next => FindAllDocumentsPar.minusTask s rest next

/-- The loop `while (begin != words.end())` that cuts a word set into chunks and
launches one task per chunk.  The iterators `begin` and `end` are positions in
`words`; `stride` is the argument of `std::advance`; `budget` bounds the number
of passes of the model. -/
def FindAllDocumentsPar.chunkLoop (task : List Str → ConcurrentMap R → Except Fault (ConcurrentMap R))
    (words : List Str) (stride : Nat) :
    Nat → Nat → ConcurrentMap R → Except Fault (ConcurrentMap R)
  | 0, begin, document_to_relevance =>
    if begin = words.length then Except.ok document_to_relevance
    else Except.error Fault.still_running
  | budget + 1, begin, document_to_relevance =>
    if begin = words.length then Except.ok document_to_relevance
    else if begin + stride > words.length then Except.error Fault.past_the_end
    else
      match task ((words.drop begin).take stride) document_to_relevance with
      | Except.error e => Except.error e
      | Except.ok next =>
        FindAllDocumentsPar.chunkLoop task words stride budget (begin + stride) next

/-- The chunking of one word set: the stride `words.size() / thread_count` is
computed in the first pass of the loop, so a set that is empty divides nothing. -/
def FindAllDocumentsPar.chunks (task : List Str → ConcurrentMap R → Except Fault (ConcurrentMap R))
    (words : List Str) (thread_count budget : Nat) (document_to_relevance : ConcurrentMap R) :
    Except Fault (ConcurrentMap R) :=
  if words.length = 0 then Except.ok document_to_relevance
  else if thread_count = 0 then Except.error Fault.division_by_zero
  else
    FindAllDocumentsPar.chunkLoop task words (words.length / thread_count) budget 0
      document_to_relevance

/-- Method `SearchServer::FindAllDocuments(policy, query, document_predicate)`
for a policy other than `std::execution::seq`. -/
def FindAllDocumentsPar (ln : R → R) (s : SearchServer R) (query : Query)
    (document_predicate : DocumentPredicate) (budget : Nat) : Except Fault (List (Document R)) :=
  let thread_count := if query.plus_words.length < 10 then query.plus_words.length else 10
  let document_to_relevance : ConcurrentMap R := ConcurrentMap.new thread_count
  match FindAllDocumentsPar.chunks (FindAllDocumentsPar.plusTask ln s document_predicate)
      query.plus_words thread_count budget document_to_relevance with
  | Except.error e => Except.error e
  | Except.ok plus =>
    match FindAllDocumentsPar.chunks (FindAllDocumentsPar.minusTask s)
        query.minus_words thread_count budget plus with
    | Except.error e => Except.error e
    | Except.ok minus =>
      liftExn (FindAllDocuments.emit s (ConcurrentMap.BuildOrdinaryMap minus))

/-- Execution policies the callers pass. -/
inductive ExecutionPolicy where
  | seq : ExecutionPolicy
  | par : ExecutionPolicy
  deriving DecidableEq, Repr

/-- Method `SearchServer::FindTopDocuments(policy, raw_query, document_predicate)`. -/
def FindTopDocumentsPolicy (ln : R → R) (s : SearchServer R) (policy : ExecutionPolicy)
    (raw_query : Str) (document_predicate : DocumentPredicate) (budget : Nat) :
    Except Fault (List (Document R)) :=
  match policy with
  | ExecutionPolicy.seq => liftExn (FindTopDocuments ln s raw_query document_predicate)
  | ExecutionPolicy.par =>
    match ParseQuery s raw_query with
    | Except.error e => Except.error (Fault.thrown e)
    | Except.ok query =>
      match FindAllDocumentsPar ln s query document_predicate budget with
      | Except.error e => Except.error e
      | Except.ok matched_documents =>
        let sorted := stdSort compareDocuments matched_documents
        Except.ok
          (if sorted.length > MAX_RESULT_DOCUMENT_COUNT then sorted.take MAX_RESULT_DOCUMENT_COUNT
           else sorted)

end Server

/-! ## Document matcher and accessors

A function-local `static` outlives the call and is shared by all calls of the
function (for a template, of one instantiation): it is a value that each call
takes and hands on. -/

section Matcher

variable {R : Type}

/-- The lambda given to `std::copy_if` in `MatchDocument`, also the test of the
minus-word loop: the word has an inverted entry and the entry holds the
document (`at` follows a positive `count`). -/
def MatchDocument.wordInDocument (s : SearchServer R) (document_id : Int) (word : Str) : Bool :=
  if StdMap.count s.word_to_document_freqs_ word = 0 then false
  else
    match StdMap.find s.word_to_document_freqs_ word with
    | some entry => decide (StdMap.count entry document_id ≠ 0)
    | none => false

/-- Method `SearchServer::MatchDocument(policy, raw_query, document_id)`, one
instantiation: `query_static` is its `static const auto query`, `none` until an
initialisation has completed.  The outcome comes with the static afterwards.
`std::copy_if` keeps the plus words that pass the lambda, in order, and
`matched_counter` counts them. -/
def MatchDocument (query_static : Option Query) (s : SearchServer R) (raw_query : Str)
    (document_id : Int) : Except Exn (List Str × DocumentStatus) × Option Query :=
  if StdMap.count s.documents_ document_id = 0 then (Except.error Exn.out_of_range, query_static)
  else
    let initialised : Except Exn Query :=
      match query_static with
      | some query => Except.ok query
      | none => ParseQuery s raw_query
    match initialised with
    | Except.error e => (Except.error e, query_static)
    | Except.ok query =>
      let matched_words :=
        query.plus_words.filter (fun word => MatchDocument.wordInDocument s document_id word)
      let matched_words :=
        if query.minus_words.any (fun word => MatchDocument.wordInDocument s document_id word)
        then [] else matched_words
      match StdMap.atKey s.documents_ document_id with
      | Except.error e => (Except.error e, some query)
      | Except.ok document_data => (Except.ok (matched_words, document_data.status), some query)

/-- The statics of the two instantiations of `MatchDocument` that the callers
use: with `std::execution::seq` and with `std::execution::par`. -/
structure MatchStatics where
  seq_query : Option Query
  par_query : Option Query
  deriving DecidableEq, Repr

/-- A call of `MatchDocument` under a policy: it runs the instantiation for
the policy, on its own static.  `MatchDocument(raw_query, document_id)` is the
call under `std::execution::seq`. -/
def MatchDocumentPolicy (statics : MatchStatics) (s : SearchServer R) (policy : ExecutionPolicy)
    (raw_query : Str) (document_id : Int) :
    Except Exn (List Str × DocumentStatus) × MatchStatics :=
  match policy with
  | ExecutionPolicy.seq =>
    ((MatchDocument statics.seq_query s raw_query document_id).1,
      { statics with seq_query := (MatchDocument statics.seq_query s raw_query document_id).2 })
  | ExecutionPolicy.par =>
    ((MatchDocument statics.par_query s raw_query document_id).1,
      { statics with par_query := (MatchDocument statics.par_query s raw_query document_id).2 })

/-- Member `std::map::emplace`: nothing is stored when the key is present. -/
def StdMap.emplace {K V : Type} [LinearOrder K] (k : K) (v : V) (m : StdMap K V) : StdMap K V :=
  if StdMap.count m k = 0 then StdMap.insert k v m else m

/-- Method `SearchServer::GetWordFrequencies`: `res` is its `static` map, and
the map returned is that static after the call. -/
def GetWordFrequencies (res : StdMap Str R) (s : SearchServer R)
    (document_id : Int) : StdMap Str R :=
  if StdMap.count s.documents_to_word_freqs_ document_id = 0 then res
  else
    match StdMap.find s.documents_to_word_freqs_ document_id with
    | some entry => entry.foldl (fun res p => StdMap.emplace p.1 p.2 res) res
    | none => res

/-- An operation on a map of values with `int` keys: `m[key] = f(m[key])`
through the reference that `operator[]` gives, or `erase(key)`. -/
inductive MapOp (V : Type) where
  | access : Int → (V → V) → MapOp V
  | erase : Int → MapOp V

/-- One operation on the sharded map. -/
def ConcurrentMap.applyOp {V : Type} (init : V) (m : ConcurrentMap V) :
    MapOp V → Except Fault (ConcurrentMap V)
  | MapOp.access key f => ConcurrentMap.access init m key f
  | MapOp.erase key => ConcurrentMap.Erase m key

/-- A sequence of operations on the sharded map, one after another. -/
def ConcurrentMap.run {V : Type} (init : V) :
    List (MapOp V) → ConcurrentMap V → Except Fault (ConcurrentMap V)
  | [], m => Except.ok m
  | op :: rest, m =>
    match ConcurrentMap.applyOp init m op with
    | Except.error e => Except.error e
    | Except.ok next => ConcurrentMap.run init rest next

/-- One operation on an ordinary `std::map`. -/
def StdMap.applyOp {V : Type} (init : V) (m : StdMap Int V) : MapOp V → StdMap Int V
  | MapOp.access key f => StdMap.insert key (f ((StdMap.find m key).getD init)) m
  | MapOp.erase key => StdMap.erase key m

/-- A sequence of operations on an ordinary `std::map`, one after another. -/
def StdMap.run {V : Type} (init : V) (ops : List (MapOp V)) (m : StdMap Int V) : StdMap Int V :=
  ops.foldl (StdMap.applyOp init) m

end Matcher

/-! ## Reachable states and their invariant -/

/-- The value stored under `k1` and then `k2` in a map of maps. -/
def StdMap.find2 {K K2 V : Type} [LinearOrder K] [LinearOrder K2]
    (m : StdMap K (StdMap K2 V)) (k1 : K) (k2 : K2) : Option V :=
  (StdMap.find m k1).bind (fun entry => StdMap.find entry k2)

section Reach

variable {R : Type} [LinearOrderedField R]

/-- The states of a server: a constructed server, and any state after a call of
`AddDocument` or `RemoveDocument`, whether the call throws or not. -/
inductive Reachable : SearchServer R → Prop where
  | new (stop_words : List Str) (s : SearchServer R) :
      SearchServer.new stop_words = Except.ok s → Reachable s
  | add (s : SearchServer R) (document_id : Int) (document : Str) (status : DocumentStatus)
      (ratings : List Int) :
      Reachable s → Reachable (AddDocument s document_id document status ratings).2
  | remove (s : SearchServer R) (document_id : Int) :
      Reachable s → Reachable (RemoveDocument s document_id).2

/-- A document id is live when it is in the set `document_ids_`, the ids that
`begin()` and `end()` iterate. -/
def IsLive (s : SearchServer R) (document_id : Int) : Prop :=
  document_id ∈ s.document_ids_

/-- Invariant of the two indexes: ordered keys, entries that mirror each other,
and no stop word as a key. -/
structure IndexInv (s : SearchServer R) : Prop where
  fwd_sorted : (StdMap.keys s.documents_to_word_freqs_).Sorted (· < ·)
  fwd_inner : ∀ d e, StdMap.find s.documents_to_word_freqs_ d = some e →
    (StdMap.keys e).Sorted (· < ·)
  inv_sorted : (StdMap.keys s.word_to_document_freqs_).Sorted (· < ·)
  inv_inner : ∀ w e, StdMap.find s.word_to_document_freqs_ w = some e →
    (StdMap.keys e).Sorted (· < ·)
  mirror : ∀ d t, StdMap.find2 s.documents_to_word_freqs_ d t
    = StdMap.find2 s.word_to_document_freqs_ t d
  no_stop : ∀ w, w ∈ StdMap.keys s.word_to_document_freqs_ → IsStopWord s w = false

/-- Invariant of the reachable states. -/
structure Inv (s : SearchServer R) : Prop where
  index : IndexInv s
  docs_sorted : (StdMap.keys s.documents_).Sorted (· < ·)
  ids_eq : s.document_ids_ = StdMap.keys s.documents_
  fwd_live : ∀ d, d ∈ StdMap.keys s.documents_to_word_freqs_ → d ∈ StdMap.keys s.documents_
  nonneg : ∀ d, d ∈ StdMap.keys s.documents_ → 0 ≤ d

/-- The states that follow a state `s` as long as the id is not added again:
`s` itself, and any state after a call of `RemoveDocument`, or of `AddDocument`
with another id or without success. -/
inductive NotAddedAgain (document_id : Int) (s : SearchServer R) : SearchServer R → Prop where
  | start : NotAddedAgain document_id s s
  | add (s' : SearchServer R) (other_id : Int) (document : Str) (status : DocumentStatus)
      (ratings : List Int) :
      NotAddedAgain document_id s s' →
      (other_id = document_id →
        (AddDocument s' other_id document status ratings).1 ≠ Except.ok ()) →
      NotAddedAgain document_id s (AddDocument s' other_id document status ratings).2
  | remove (s' : SearchServer R) (other_id : Int) :
      NotAddedAgain document_id s s' →
      NotAddedAgain document_id s (RemoveDocument s' other_id).2

end Reach

/-! ## What the ranker is to compute -/

section RankSpec

variable {R : Type} [LinearOrderedField R]

/-- The document predicate applied to the id and the stored record of a
document; false for an id without a record. -/
def holdsFor (s : SearchServer R) (document_predicate : DocumentPredicate) (d : Int) : Bool :=
  match StdMap.find s.documents_ d with
  | some document_data => document_predicate d document_data.status document_data.rating
  | none => false

/-- The document `d` contains the term `t`: `t` is a key of the forward entry of `d`. -/
def containsTerm (s : SearchServer R) (d : Int) (t : Str) : Bool :=
  (StdMap.find2 s.documents_to_word_freqs_ d t).isSome

/-- The documents a query is to find: the predicate holds, the document
contains a plus term and contains no minus term. -/
def qualifies (s : SearchServer R) (query : Query) (document_predicate : DocumentPredicate)
    (d : Int) : Bool :=
  holdsFor s document_predicate d
    && query.plus_words.any (fun t => containsTerm s d t)
    && !query.minus_words.any (fun t => containsTerm s d t)

/-- The term frequency of `t` in `d`, read in the forward index. -/
def termFreq (s : SearchServer R) (d : Int) (t : Str) : R :=
  (StdMap.find2 s.documents_to_word_freqs_ d t).getD 0

/-- The number of documents in the inverted entry of `t`. -/
def documentFreq (s : SearchServer R) (t : Str) : Nat :=
  ((StdMap.find s.word_to_document_freqs_ t).getD []).length

/-- The relevance of `d` for a query: the sum over the plus terms that occur
in `d` of `tf * ln (document_count / document_frequency)`. -/
def relevanceOf (ln : R → R) (s : SearchServer R) (query : Query) (d : Int) : R :=
  ((query.plus_words.filter (fun t => containsTerm s d t)).map
    (fun t => termFreq s d t * ln ((GetDocumentCount s : R) / (documentFreq s t : R)))).sum

/-- What one plus word adds to the accumulator entry of `d`. -/
def termScore (ln : R → R) (s : SearchServer R) (d : Int) (w : Str) : R :=
  match StdMap.find2 s.word_to_document_freqs_ w d with
  | some term_freq =>
    term_freq * ln ((GetDocumentCount s : R) * 1
      / ((StdMap.size ((StdMap.find s.word_to_document_freqs_ w).getD []) : Nat) : R))
  | none => 0

end RankSpec

/-! ## What the query parser is to reject -/

/-- A token that makes a query malformed: the bare `-`, a token that begins
with `--`, or a token with a character below 32. -/
def malformedToken (w : Str) : Prop :=
  w = ['-'] ∨ (∃ rest, w = '-' :: '-' :: rest) ∨ ∃ c ∈ w, c.toNat < 32

/-! ## What the sharded map is to hold -/

/-- The sharded map `m` with `N` buckets holds the ordinary map `o`: every
bucket is ordered and holds only keys routed to it, and the bucket a key is
routed to stores for the key what `o` stores. -/
structure Sharded {V : Type} (N : Nat) (m : ConcurrentMap V) (o : StdMap Int V) : Prop where
  length_eq : m.map_vec_.length = N
  bucket_sorted : ∀ (i : Nat) (b : StdMap Int V),
    m.map_vec_[i]? = some b → (StdMap.keys b).Sorted (· < ·)
  bucket_route : ∀ (i : Nat) (b : StdMap Int V) (k : Int),
    m.map_vec_[i]? = some b → k ∈ StdMap.keys b → toUInt64 k % N = i
  bucket_find : ∀ (k : Int) (b : StdMap Int V),
    m.map_vec_[toUInt64 k % N]? = some b → StdMap.find b k = StdMap.find o k
  sorted : (StdMap.keys o).Sorted (· < ·)

/-! ## What the tokenizer is to return -/

/-- The tokens of a text in the words of the specification, "splits on
whitespace, drops empty tokens": the text is cut at every space and the empty
pieces are dropped, which leaves the maximal runs of characters other than the
space, in their order. -/
def tokensOfSpec (text : Str) : List Str :=
  (text.splitOn ' ').filter (fun w => !w.isEmpty)

/-! ## What the library promises of the sort -/

/-- A server over the rationals constructed with the stop words `and in on`. -/
def exampleServer : SearchServer ℚ :=
  { stop_words_ := ["and".toList, "in".toList, "on".toList]
    word_to_document_freqs_ := []
    documents_to_word_freqs_ := []
    documents_ := []
    document_ids_ := [] }

/-- The example server after `AddDocument(0, "a cat and a dog", ACTUAL, {5, 6})`. -/
def exampleServer1 : SearchServer ℚ :=
  (AddDocument exampleServer 0 "a cat and a dog".toList DocumentStatus.ACTUAL [5, 6]).2

/-- The server without stop words after `AddDocument(1, "white cat white dog",
ACTUAL, {2})` and `AddDocument(2, "white cat", ACTUAL, {7})`. -/
def exampleServer2 : SearchServer ℚ :=
  (AddDocument
    (AddDocument
      { stop_words_ := []
        word_to_document_freqs_ := []
        documents_to_word_freqs_ := []
        documents_ := []
        document_ids_ := [] }
      1 "white cat white dog".toList DocumentStatus.ACTUAL [2]).2
    2 "white cat".toList DocumentStatus.ACTUAL [7]).2

/-- A server over the rationals constructed without stop words. -/
def blankServer : SearchServer ℚ :=
  { stop_words_ := []
    word_to_document_freqs_ := []
    documents_to_word_freqs_ := []
    documents_ := []
    document_ids_ := [] }

namespace StdSet

variable {K : Type} [LinearOrder K]

theorem mem_insert (k x : K) (s : StdSet K) : x ∈ insert k s ↔ x = k ∨ x ∈ s := by
  induction s with
  | nil => simp [insert]
  | cons y rest ih =>
    unfold insert
    split_ifs with h1 h2
    · simp
    · subst h2; simp
    · simp only [List.mem_cons, ih]; tauto

theorem set_sorted_insert (k : K) (s : StdSet K) (h : s.Sorted (· < ·)) :
    (insert k s).Sorted (· < ·) := by
  induction s with
  | nil => simp [insert]
  | cons y rest ih =>
    have hy := List.rel_of_sorted_cons h
    have hrest := h.of_cons
    unfold insert
    split_ifs with h1 h2
    · apply List.sorted_cons.2
      refine ⟨?_, h⟩
      intro b hb
      rcases List.mem_cons.1 hb with rfl | hb
      · exact h1
      · exact lt_trans h1 (hy b hb)
    · exact h
    · apply List.sorted_cons.2
      refine ⟨?_, ih hrest⟩
      intro b hb
      rcases (mem_insert k b rest).1 hb with rfl | hb
      · exact lt_of_le_of_ne (not_lt.1 h1) (Ne.symm h2)
      · exact hy b hb

theorem mem_erase (k x : K) (s : StdSet K) : x ∈ erase k s ↔ x ≠ k ∧ x ∈ s := by
  simp [erase, and_comm]

theorem set_sorted_erase (k : K) (s : StdSet K) (h : s.Sorted (· < ·)) :
    (erase k s).Sorted (· < ·) :=
  List.Pairwise.filter _ h

theorem set_erase_of_not_mem (k : K) (s : StdSet K) (h : k ∉ s) : erase k s = s := by
  unfold erase
  apply List.filter_eq_self.2
  intro a ha
  have : a ≠ k := fun e => h (e ▸ ha)
  simpa using this

theorem set_erase_insert (k : K) (s : StdSet K) (h : k ∉ s) : erase k (insert k s) = s := by
  induction s with
  | nil => simp [insert, erase]
  | cons y rest ih =>
    have hy : y ≠ k := fun e => h (e ▸ List.mem_cons_self _ _)
    have hrest : k ∉ rest := fun e => h (List.mem_cons_of_mem _ e)
    unfold insert
    split_ifs with h1 h2
    · have := set_erase_of_not_mem k (y :: rest) h
      simpa [erase] using this
    · exact absurd h2.symm hy
    · have := ih hrest
      simp only [erase] at this ⊢
      simp [List.filter_cons, hy, this]

theorem set_sorted_ext {s t : StdSet K} (hs : s.Sorted (· < ·)) (ht : t.Sorted (· < ·))
    (h : ∀ x, x ∈ s ↔ x ∈ t) : s = t :=
  List.eq_of_perm_of_sorted ((List.perm_ext_iff_of_nodup hs.nodup ht.nodup).2 h) hs ht

end StdSet

namespace StdMap

variable {K V : Type} [LinearOrder K]

theorem keys_insert (k : K) (v : V) (m : StdMap K V) :
    keys (insert k v m) = StdSet.insert k (keys m) := by
  induction m with
  | nil => rfl
  | cons p rest ih =>
    obtain ⟨k', v'⟩ := p
    simp only [insert, keys, List.map_cons, StdSet.insert]
    split_ifs with h1 h2
    · rfl
    · subst h2; rfl
    · simp only [keys] at ih
      simp [ih]

theorem keys_erase (k : K) (m : StdMap K V) : keys (erase k m) = StdSet.erase k (keys m) := by
  induction m with
  | nil => rfl
  | cons p rest ih =>
    simp only [erase, keys, StdSet.erase] at ih ⊢
    by_cases h : p.1 = k <;> simp [List.filter_cons, h, ih]

theorem find_insert (k : K) (v : V) (m : StdMap K V) (x : K) :
    find (insert k v m) x = if k = x then some v else find m x := by
  induction m with
  | nil => simp [insert, find]
  | cons p rest ih =>
    obtain ⟨k', v'⟩ := p
    by_cases h1 : k < k'
    · by_cases h3 : k = x
      · subst h3; simp [insert, find, h1]
      · simp [insert, find, h1, h3]
    · by_cases h2 : k = k'
      · subst h2
        by_cases h3 : k = x
        · subst h3; simp [insert, find]
        · simp [insert, find, h3]
      · by_cases h3 : k = x
        · subst h3
          have : ¬ k' = k := fun e => h2 e.symm
          simp [insert, find, h1, h2, this, ih]
        · simp [insert, find, h1, h2, ih, h3]

theorem find_erase (k : K) (m : StdMap K V) (x : K) :
    find (erase k m) x = if x = k then none else find m x := by
  induction m with
  | nil => simp [erase, find]
  | cons p rest ih =>
    obtain ⟨k', v'⟩ := p
    simp only [erase] at ih ⊢
    by_cases h : k' = k
    · subst h
      simp only [List.filter_cons, ne_eq, not_true_eq_false, decide_False, Bool.false_eq_true,
        ↓reduceIte, ih, find]
      split_ifs with h1 h2 h2 <;> simp_all
    · simp only [List.filter_cons, ne_eq, h, not_false_eq_true, decide_True, ↓reduceIte, find, ih]
      split_ifs with h1 h2 h2 <;> simp_all

theorem find_eq_none_iff (m : StdMap K V) (x : K) : find m x = none ↔ x ∉ keys m := by
  induction m with
  | nil => simp [find, keys]
  | cons p rest ih =>
    obtain ⟨k', v'⟩ := p
    simp only [find, keys, List.map_cons, List.mem_cons, not_or] at ih ⊢
    split_ifs with h
    · simp [h]
    · simp [ih, Ne.symm h]

theorem find_isSome_iff (m : StdMap K V) (x : K) : (find m x).isSome ↔ x ∈ keys m := by
  rw [← not_iff_not, ← find_eq_none_iff]
  simp

theorem mem_keys_of_find {m : StdMap K V} {x : K} {v : V} (h : find m x = some v) :
    x ∈ keys m := by
  rw [← find_isSome_iff, h]; rfl

theorem exists_find_of_mem_keys {m : StdMap K V} {x : K} (h : x ∈ keys m) :
    ∃ v, find m x = some v :=
  Option.isSome_iff_exists.1 ((find_isSome_iff m x).2 h)

theorem mem_of_find {m : StdMap K V} {x : K} {v : V} (h : find m x = some v) : (x, v) ∈ m := by
  induction m with
  | nil => simp [find] at h
  | cons p rest ih =>
    obtain ⟨k', v'⟩ := p
    simp only [find] at h
    split_ifs at h with h1
    · simp only [Option.some.injEq] at h
      subst h1 h
      exact List.mem_cons_self _ _
    · exact List.mem_cons_of_mem _ (ih h)

theorem find_of_mem {m : StdMap K V} (hm : (keys m).Sorted (· < ·)) {x : K} {v : V}
    (h : (x, v) ∈ m) : find m x = some v := by
  induction m with
  | nil => simp at h
  | cons p rest ih =>
    obtain ⟨k', v'⟩ := p
    simp only [keys, List.map_cons] at hm
    rcases List.mem_cons.1 h with h | h
    · simp only [Prod.mk.injEq] at h
      simp [find, h.1, h.2]
    · have hlt : k' < x :=
        List.rel_of_sorted_cons hm x (List.mem_map.2 ⟨(x, v), h, rfl⟩)
      simp only [find, ne_of_lt hlt, ↓reduceIte]
      exact ih hm.of_cons h

theorem sorted_insert (k : K) (v : V) (m : StdMap K V) (h : (keys m).Sorted (· < ·)) :
    (keys (insert k v m)).Sorted (· < ·) := by
  rw [keys_insert]; exact StdSet.set_sorted_insert k _ h

theorem sorted_erase (k : K) (m : StdMap K V) (h : (keys m).Sorted (· < ·)) :
    (keys (erase k m)).Sorted (· < ·) := by
  rw [keys_erase]; exact StdSet.set_sorted_erase k _ h

theorem sorted_ext {m m' : StdMap K V} (hm : (keys m).Sorted (· < ·))
    (hm' : (keys m').Sorted (· < ·)) (h : ∀ x, find m x = find m' x) : m = m' := by
  have hn : m.Nodup := List.Nodup.of_map _ hm.nodup
  have hn' : m'.Nodup := List.Nodup.of_map _ hm'.nodup
  have hperm : m.Perm m' := by
    refine (List.perm_ext_iff_of_nodup hn hn').2 ?_
    rintro ⟨x, v⟩
    constructor
    · intro hx
      exact mem_of_find ((h x).symm.trans (find_of_mem hm hx))
    · intro hx
      exact mem_of_find ((h x).trans (find_of_mem hm' hx))
  have hs : m.Sorted (fun a b => a.1 < b.1) := List.pairwise_map.1 hm
  have hs' : m'.Sorted (fun a b => a.1 < b.1) := List.pairwise_map.1 hm'
  have hk : keys m = keys m' :=
    List.eq_of_perm_of_sorted (hperm.map _) hm hm'
  clear hperm hn hn' hs hs'
  induction m generalizing m' with
  | nil =>
    cases m' with
    | nil => rfl
    | cons q r => simp [keys] at hk
  | cons p rest ih =>
    cases m' with
    | nil => simp [keys] at hk
    | cons q r =>
      obtain ⟨a, b⟩ := p
      obtain ⟨c, d⟩ := q
      simp only [keys, List.map_cons, List.cons.injEq] at hk
      obtain ⟨hac, hk⟩ := hk
      subst hac
      have hb : b = d := by
        have := h a
        simpa [find] using this
      subst hb
      simp only [keys, List.map_cons] at hm hm'
      congr 1
      refine ih hm.of_cons hm'.of_cons ?_ hk
      intro x
      have hx := h x
      simp only [find] at hx
      by_cases hax : a = x
      · subst hax
        have h1 : a ∉ keys rest := fun hmem => lt_irrefl _ (List.rel_of_sorted_cons hm a hmem)
        have h2 : a ∉ keys r := fun hmem => lt_irrefl _ (List.rel_of_sorted_cons hm' a hmem)
        rw [(find_eq_none_iff rest a).2 h1, (find_eq_none_iff r a).2 h2]
      · simpa [hax] using hx

theorem erase_insert (k : K) (v : V) (m : StdMap K V) (h : k ∉ keys m) :
    erase k (insert k v m) = m := by
  induction m with
  | nil => simp [insert, erase]
  | cons p rest ih =>
    obtain ⟨k', v'⟩ := p
    have hy : k' ≠ k := fun e => h (by simp [keys, e])
    have hrest : k ∉ keys rest := fun e => h (by simp only [keys, List.map_cons] at e ⊢; simp [e])
    have hall : erase k ((k', v') :: rest) = (k', v') :: rest := by
      unfold erase
      apply List.filter_eq_self.2
      intro a ha
      have : a.1 ≠ k := fun e => h (e ▸ List.mem_map.2 ⟨a, ha, rfl⟩)
      simpa using this
    unfold insert
    split_ifs with h1 h2
    · simpa [erase] using hall
    · exact absurd h2.symm hy
    · have := ih hrest
      simp only [erase] at this ⊢
      simp [List.filter_cons, hy, this]

theorem erase_of_not_mem (k : K) (m : StdMap K V) (h : k ∉ keys m) : erase k m = m := by
  unfold erase
  apply List.filter_eq_self.2
  intro a ha
  have : a.1 ≠ k := fun e => h (e ▸ List.mem_map.2 ⟨a, ha, rfl⟩)
  simpa using this

end StdMap

namespace StdMap

variable {K K2 V : Type} [LinearOrder K] [LinearOrder K2]

theorem find_addTo [Zero V] [Add V] (m : StdMap K V) (k : K) (x : V) (a : K) :
    find (addTo m k x) a = if k = a then some ((find m k).getD 0 + x) else find m a := by
  unfold addTo; exact find_insert _ _ _ _

theorem sorted_addTo [Zero V] [Add V] (m : StdMap K V) (k : K) (x : V)
    (h : (keys m).Sorted (· < ·)) : (keys (addTo m k x)).Sorted (· < ·) := by
  unfold addTo; exact sorted_insert _ _ _ h

theorem find_addTo2 [Zero V] [Add V] (m : StdMap K (StdMap K2 V)) (k1 : K) (k2 : K2) (x : V)
    (a : K) :
    find (addTo2 m k1 k2 x) a
      = if k1 = a then some (addTo ((find m k1).getD []) k2 x) else find m a := by
  unfold addTo2; exact find_insert _ _ _ _

theorem find2_addTo2 [Zero V] [Add V] (m : StdMap K (StdMap K2 V)) (k1 : K) (k2 : K2) (x : V)
    (a : K) (b : K2) :
    find2 (addTo2 m k1 k2 x) a b
      = if k1 = a ∧ k2 = b then some ((find2 m k1 k2).getD 0 + x) else find2 m a b := by
  unfold find2
  rw [find_addTo2]
  by_cases h1 : k1 = a
  · subst h1
    simp only [↓reduceIte, Option.some_bind, find_addTo, true_and]
    cases hm : find m k1 with
    | none => simp [find]
    | some e => simp
  · simp [h1]

theorem sorted_addTo2 [Zero V] [Add V] (m : StdMap K (StdMap K2 V)) (k1 : K) (k2 : K2) (x : V)
    (h : (keys m).Sorted (· < ·)) : (keys (addTo2 m k1 k2 x)).Sorted (· < ·) := by
  unfold addTo2; exact sorted_insert _ _ _ h

theorem inner_sorted_addTo2 [Zero V] [Add V] (m : StdMap K (StdMap K2 V)) (k1 : K) (k2 : K2)
    (x : V) (h : ∀ a e, find m a = some e → (keys e).Sorted (· < ·)) :
    ∀ a e, find (addTo2 m k1 k2 x) a = some e → (keys e).Sorted (· < ·) := by
  intro a e he
  rw [find_addTo2] at he
  split_ifs at he with h1
  · simp only [Option.some.injEq] at he
    subst he
    apply sorted_addTo
    cases hm : find m k1 with
    | none => simp [keys]
    | some e0 => exact h k1 e0 hm
  · exact h a e he

theorem mem_keys_addTo2 [Zero V] [Add V] (m : StdMap K (StdMap K2 V)) (k1 : K) (k2 : K2)
    (x : V) (a : K) : a ∈ keys (addTo2 m k1 k2 x) ↔ a = k1 ∨ a ∈ keys m := by
  unfold addTo2; rw [keys_insert]; exact StdSet.mem_insert _ _ _

theorem find2_isSome_mem_keys {m : StdMap K (StdMap K2 V)} {a : K} {b : K2}
    (h : (find2 m a b).isSome) : a ∈ keys m := by
  unfold find2 at h
  cases hm : find m a with
  | none => simp [hm] at h
  | some e => exact mem_keys_of_find hm

end StdMap

/-! ## Facts about the index -/

section IndexFacts

variable {R : Type}

theorem SplitIntoWordsNoStop.loop_eq (s : SearchServer R) (ws words : List Str) :
    SplitIntoWordsNoStop.loop s ws words
      = if ws.all IsValidWord then
          Except.ok (words ++ ws.filter (fun w => !IsStopWord s w))
        else Except.error Exn.invalid_argument := by
  induction ws generalizing words with
  | nil => simp [SplitIntoWordsNoStop.loop]
  | cons w rest ih =>
    unfold SplitIntoWordsNoStop.loop
    by_cases hv : IsValidWord w
    · by_cases hs : IsStopWord s w
      · simp [hv, hs, ih]
      · simp [hv, hs, ih]
    · simp [hv]

theorem SplitIntoWordsNoStop_eq (s : SearchServer R) (text : Str) :
    SplitIntoWordsNoStop s text
      = if (SplitIntoWordsView text).all IsValidWord then
          Except.ok ((SplitIntoWordsView text).filter (fun w => !IsStopWord s w))
        else Except.error Exn.invalid_argument := by
  unfold SplitIntoWordsNoStop
  rw [SplitIntoWordsNoStop.loop_eq]
  simp

theorem IsValidWord_eq_false_iff (word : Str) :
    IsValidWord word = false ↔ ∃ c ∈ word, c.toNat < 32 := by
  simp [IsValidWord]

/-- The words of the document that `AddDocument` indexes, when the text is valid. -/
theorem SplitIntoWordsNoStop_not_stop (s : SearchServer R) (text : Str) (words : List Str)
    (h : SplitIntoWordsNoStop s text = Except.ok words) : ∀ w ∈ words, IsStopWord s w = false := by
  rw [SplitIntoWordsNoStop_eq] at h
  split_ifs at h
  simp only [Except.ok.injEq] at h
  subst h
  intro w hw
  simpa using (List.mem_filter.1 hw).2

variable [LinearOrderedField R]

theorem step_stop_words (document_id : Int) (x : R) (s : SearchServer R) (word : Str) :
    (AddDocument.step document_id x s word).stop_words_ = s.stop_words_ := rfl

theorem step_indexInv (document_id : Int) (x : R) (s : SearchServer R) (word : Str)
    (h : IndexInv s) (hw : IsStopWord s word = false) :
    IndexInv (AddDocument.step document_id x s word) where
  fwd_sorted := StdMap.sorted_addTo2 _ _ _ _ h.fwd_sorted
  fwd_inner := StdMap.inner_sorted_addTo2 _ _ _ _ h.fwd_inner
  inv_sorted := StdMap.sorted_addTo2 _ _ _ _ h.inv_sorted
  inv_inner := StdMap.inner_sorted_addTo2 _ _ _ _ h.inv_inner
  mirror := by
    intro d t
    simp only [AddDocument.step, StdMap.find2_addTo2, h.mirror]
    by_cases h1 : document_id = d <;> by_cases h2 : word = t <;> simp [h1, h2]
  no_stop := by
    intro w hmem
    simp only [AddDocument.step] at hmem
    rcases (StdMap.mem_keys_addTo2 _ _ _ _ _).1 hmem with rfl | hmem
    · exact hw
    · exact h.no_stop w hmem

theorem foldl_step_fixed (document_id : Int) (x : R) (words : List Str) (s : SearchServer R) :
    (words.foldl (AddDocument.step document_id x) s).stop_words_ = s.stop_words_
    ∧ (words.foldl (AddDocument.step document_id x) s).documents_ = s.documents_
    ∧ (words.foldl (AddDocument.step document_id x) s).document_ids_ = s.document_ids_ := by
  induction words generalizing s with
  | nil => simp
  | cons w rest ih =>
    simp only [List.foldl_cons]
    obtain ⟨h1, h2, h3⟩ := ih (AddDocument.step document_id x s w)
    exact ⟨h1, h2, h3⟩

theorem foldl_step_indexInv (document_id : Int) (x : R) (words : List Str) (s : SearchServer R)
    (h : IndexInv s) (hw : ∀ w ∈ words, IsStopWord s w = false) :
    IndexInv (words.foldl (AddDocument.step document_id x) s) := by
  induction words generalizing s with
  | nil => simpa using h
  | cons w rest ih =>
    simp only [List.foldl_cons]
    apply ih
    · exact step_indexInv _ _ _ _ h (hw w (List.mem_cons_self _ _))
    · intro w' hw'
      exact hw w' (List.mem_cons_of_mem _ hw')

theorem foldl_step_fwd_keys (document_id : Int) (x : R) (words : List Str) (s : SearchServer R)
    (d : Int) :
    d ∈ StdMap.keys (words.foldl (AddDocument.step document_id x) s).documents_to_word_freqs_
      ↔ (d = document_id ∧ words ≠ []) ∨ d ∈ StdMap.keys s.documents_to_word_freqs_ := by
  induction words generalizing s with
  | nil => simp
  | cons w rest ih =>
    simp only [List.foldl_cons, ih, AddDocument.step, StdMap.mem_keys_addTo2]
    simp only [ne_eq, reduceCtorEq, not_false_eq_true, and_true]
    tauto

theorem foldl_step_find2_fwd (document_id : Int) (x : R) (words : List Str) (s : SearchServer R)
    (d : Int) (t : Str) :
    StdMap.find2 (words.foldl (AddDocument.step document_id x) s).documents_to_word_freqs_ d t
      = if d = document_id ∧ t ∈ words then
          some ((StdMap.find2 s.documents_to_word_freqs_ document_id t).getD 0
            + (words.count t : R) * x)
        else StdMap.find2 s.documents_to_word_freqs_ d t := by
  induction words generalizing s with
  | nil => simp
  | cons w rest ih =>
    simp only [List.foldl_cons, ih, AddDocument.step, StdMap.find2_addTo2]
    by_cases h1 : d = document_id
    · subst h1
      by_cases h2 : w = t
      · subst h2
        by_cases h3 : w ∈ rest
        · simp [h3, List.count_cons_self]; ring
        · simp [h3, List.count_eq_zero_of_not_mem h3]
      · have h2' : ¬ t = w := fun e => h2 e.symm
        by_cases h3 : t ∈ rest
        · simp [h2, h2', h3, List.count_cons_of_ne h2']
        · simp [h2, h2', h3]
    · have h1' : ¬ document_id = d := fun e => h1 e.symm
      simp [h1, h1']

theorem foldl_step_find_fwd_ne (document_id : Int) (x : R) (words : List Str)
    (s : SearchServer R) (d : Int) (hd : d ≠ document_id) :
    StdMap.find (words.foldl (AddDocument.step document_id x) s).documents_to_word_freqs_ d
      = StdMap.find s.documents_to_word_freqs_ d := by
  induction words generalizing s with
  | nil => simp
  | cons w rest ih =>
    simp only [List.foldl_cons, ih, AddDocument.step, StdMap.find_addTo2]
    simp [Ne.symm hd]

theorem foldl_step_find_inv_not_mem (document_id : Int) (x : R) (words : List Str)
    (s : SearchServer R) (w : Str) (hw : w ∉ words) :
    StdMap.find (words.foldl (AddDocument.step document_id x) s).word_to_document_freqs_ w
      = StdMap.find s.word_to_document_freqs_ w := by
  induction words generalizing s with
  | nil => simp
  | cons w' rest ih =>
    have h1 : w' ≠ w := fun e => hw (e ▸ List.mem_cons_self _ _)
    have h2 : w ∉ rest := fun e => hw (List.mem_cons_of_mem _ e)
    simp only [List.foldl_cons, ih _ h2, AddDocument.step, StdMap.find_addTo2]
    simp [h1]

theorem foldl_step_inv_keys (document_id : Int) (x : R) (words : List Str) (s : SearchServer R)
    (w : Str) :
    w ∈ StdMap.keys (words.foldl (AddDocument.step document_id x) s).word_to_document_freqs_
      ↔ w ∈ words ∨ w ∈ StdMap.keys s.word_to_document_freqs_ := by
  induction words generalizing s with
  | nil => simp
  | cons w' rest ih =>
    simp only [List.foldl_cons, ih, AddDocument.step, StdMap.mem_keys_addTo2, List.mem_cons]
    tauto

theorem indexInv_congr {s s' : SearchServer R} (h : IndexInv s)
    (h1 : s'.stop_words_ = s.stop_words_)
    (h2 : s'.word_to_document_freqs_ = s.word_to_document_freqs_)
    (h3 : s'.documents_to_word_freqs_ = s.documents_to_word_freqs_) : IndexInv s' where
  fwd_sorted := by rw [h3]; exact h.fwd_sorted
  fwd_inner := by rw [h3]; exact h.fwd_inner
  inv_sorted := by rw [h2]; exact h.inv_sorted
  inv_inner := by rw [h2]; exact h.inv_inner
  mirror := by rw [h2, h3]; exact h.mirror
  no_stop := by
    intro w hw
    rw [h2] at hw
    have := h.no_stop w hw
    simpa [IsStopWord, h1] using this

theorem AddDocument_error_state (s : SearchServer R) (document_id : Int) (document : Str)
    (status : DocumentStatus) (ratings : List Int) (e : Exn)
    (h : (AddDocument s document_id document status ratings).1 = Except.error e) :
    (AddDocument s document_id document status ratings).2 = s := by
  unfold AddDocument at h ⊢
  split_ifs with h1
  · rfl
  · cases hw : SplitIntoWordsNoStop s document with
    | error e' => rfl
    | ok words => simp [h1, hw] at h

/-- The shape of a call of `AddDocument` that returns. -/
theorem AddDocument_ok (s : SearchServer R) (document_id : Int) (document : Str)
    (status : DocumentStatus) (ratings : List Int)
    (h : (AddDocument s document_id document status ratings).1 = Except.ok ()) :
    0 ≤ document_id ∧ document_id ∉ StdMap.keys s.documents_
    ∧ (SplitIntoWordsView document).all IsValidWord = true
    ∧ (AddDocument s document_id document status ratings).2
        = { (((SplitIntoWordsView document).filter (fun w => !IsStopWord s w)).foldl
              (AddDocument.step document_id
                (1 / ((((SplitIntoWordsView document).filter
                  (fun w => !IsStopWord s w)).length : Nat) : R))) s) with
            documents_ := StdMap.insert document_id
              { rating := ComputeAverageRating ratings, status := status } s.documents_
            document_ids_ := StdSet.insert document_id s.document_ids_ } := by
  unfold AddDocument at h ⊢
  split_ifs at h ⊢ with h1
  rw [SplitIntoWordsNoStop_eq] at h ⊢
  split_ifs at h ⊢ with h2
  push_neg at h1
  refine ⟨by omega, ?_, h2, ?_⟩
  · have := h1.2
    simp only [StdMap.count] at this
    rw [← StdMap.find_isSome_iff]
    intro hc
    simp [hc] at this
  · simp only
    obtain ⟨-, e2, e3⟩ := foldl_step_fixed document_id
      (1 / ((((SplitIntoWordsView document).filter
        (fun w => !IsStopWord s w)).length : Nat) : R))
      ((SplitIntoWordsView document).filter (fun w => !IsStopWord s w)) s
    rw [e2, e3]

theorem AddDocument_inv (s : SearchServer R) (document_id : Int) (document : Str)
    (status : DocumentStatus) (ratings : List Int) (h : Inv s) :
    Inv (AddDocument s document_id document status ratings).2 := by
  cases hr : (AddDocument s document_id document status ratings).1 with
  | error e => rw [AddDocument_error_state s _ _ _ _ e hr]; exact h
  | ok u =>
    obtain ⟨h0, hnew, -, hs⟩ := AddDocument_ok s document_id document status ratings hr
    rw [hs]
    set words := (SplitIntoWordsView document).filter (fun w => !IsStopWord s w) with hwords
    have hstop : ∀ w ∈ words, IsStopWord s w = false := by
      intro w hw
      simpa using (List.mem_filter.1 hw).2
    have hi := foldl_step_indexInv document_id (1 / ((words.length : Nat) : R)) words s
      h.index hstop
    refine ⟨indexInv_congr hi rfl rfl rfl, ?_, ?_, ?_, ?_⟩
    · exact StdMap.sorted_insert _ _ _ h.docs_sorted
    · simp only [StdMap.keys_insert, h.ids_eq]
    · intro d hd
      simp only [StdMap.keys_insert, StdSet.mem_insert]
      rcases (foldl_step_fwd_keys _ _ _ _ _).1 hd with hd | hd
      · exact Or.inl hd.1
      · exact Or.inr (h.fwd_live d hd)
    · intro d hd
      simp only [StdMap.keys_insert, StdSet.mem_insert] at hd
      rcases hd with rfl | hd
      · exact h0
      · exact h.nonneg d hd

theorem erase_erase {K V : Type} [LinearOrder K] (k : K) (m : StdMap K V) :
    StdMap.erase k (StdMap.erase k m) = StdMap.erase k m := by
  simp [StdMap.erase, List.filter_filter]

theorem RemoveDocument.loop_ok (document_id : Int) (ws : List Str)
    (inverted : StdMap Str (StdMap Int R))
    (h : ∀ w ∈ ws, w ∈ StdMap.keys inverted) :
    ∃ inverted', RemoveDocument.loop document_id ws inverted = (Except.ok (), inverted')
      ∧ (∀ w, StdMap.find inverted' w
          = if w ∈ ws then (StdMap.find inverted w).map (StdMap.erase document_id)
            else StdMap.find inverted w)
      ∧ ((StdMap.keys inverted).Sorted (· < ·) → (StdMap.keys inverted').Sorted (· < ·)) := by
  induction ws generalizing inverted with
  | nil => exact ⟨inverted, rfl, by simp, id⟩
  | cons w rest ih =>
    obtain ⟨entry, hentry⟩ := StdMap.exists_find_of_mem_keys (h w (List.mem_cons_self _ _))
    have hrest : ∀ w' ∈ rest,
        w' ∈ StdMap.keys (StdMap.insert w (StdMap.erase document_id entry) inverted) := by
      intro w' hw'
      rw [StdMap.keys_insert, StdSet.mem_insert]
      exact Or.inr (h w' (List.mem_cons_of_mem _ hw'))
    obtain ⟨inv', h1, h2, h3⟩ := ih _ hrest
    refine ⟨inv', ?_, ?_, ?_⟩
    · simp only [RemoveDocument.loop, StdMap.atKey, hentry, h1]
    · intro x
      rw [h2 x, StdMap.find_insert]
      by_cases hx : w = x
      · subst hx
        by_cases hr : w ∈ rest
        · simp [hr, hentry, erase_erase]
        · simp [hr, hentry]
      · have hx' : ¬ x = w := fun e => hx e.symm
        by_cases hr : x ∈ rest
        · simp [hr, hx, hx']
        · simp [hr, hx, hx']
    · intro hs
      exact h3 (StdMap.sorted_insert _ _ _ hs)

/-- The shape of a call of `RemoveDocument` on a document with a forward entry,
in a state that satisfies the invariant. -/
theorem RemoveDocument_ok (s : SearchServer R) (document_id : Int) (h : IndexInv s)
    (entry : StdMap Str R)
    (hentry : StdMap.find s.documents_to_word_freqs_ document_id = some entry) :
    ∃ inverted', RemoveDocument s document_id
        = (Except.ok (),
            { s with
              word_to_document_freqs_ := inverted'
              documents_to_word_freqs_ := StdMap.erase document_id s.documents_to_word_freqs_
              document_ids_ := StdSet.erase document_id s.document_ids_
              documents_ := StdMap.erase document_id s.documents_ })
      ∧ (∀ w, StdMap.find inverted' w
          = if w ∈ StdMap.keys entry then
              (StdMap.find s.word_to_document_freqs_ w).map (StdMap.erase document_id)
            else StdMap.find s.word_to_document_freqs_ w)
      ∧ (StdMap.keys inverted').Sorted (· < ·) := by
  have hkeys : ∀ w ∈ StdMap.keys entry, w ∈ StdMap.keys s.word_to_document_freqs_ := by
    intro w hw
    obtain ⟨f, hf⟩ := StdMap.exists_find_of_mem_keys hw
    have hm := h.mirror document_id w
    simp only [StdMap.find2, hentry, Option.some_bind, hf] at hm
    apply StdMap.find2_isSome_mem_keys (a := w) (b := document_id)
    simp only [StdMap.find2]
    rw [← hm]; rfl
  obtain ⟨inv', h1, h2, h3⟩ := RemoveDocument.loop_ok document_id (StdMap.keys entry)
    s.word_to_document_freqs_ hkeys
  refine ⟨inv', ?_, h2, h3 h.inv_sorted⟩
  unfold RemoveDocument
  simp only [StdMap.count, hentry, Option.isSome_some, ↓reduceIte, one_ne_zero, StdMap.atKey, h1]

theorem RemoveDocument_absent (s : SearchServer R) (document_id : Int)
    (h : StdMap.find s.documents_to_word_freqs_ document_id = none) :
    RemoveDocument s document_id = (Except.ok (), s) := by
  unfold RemoveDocument
  simp [StdMap.count, h]

theorem find2_removed (s : SearchServer R) (document_id : Int) (h : IndexInv s)
    (entry : StdMap Str R)
    (hentry : StdMap.find s.documents_to_word_freqs_ document_id = some entry)
    (inverted' : StdMap Str (StdMap Int R))
    (hinv : ∀ w, StdMap.find inverted' w
          = if w ∈ StdMap.keys entry then
              (StdMap.find s.word_to_document_freqs_ w).map (StdMap.erase document_id)
            else StdMap.find s.word_to_document_freqs_ w) (t : Str) (d : Int) :
    StdMap.find2 inverted' t d
      = if d = document_id then none else StdMap.find2 s.word_to_document_freqs_ t d := by
  simp only [StdMap.find2, hinv t]
  by_cases ht : t ∈ StdMap.keys entry
  · simp only [ht, ↓reduceIte]
    cases hf : StdMap.find s.word_to_document_freqs_ t with
    | none => simp
    | some e => simp [StdMap.find_erase]
  · simp only [ht, ↓reduceIte]
    by_cases hd : d = document_id
    · subst hd
      have hm := h.mirror d t
      simp only [StdMap.find2, hentry, Option.some_bind,
        (StdMap.find_eq_none_iff entry t).2 ht] at hm
      simp [← hm]
    · simp [hd]

theorem RemoveDocument_inv (s : SearchServer R) (document_id : Int) (h : Inv s) :
    Inv (RemoveDocument s document_id).2 := by
  cases hentry : StdMap.find s.documents_to_word_freqs_ document_id with
  | none => rw [RemoveDocument_absent s document_id hentry]; exact h
  | some entry =>
    obtain ⟨inv', h1, h2, h3⟩ := RemoveDocument_ok s document_id h.index entry hentry
    rw [h1]
    refine ⟨⟨?_, ?_, h3, ?_, ?_, ?_⟩, ?_, ?_, ?_, ?_⟩
    · exact StdMap.sorted_erase _ _ h.index.fwd_sorted
    · intro d e he
      simp only [StdMap.find_erase] at he
      split_ifs at he
      exact h.index.fwd_inner d e he
    · intro w e he
      simp only [h2 w] at he
      split_ifs at he
      · cases hf : StdMap.find s.word_to_document_freqs_ w with
        | none => simp [hf] at he
        | some e0 =>
          simp only [hf, Option.map_some', Option.some.injEq] at he
          subst he
          exact StdMap.sorted_erase _ _ (h.index.inv_inner w e0 hf)
      · exact h.index.inv_inner w e he
    · intro d t
      simp only
      rw [find2_removed s document_id h.index entry hentry inv' h2 t d]
      simp only [StdMap.find2, StdMap.find_erase]
      by_cases hd : d = document_id
      · simp [hd]
      · simpa [hd, StdMap.find2] using h.index.mirror d t
    · intro w hw
      have hw' : w ∈ StdMap.keys s.word_to_document_freqs_ := by
        rw [← StdMap.find_isSome_iff] at hw ⊢
        simp only [h2 w] at hw
        split_ifs at hw
        · cases hf : StdMap.find s.word_to_document_freqs_ w with
          | none => simp [hf] at hw
          | some e0 => rfl
        · exact hw
      exact h.index.no_stop w hw'
    · exact StdMap.sorted_erase _ _ h.docs_sorted
    · simp only [StdMap.keys_erase, h.ids_eq]
    · intro d hd
      simp only [StdMap.keys_erase, StdSet.mem_erase] at hd ⊢
      exact ⟨hd.1, h.fwd_live d hd.2⟩
    · intro d hd
      simp only [StdMap.keys_erase, StdSet.mem_erase] at hd
      exact h.nonneg d hd.2

theorem new_inv (stop_words : List Str) (s : SearchServer R)
    (h : SearchServer.new stop_words = Except.ok s) : Inv s := by
  unfold SearchServer.new at h
  simp only at h
  split_ifs at h
  simp only [Except.ok.injEq] at h
  subst h
  refine ⟨⟨?_, ?_, ?_, ?_, ?_, ?_⟩, ?_, rfl, ?_, ?_⟩ <;>
    simp [StdMap.keys, StdMap.find, StdMap.find2]

/-- Every reachable state satisfies the invariant. -/
theorem Reachable.inv {s : SearchServer R} (h : Reachable s) : Inv s := by
  induction h with
  | new stop_words s hs => exact new_inv stop_words s hs
  | add s document_id document status ratings _ ih => exact AddDocument_inv s _ _ _ _ ih
  | remove s document_id _ ih => exact RemoveDocument_inv s _ ih

theorem exampleServer_reachable : Reachable exampleServer :=
  Reachable.new ["and".toList, "in".toList, "on".toList] exampleServer rfl

theorem exampleServer1_reachable : Reachable exampleServer1 :=
  Reachable.add exampleServer 0 _ _ _ exampleServer_reachable

theorem blankServer_reachable : Reachable blankServer :=
  Reachable.new [] blankServer rfl

theorem exampleServer2_reachable : Reachable exampleServer2 :=
  Reachable.add _ 2 _ _ _ (Reachable.add _ 1 _ _ _ (Reachable.new [] _ rfl))

theorem mem_dropWhile_space (c : Char) (hc : c ≠ ' ') (l : Str) :
    c ∈ l.dropWhile (fun c => c == ' ') ↔ c ∈ l := by
  induction l with
  | nil => simp
  | cons a rest ih =>
    by_cases ha : a = ' '
    · subst ha
      simp [List.dropWhile_cons, ih, hc]
    · simp [List.dropWhile_cons, ha]

theorem length_dropWhile_le {α : Type} (p : α → Bool) (l : List α) :
    (l.dropWhile p).length ≤ l.length :=
  (List.dropWhile_sublist p).length_le

theorem SplitIntoWordsView.loop_next_length (t : Str) (ht : t ≠ []) :
    ((t.dropWhile (fun c => c != ' ')).dropWhile (fun c => c == ' ')).length < t.length := by
  cases t with
  | nil => exact absurd rfl ht
  | cons a rest =>
    by_cases ha : a = ' '
    · subst ha
      simp only [List.dropWhile_cons, bne_self_eq_false, Bool.false_eq_true, ↓reduceIte,
        beq_self_eq_true, List.length_cons]
      exact Nat.lt_succ_of_le (length_dropWhile_le _ _)
    · have h1 : (a != ' ') = true := by simpa using ha
      simp only [List.dropWhile_cons, h1, ↓reduceIte, List.length_cons]
      exact Nat.lt_succ_of_le
        ((length_dropWhile_le _ _).trans (length_dropWhile_le _ _))

theorem SplitIntoWordsView.loop_chars (fuel : Nat) (t : Str) (h : t.length ≤ fuel) (c : Char) :
    (∃ w ∈ SplitIntoWordsView.loop fuel t, c ∈ w) ↔ (c ∈ t ∧ c ≠ ' ') := by
  induction fuel generalizing t with
  | zero =>
    have : t = [] := List.length_eq_zero.1 (Nat.le_zero.1 h)
    subst this
    simp [SplitIntoWordsView.loop]
  | succ fuel ih =>
    by_cases ht : t = []
    · subst ht
      simp [SplitIntoWordsView.loop]
    · have hlen := SplitIntoWordsView.loop_next_length t ht
      have hih := ih ((t.dropWhile (fun c => c != ' ')).dropWhile (fun c => c == ' '))
        (by omega)
      have hsplit := List.takeWhile_append_dropWhile (fun c => c != ' ') t
      have hmem : c ∈ t ↔ c ∈ t.takeWhile (fun c => c != ' ')
          ∨ c ∈ t.dropWhile (fun c => c != ' ') := by
        conv_lhs => rw [← hsplit]
        exact List.mem_append
      simp only [SplitIntoWordsView.loop, List.isEmpty_iff, ht, ↓reduceIte, List.mem_cons,
        exists_eq_or_imp, hih, hmem]
      constructor
      · rintro (h1 | ⟨h1, h2⟩)
        · have := List.mem_takeWhile_imp h1
          exact ⟨Or.inl h1, by simpa using this⟩
        · exact ⟨Or.inr ((mem_dropWhile_space c h2 _).1 h1), h2⟩
      · rintro ⟨h1 | h1, h2⟩
        · exact Or.inl h1
        · exact Or.inr ⟨(mem_dropWhile_space c h2 _).2 h1, h2⟩

/-- The characters of the words of a text are its characters other than the space. -/
theorem SplitIntoWordsView_chars (text : Str) (c : Char) :
    (∃ w ∈ SplitIntoWordsView text, c ∈ w) ↔ (c ∈ text ∧ c ≠ ' ') := by
  unfold SplitIntoWordsView
  by_cases ht : text = []
  · subst ht; simp
  · simp only [List.isEmpty_iff, ht, ↓reduceIte]
    rw [SplitIntoWordsView.loop_chars _ _ (length_dropWhile_le _ _)]
    constructor
    · rintro ⟨h1, h2⟩
      exact ⟨(mem_dropWhile_space c h2 _).1 h1, h2⟩
    · rintro ⟨h1, h2⟩
      exact ⟨(mem_dropWhile_space c h2 _).2 h1, h2⟩

theorem exists_control_iff (text : Str) :
    (∃ w ∈ SplitIntoWordsView text, ∃ c ∈ w, c.toNat < 32) ↔ ∃ c ∈ text, c.toNat < 32 := by
  constructor
  · rintro ⟨w, hw, c, hc, h32⟩
    exact ⟨c, ((SplitIntoWordsView_chars text c).1 ⟨w, hw, hc⟩).1, h32⟩
  · rintro ⟨c, hc, h32⟩
    have hne : c ≠ ' ' := by
      rintro rfl
      exact absurd h32 (by decide)
    obtain ⟨w, hw, hcw⟩ := (SplitIntoWordsView_chars text c).2 ⟨hc, hne⟩
    exact ⟨w, hw, c, hcw, h32⟩

theorem all_valid_iff (ws : List Str) :
    ws.all IsValidWord = true ↔ ¬ ∃ w ∈ ws, ∃ c ∈ w, c.toNat < 32 := by
  simp only [List.all_eq_true, not_exists, not_and]
  constructor
  · intro h w hw c hc h32
    have := h w hw
    have hf := (IsValidWord_eq_false_iff w).2 ⟨c, hc, h32⟩
    simp [hf] at this
  · intro h w hw
    by_contra hv
    have hf : IsValidWord w = false := by simpa using hv
    obtain ⟨c, hc, h32⟩ := (IsValidWord_eq_false_iff w).1 hf
    exact h w hw c hc h32

theorem AddDocument_fst (s : SearchServer R) (document_id : Int) (document : Str)
    (status : DocumentStatus) (ratings : List Int) :
    (AddDocument s document_id document status ratings).1
      = if document_id < 0 ∨ document_id ∈ StdMap.keys s.documents_ then
          Except.error Exn.invalid_argument
        else if (SplitIntoWordsView document).all IsValidWord then Except.ok ()
        else Except.error Exn.invalid_argument := by
  have hc : StdMap.count s.documents_ document_id > 0
      ↔ document_id ∈ StdMap.keys s.documents_ := by
    rw [← StdMap.find_isSome_iff]
    unfold StdMap.count
    split_ifs with h <;> simp [h]
  unfold AddDocument
  rw [SplitIntoWordsNoStop_eq]
  simp only [hc]
  split_ifs <;> rfl

theorem isStopWord_iff (s : SearchServer R) (w : Str) :
    IsStopWord s w = true ↔ w ∈ s.stop_words_ := by
  unfold IsStopWord StdSet.count
  split_ifs with h <;> simp [h]

end IndexFacts

section AddRemoveFacts

variable {R : Type} [LinearOrderedField R]

theorem find2_eq_find_getD {K K2 V : Type} [LinearOrder K] [LinearOrder K2]
    (m : StdMap K (StdMap K2 V)) (a : K) (b : K2) :
    StdMap.find2 m a b = StdMap.find ((StdMap.find m a).getD []) b := by
  unfold StdMap.find2
  cases StdMap.find m a <;> simp [StdMap.find]

theorem filter_not_stop (s : SearchServer R) (ws : List Str) :
    ws.filter (fun w => !IsStopWord s w) = ws.filter (fun w => decide (w ∉ s.stop_words_)) := by
  apply List.filter_congr
  intro w _
  by_cases h : w ∈ s.stop_words_
  · simp [h, (isStopWord_iff s w).2 h]
  · have : IsStopWord s w = false := by
      cases hs : IsStopWord s w with
      | false => rfl
      | true => exact absurd ((isStopWord_iff s w).1 hs) h
    simp [h, this]

/-- The state after a call of `AddDocument` that returns, in a state that
satisfies the invariant: the frequencies stored for the new document. -/
theorem AddDocument_find2 (s : SearchServer R) (hinv : Inv s) (document_id : Int)
    (document : Str) (status : DocumentStatus) (ratings : List Int)
    (hok : (AddDocument s document_id document status ratings).1 = Except.ok ())
    (d : Int) (t : Str) :
    StdMap.find2 (AddDocument s document_id document status ratings).2.documents_to_word_freqs_
        d t
      = if d = document_id
            ∧ t ∈ (SplitIntoWordsView document).filter (fun w => decide (w ∉ s.stop_words_)) then
          some ((((SplitIntoWordsView document).filter
              (fun w => decide (w ∉ s.stop_words_))).count t : R)
            / ((((SplitIntoWordsView document).filter
              (fun w => decide (w ∉ s.stop_words_))).length : Nat) : R))
        else StdMap.find2 s.documents_to_word_freqs_ d t := by
  obtain ⟨-, hnew, -, hstate⟩ := AddDocument_ok s document_id document status ratings hok
  rw [hstate, filter_not_stop]
  simp only [foldl_step_find2_fwd]
  have hnone : StdMap.find2 s.documents_to_word_freqs_ document_id t = none := by
    cases hf : StdMap.find2 s.documents_to_word_freqs_ document_id t with
    | none => rfl
    | some f =>
      have : (StdMap.find2 s.documents_to_word_freqs_ document_id t).isSome := by simp [hf]
      exact absurd (hinv.fwd_live _ (StdMap.find2_isSome_mem_keys this)) hnew
  simp only [hnone, Option.getD_none, zero_add, mul_one_div]

end AddRemoveFacts

/-! ## Facts about the sequential ranker -/

section RankFacts

variable {R : Type} [LinearOrderedField R]

theorem plusEntry_spec (s : SearchServer R) (pred : DocumentPredicate) (idf : R)
    (e acc : StdMap Int R)
    (hdocs : ∀ d ∈ StdMap.keys e, d ∈ StdMap.keys s.documents_)
    (hnd : (StdMap.keys e).Nodup) :
    ∃ acc', FindAllDocuments.plusEntry s pred idf e acc = Except.ok acc'
      ∧ ((StdMap.keys acc).Sorted (· < ·) → (StdMap.keys acc').Sorted (· < ·))
      ∧ ∀ d, StdMap.find acc' d
          = match StdMap.find e d with
            | some tf =>
              if holdsFor s pred d then some ((StdMap.find acc d).getD 0 + tf * idf)
              else StdMap.find acc d
            | none => StdMap.find acc d := by
  induction e generalizing acc with
  | nil => exact ⟨acc, rfl, id, fun d => rfl⟩
  | cons p rest ih =>
    obtain ⟨d0, tf0⟩ := p
    simp only [StdMap.keys, List.map_cons, List.nodup_cons, List.mem_cons, forall_eq_or_imp]
      at hdocs hnd
    obtain ⟨data, hdata⟩ := StdMap.exists_find_of_mem_keys hdocs.1
    have hrest_none : StdMap.find rest d0 = none := (StdMap.find_eq_none_iff _ _).2 hnd.1
    have hholds : holdsFor s pred d0 = pred d0 data.status data.rating := by
      simp [holdsFor, hdata]
    by_cases hp : pred d0 data.status data.rating = true
    · obtain ⟨acc', h1, h2, h3⟩ := ih (StdMap.addTo acc d0 (tf0 * idf)) hdocs.2 hnd.2
      refine ⟨acc', ?_, fun hs => h2 (StdMap.sorted_addTo _ _ _ hs), ?_⟩
      · simp only [FindAllDocuments.plusEntry, StdMap.atKey, hdata, hp, ↓reduceIte, h1]
      · intro d
        rw [h3 d]
        by_cases hd : d0 = d
        · subst hd
          simp [StdMap.find, hrest_none, StdMap.find_addTo, hholds, hp]
        · have hfa : StdMap.find (StdMap.addTo acc d0 (tf0 * idf)) d = StdMap.find acc d := by
            rw [StdMap.find_addTo]; simp [hd]
          simp only [StdMap.find, hd, ↓reduceIte, hfa]
    · obtain ⟨acc', h1, h2, h3⟩ := ih acc hdocs.2 hnd.2
      have hp' : pred d0 data.status data.rating = false := by simpa using hp
      refine ⟨acc', ?_, h2, ?_⟩
      · simp only [FindAllDocuments.plusEntry, StdMap.atKey, hdata, hp', Bool.false_eq_true,
          ↓reduceIte, h1]
      · intro d
        rw [h3 d]
        by_cases hd : d0 = d
        · subst hd
          simp [StdMap.find, hrest_none, hholds, hp']
        · simp only [StdMap.find, hd, ↓reduceIte]

theorem inverted_docs_live (s : SearchServer R) (hinv : Inv s) (w : Str) (e : StdMap Int R)
    (he : StdMap.find s.word_to_document_freqs_ w = some e) :
    ∀ d ∈ StdMap.keys e, d ∈ StdMap.keys s.documents_ := by
  intro d hd
  obtain ⟨f, hf⟩ := StdMap.exists_find_of_mem_keys hd
  have h2 : (StdMap.find2 s.documents_to_word_freqs_ d w).isSome := by
    rw [hinv.index.mirror]
    simp [StdMap.find2, he, hf]
  exact hinv.fwd_live d (StdMap.find2_isSome_mem_keys h2)

theorem plusWord_spec (ln : R → R) (s : SearchServer R) (hinv : Inv s) (pred : DocumentPredicate)
    (w : Str) (acc : StdMap Int R) :
    ∃ acc', FindAllDocuments.plusWord ln s pred w acc = Except.ok acc'
      ∧ ((StdMap.keys acc).Sorted (· < ·) → (StdMap.keys acc').Sorted (· < ·))
      ∧ ∀ d, StdMap.find acc' d
          = if holdsFor s pred d ∧ (StdMap.find2 s.word_to_document_freqs_ w d).isSome then
              some ((StdMap.find acc d).getD 0 + termScore ln s d w)
            else StdMap.find acc d := by
  cases he : StdMap.find s.word_to_document_freqs_ w with
  | none =>
    refine ⟨acc, ?_, id, ?_⟩
    · simp [FindAllDocuments.plusWord, StdMap.count, he]
    · intro d
      simp [StdMap.find2, he]
  | some e =>
    obtain ⟨acc', h1, h2, h3⟩ := plusEntry_spec s pred
      (ln ((GetDocumentCount s : R) * 1 / ((StdMap.size e : Nat) : R))) e acc
      (inverted_docs_live s hinv w e he) (hinv.index.inv_inner w e he).nodup
    refine ⟨acc', ?_, h2, ?_⟩
    · simp only [FindAllDocuments.plusWord, StdMap.count, he, Option.isSome_some, ↓reduceIte,
        one_ne_zero, ComputeWordInverseDocumentFreq, StdMap.atKey, h1]
    · intro d
      rw [h3 d]
      simp only [StdMap.find2, he, Option.some_bind, termScore, Option.getD_some]
      cases hf : StdMap.find e d with
      | none => simp
      | some tf =>
        by_cases hh : holdsFor s pred d = true
        · simp [hh]
        · simp [hh]

theorem sum_termScore_eq_zero (ln : R → R) (s : SearchServer R) (d : Int) (words : List Str)
    (h : ∀ w ∈ words, (StdMap.find2 s.word_to_document_freqs_ w d).isSome = false) :
    (words.map (termScore ln s d)).sum = 0 := by
  induction words with
  | nil => rfl
  | cons w rest ih =>
    have hw := h w (List.mem_cons_self _ _)
    have hnone : StdMap.find2 s.word_to_document_freqs_ w d = none := by
      cases hf : StdMap.find2 s.word_to_document_freqs_ w d with
      | none => rfl
      | some f => simp [hf] at hw
    simp only [List.map_cons, List.sum_cons, ih (fun w' hw' => h w' (List.mem_cons_of_mem _ hw')),
      add_zero]
    simp [termScore, hnone]

theorem plusLoop_spec (ln : R → R) (s : SearchServer R) (hinv : Inv s) (pred : DocumentPredicate)
    (words : List Str) (acc : StdMap Int R) :
    ∃ acc', FindAllDocuments.plusLoop ln s pred words acc = Except.ok acc'
      ∧ ((StdMap.keys acc).Sorted (· < ·) → (StdMap.keys acc').Sorted (· < ·))
      ∧ ∀ d, StdMap.find acc' d
          = if holdsFor s pred d
                ∧ ∃ w ∈ words, (StdMap.find2 s.word_to_document_freqs_ w d).isSome then
              some ((StdMap.find acc d).getD 0 + (words.map (termScore ln s d)).sum)
            else StdMap.find acc d := by
  induction words generalizing acc with
  | nil => exact ⟨acc, rfl, id, fun d => by simp⟩
  | cons w rest ih =>
    obtain ⟨acc1, h1, h2, h3⟩ := plusWord_spec ln s hinv pred w acc
    obtain ⟨acc', h4, h5, h6⟩ := ih acc1
    refine ⟨acc', ?_, fun hs => h5 (h2 hs), ?_⟩
    · simp only [FindAllDocuments.plusLoop, h1, h4]
    · intro d
      rw [h6 d, h3 d]
      by_cases hh : holdsFor s pred d = true
      · by_cases hw : (StdMap.find2 s.word_to_document_freqs_ w d).isSome = true
        · by_cases hr : ∃ w' ∈ rest, (StdMap.find2 s.word_to_document_freqs_ w' d).isSome
          · have hex : ∃ w' ∈ w :: rest,
                (StdMap.find2 s.word_to_document_freqs_ w' d).isSome := ⟨w, by simp, hw⟩
            simp only [hh, hw, hr, hex, and_self, ↓reduceIte, Option.getD_some, List.map_cons,
              List.sum_cons, add_assoc]
          · have hex : ∃ w' ∈ w :: rest,
                (StdMap.find2 s.word_to_document_freqs_ w' d).isSome := ⟨w, by simp, hw⟩
            have hz : (rest.map (termScore ln s d)).sum = 0 := by
              apply sum_termScore_eq_zero
              intro w' hw'
              cases hc : (StdMap.find2 s.word_to_document_freqs_ w' d).isSome with
              | false => rfl
              | true => exact absurd ⟨w', hw', hc⟩ hr
            simp only [hh, hw, hr, hex, and_self, and_false, ↓reduceIte, List.map_cons,
              List.sum_cons, hz, add_zero]
        · have hnone : StdMap.find2 s.word_to_document_freqs_ w d = none := by
            cases hf : StdMap.find2 s.word_to_document_freqs_ w d with
            | none => rfl
            | some f => simp [hf] at hw
          have hs0 : termScore ln s d w = 0 := by simp [termScore, hnone]
          have hiff : (∃ w' ∈ w :: rest, (StdMap.find2 s.word_to_document_freqs_ w' d).isSome)
              ↔ ∃ w' ∈ rest, (StdMap.find2 s.word_to_document_freqs_ w' d).isSome := by
            simp [hnone]
          simp only [hh, hw, hiff, true_and, and_false, ↓reduceIte, List.map_cons, List.sum_cons,
            hs0, zero_add, Bool.false_eq_true]
      · simp [hh]

theorem foldl_erase_spec (e acc : StdMap Int R) :
    ((StdMap.keys acc).Sorted (· < ·) →
      (StdMap.keys (e.foldl (fun acc p => StdMap.erase p.1 acc) acc)).Sorted (· < ·))
    ∧ ∀ d, StdMap.find (e.foldl (fun acc p => StdMap.erase p.1 acc) acc) d
        = if d ∈ StdMap.keys e then none else StdMap.find acc d := by
  induction e generalizing acc with
  | nil => exact ⟨id, fun d => by simp [StdMap.keys]⟩
  | cons p rest ih =>
    obtain ⟨h1, h2⟩ := ih (StdMap.erase p.1 acc)
    refine ⟨fun hs => h1 (StdMap.sorted_erase _ _ hs), ?_⟩
    intro d
    simp only [List.foldl_cons, h2 d, StdMap.find_erase, StdMap.keys, List.map_cons,
      List.mem_cons]
    by_cases hd : d = p.1
    · simp [hd]
    · by_cases hr : d ∈ List.map Prod.fst rest
      · simp [hr]
      · simp [hd, hr]

theorem minusLoop_spec (s : SearchServer R) (words : List Str) (acc : StdMap Int R) :
    ∃ acc', FindAllDocuments.minusLoop s words acc = Except.ok acc'
      ∧ ((StdMap.keys acc).Sorted (· < ·) → (StdMap.keys acc').Sorted (· < ·))
      ∧ ∀ d, StdMap.find acc' d
          = if ∃ w ∈ words, (StdMap.find2 s.word_to_document_freqs_ w d).isSome then none
            else StdMap.find acc d := by
  induction words generalizing acc with
  | nil => exact ⟨acc, rfl, id, fun d => by simp⟩
  | cons w rest ih =>
    cases he : StdMap.find s.word_to_document_freqs_ w with
    | none =>
      obtain ⟨acc', h4, h5, h6⟩ := ih acc
      refine ⟨acc', ?_, h5, ?_⟩
      · simp [FindAllDocuments.minusLoop, FindAllDocuments.minusWord, StdMap.count, he, h4]
      · intro d
        rw [h6 d]
        simp [StdMap.find2, he]
    | some e =>
      obtain ⟨g1, g2⟩ := foldl_erase_spec e acc
      obtain ⟨acc', h4, h5, h6⟩ := ih (e.foldl (fun acc p => StdMap.erase p.1 acc) acc)
      refine ⟨acc', ?_, fun hs => h5 (g1 hs), ?_⟩
      · simp [FindAllDocuments.minusLoop, FindAllDocuments.minusWord, StdMap.count, he,
          StdMap.atKey, h4]
      · intro d
        rw [h6 d, g2 d]
        have hmem : d ∈ StdMap.keys e ↔ (StdMap.find2 s.word_to_document_freqs_ w d).isSome := by
          simp [StdMap.find2, he, StdMap.find_isSome_iff]
        by_cases hd : d ∈ StdMap.keys e
        · have := hmem.1 hd
          simp [hd, this]
        · have hn : ¬ (StdMap.find2 s.word_to_document_freqs_ w d).isSome = true :=
            fun h => hd (hmem.2 h)
          have hiff : (∃ w' ∈ w :: rest, (StdMap.find2 s.word_to_document_freqs_ w' d).isSome)
              ↔ ∃ w' ∈ rest, (StdMap.find2 s.word_to_document_freqs_ w' d).isSome := by
            simp [hn]
          simp only [hiff, hd, ↓reduceIte]

theorem emit_spec (s : SearchServer R) (acc : StdMap Int R)
    (h : ∀ d ∈ StdMap.keys acc, d ∈ StdMap.keys s.documents_) :
    ∃ docs, FindAllDocuments.emit s acc = Except.ok docs
      ∧ docs.map Document.id = StdMap.keys acc
      ∧ ∀ doc ∈ docs, (doc.id, doc.relevance) ∈ acc
          ∧ (StdMap.find s.documents_ doc.id).map DocumentData.rating = some doc.rating := by
  induction acc with
  | nil => exact ⟨[], rfl, rfl, by simp⟩
  | cons p rest ih =>
    obtain ⟨d0, r0⟩ := p
    simp only [StdMap.keys, List.map_cons, List.mem_cons, forall_eq_or_imp] at h
    obtain ⟨data, hdata⟩ := StdMap.exists_find_of_mem_keys h.1
    obtain ⟨docs, h1, h2, h3⟩ := ih h.2
    refine ⟨{ id := d0, relevance := r0, rating := data.rating } :: docs, ?_, ?_, ?_⟩
    · simp only [FindAllDocuments.emit, StdMap.atKey, hdata, h1]
    · simp only [List.map_cons, h2, StdMap.keys]
    · intro doc hdoc
      rcases List.mem_cons.1 hdoc with rfl | hdoc
      · simp [hdata]
      · exact ⟨List.mem_cons_of_mem _ (h3 doc hdoc).1, (h3 doc hdoc).2⟩

theorem containsTerm_iff (s : SearchServer R) (hinv : Inv s) (d : Int) (t : Str) :
    containsTerm s d t = (StdMap.find2 s.word_to_document_freqs_ t d).isSome := by
  unfold containsTerm
  rw [hinv.index.mirror]

theorem sum_termScore_eq (ln : R → R) (s : SearchServer R) (hinv : Inv s) (d : Int)
    (words : List Str) :
    (words.map (termScore ln s d)).sum
      = ((words.filter (fun t => containsTerm s d t)).map
          (fun t => termFreq s d t
            * ln ((GetDocumentCount s : R) / (documentFreq s t : R)))).sum := by
  induction words with
  | nil => rfl
  | cons w rest ih =>
    have hc := containsTerm_iff s hinv d w
    have hm := hinv.index.mirror d w
    cases hf : StdMap.find2 s.word_to_document_freqs_ w d with
    | none =>
      rw [hf] at hc
      simp only [List.map_cons, List.sum_cons, ih, List.filter_cons, hc, Option.isSome_none,
        Bool.false_eq_true, ↓reduceIte]
      simp [termScore, hf]
    | some tf =>
      rw [hf] at hc hm
      simp only [List.map_cons, List.sum_cons, ih, List.filter_cons, hc, Option.isSome_some,
        ↓reduceIte]
      simp [termScore, hf, termFreq, hm, documentFreq, StdMap.size]

/-- What `FindAllDocuments` returns in a state that satisfies the invariant:
the qualifying documents in ascending order of id, each with its relevance and
its stored rating. -/
theorem FindAllDocuments_spec (ln : R → R) (s : SearchServer R) (hinv : Inv s) (query : Query)
    (pred : DocumentPredicate) :
    ∃ matched, FindAllDocuments ln s query pred = Except.ok matched
      ∧ (matched.map Document.id).Sorted (· < ·)
      ∧ (∀ d, d ∈ matched.map Document.id ↔ qualifies s query pred d = true)
      ∧ ∀ doc ∈ matched, doc.relevance = relevanceOf ln s query doc.id
          ∧ (StdMap.find s.documents_ doc.id).map DocumentData.rating = some doc.rating := by
  obtain ⟨plus, p1, p2, p3⟩ := plusLoop_spec ln s hinv pred query.plus_words []
  obtain ⟨acc, m1, m2, m3⟩ := minusLoop_spec s query.minus_words plus
  have hsorted : (StdMap.keys acc).Sorted (· < ·) := m2 (p2 (by simp [StdMap.keys]))
  have hfind : ∀ d, StdMap.find acc d
      = if qualifies s query pred d = true then
          some ((query.plus_words.map (termScore ln s d)).sum)
        else none := by
    intro d
    rw [m3 d, p3 d]
    have hplus : (∃ w ∈ query.plus_words, (StdMap.find2 s.word_to_document_freqs_ w d).isSome)
        ↔ query.plus_words.any (fun t => containsTerm s d t) = true := by
      simp [List.any_eq_true, containsTerm_iff s hinv]
    have hminus : (∃ w ∈ query.minus_words, (StdMap.find2 s.word_to_document_freqs_ w d).isSome)
        ↔ query.minus_words.any (fun t => containsTerm s d t) = true := by
      simp [List.any_eq_true, containsTerm_iff s hinv]
    simp only [hplus, hminus, qualifies, StdMap.find, Option.getD_none, zero_add]
    by_cases h1 : holdsFor s pred d = true <;>
      by_cases h2 : query.plus_words.any (fun t => containsTerm s d t) = true <;>
      by_cases h3 : query.minus_words.any (fun t => containsTerm s d t) = true <;>
      simp [h1, h2, h3]
  have hkeys : ∀ d, d ∈ StdMap.keys acc ↔ qualifies s query pred d = true := by
    intro d
    rw [← StdMap.find_isSome_iff, hfind d]
    split_ifs with h <;> simp [h]
  have hlive : ∀ d ∈ StdMap.keys acc, d ∈ StdMap.keys s.documents_ := by
    intro d hd
    have hq := (hkeys d).1 hd
    simp only [qualifies, Bool.and_eq_true] at hq
    have hh := hq.1.1
    unfold holdsFor at hh
    cases hf : StdMap.find s.documents_ d with
    | none => simp [hf] at hh
    | some data => exact StdMap.mem_keys_of_find hf
  obtain ⟨docs, e1, e2, e3⟩ := emit_spec s acc hlive
  refine ⟨docs, ?_, ?_, ?_, ?_⟩
  · simp only [FindAllDocuments, p1, m1, e1]
  · rw [e2]; exact hsorted
  · intro d; rw [e2]; exact hkeys d
  · intro doc hdoc
    obtain ⟨h1, h2⟩ := e3 doc hdoc
    refine ⟨?_, h2⟩
    have hf := StdMap.find_of_mem hsorted h1
    rw [hfind doc.id] at hf
    split_ifs at hf
    simp only [Option.some.injEq] at hf
    rw [← hf, sum_termScore_eq ln s hinv]
    rfl

theorem sortInsert_perm {α : Type} (comp : α → α → Bool) (x : α) (l : List α) :
    (sortInsert comp x l).Perm (x :: l) := by
  induction l with
  | nil => exact List.Perm.refl _
  | cons y rest ih =>
    unfold sortInsert
    split_ifs
    · exact (List.Perm.cons y ih).trans (List.Perm.swap x y rest)
    · exact List.Perm.refl _

theorem sortStep_perm {α : Type} (comp : α → α → Bool) (sorted : List α) (x : α) :
    (sortStep comp sorted x).Perm (x :: sorted) := by
  unfold sortStep
  split
  · split_ifs
    · exact List.perm_append_singleton x sorted
    · exact sortInsert_perm comp x sorted
  · next h =>
    rw [List.getLast?_eq_none_iff] at h
    subst h
    exact List.Perm.refl _

theorem foldl_sortStep_perm {α : Type} (comp : α → α → Bool) (l sorted : List α) :
    (l.foldl (sortStep comp) sorted).Perm (l ++ sorted) := by
  induction l generalizing sorted with
  | nil => exact List.Perm.refl _
  | cons x rest ih =>
    rw [List.foldl_cons]
    refine (ih _).trans ?_
    refine (List.Perm.append_left rest (sortStep_perm comp sorted x)).trans ?_
    exact List.perm_middle

theorem stdSort_perm {α : Type} (comp : α → α → Bool) (l : List α) :
    (stdSort comp l).Perm l := by
  unfold stdSort
  refine (List.reverse_perm _).trans ?_
  simpa using foldl_sortStep_perm comp l []

/-- The shape of the result of `FindTopDocuments` in terms of `FindAllDocuments`. -/
theorem FindTopDocuments_eq (ln : R → R) (s : SearchServer R) (raw_query : Str) (query : Query)
    (pred : DocumentPredicate) (matched : List (Document R))
    (hq : ParseQuery s raw_query = Except.ok query)
    (hm : FindAllDocuments ln s query pred = Except.ok matched) :
    FindTopDocuments ln s raw_query pred
      = Except.ok ((stdSort compareDocuments matched).take MAX_RESULT_DOCUMENT_COUNT) := by
  unfold FindTopDocuments
  simp only [hq, hm]
  split_ifs with h
  · rfl
  · rw [List.take_of_length_le (not_lt.1 h)]

end RankFacts

/-! ## Facts about removed documents -/

section RemovedFacts

variable {R : Type} [LinearOrderedField R]

theorem RemoveDocument_forward_absent (s : SearchServer R) (hinv : Inv s) (document_id : Int) :
    StdMap.find (RemoveDocument s document_id).2.documents_to_word_freqs_ document_id = none := by
  cases hentry : StdMap.find s.documents_to_word_freqs_ document_id with
  | none => rw [RemoveDocument_absent s document_id hentry]; exact hentry
  | some entry =>
    obtain ⟨inv', h1, -, -⟩ := RemoveDocument_ok s document_id hinv.index entry hentry
    rw [h1]
    simp [StdMap.find_erase]

theorem RemoveDocument_forward_other (s : SearchServer R) (hinv : Inv s)
    (document_id other_id : Int)
    (h : StdMap.find s.documents_to_word_freqs_ document_id = none) :
    StdMap.find (RemoveDocument s other_id).2.documents_to_word_freqs_ document_id = none := by
  cases hentry : StdMap.find s.documents_to_word_freqs_ other_id with
  | none => rw [RemoveDocument_absent s other_id hentry]; exact h
  | some entry =>
    obtain ⟨inv', h1, -, -⟩ := RemoveDocument_ok s other_id hinv.index entry hentry
    rw [h1]
    simp only [StdMap.find_erase, h, ite_self]

theorem AddDocument_forward_other (s : SearchServer R) (document_id other_id : Int)
    (document : Str) (status : DocumentStatus) (ratings : List Int)
    (hother : other_id = document_id →
      (AddDocument s other_id document status ratings).1 ≠ Except.ok ())
    (h : StdMap.find s.documents_to_word_freqs_ document_id = none) :
    StdMap.find (AddDocument s other_id document status ratings).2.documents_to_word_freqs_
      document_id = none := by
  cases hr : (AddDocument s other_id document status ratings).1 with
  | error e => rw [AddDocument_error_state s _ _ _ _ e hr]; exact h
  | ok u =>
    have hne : document_id ≠ other_id := fun e => hother e.symm hr
    obtain ⟨-, -, -, hstate⟩ := AddDocument_ok s other_id document status ratings hr
    rw [hstate]
    simp only
    rw [foldl_step_find_fwd_ne _ _ _ _ _ hne]
    exact h

/-- As long as the id is not added again, the states after its removal are
reachable and hold no forward entry for it. -/
theorem NotAddedAgain.spec {document_id : Int} {s s' : SearchServer R} (hs : Reachable s)
    (h : NotAddedAgain document_id (RemoveDocument s document_id).2 s') :
    Reachable s' ∧ StdMap.find s'.documents_to_word_freqs_ document_id = none := by
  induction h with
  | start =>
    exact ⟨Reachable.remove s document_id hs, RemoveDocument_forward_absent s hs.inv document_id⟩
  | add s1 other_id document status ratings _ hother ih =>
    exact ⟨Reachable.add s1 other_id document status ratings ih.1,
      AddDocument_forward_other s1 document_id other_id document status ratings hother ih.2⟩
  | remove s1 other_id _ ih =>
    exact ⟨Reachable.remove s1 other_id ih.1,
      RemoveDocument_forward_other s1 ih.1.inv document_id other_id ih.2⟩

/-- In a reachable state every document that `FindTopDocuments` returns has a
record and contains a term. -/
theorem FindTopDocuments_returns (ln : R → R) (s : SearchServer R) (hs : Reachable s)
    (raw_query : Str) (pred : DocumentPredicate) (docs : List (Document R))
    (h : FindTopDocuments ln s raw_query pred = Except.ok docs) :
    ∀ doc ∈ docs, doc.id ∈ s.document_ids_ ∧ ∃ t, containsTerm s doc.id t = true := by
  have hinv := hs.inv
  cases hq : ParseQuery s raw_query with
  | error e => simp [FindTopDocuments, hq] at h
  | ok query =>
    obtain ⟨matched, hm, -, hmem, -⟩ := FindAllDocuments_spec ln s hinv query pred
    rw [FindTopDocuments_eq ln s raw_query query pred matched hq hm] at h
    simp only [Except.ok.injEq] at h
    subst h
    intro doc hdoc
    have h1 : doc ∈ matched :=
      (stdSort_perm compareDocuments matched).subset (List.mem_of_mem_take hdoc)
    have h2 : qualifies s query pred doc.id = true :=
      (hmem doc.id).1 (List.mem_map_of_mem _ h1)
    simp only [qualifies, Bool.and_eq_true, List.any_eq_true] at h2
    obtain ⟨⟨hh, t, -, ht⟩, -⟩ := h2
    refine ⟨?_, t, ht⟩
    unfold holdsFor at hh
    rw [hinv.ids_eq]
    cases hf : StdMap.find s.documents_ doc.id with
    | none => simp [hf] at hh
    | some data => exact StdMap.mem_keys_of_find hf

end RemovedFacts

/-! ## Facts about the parallel ranker -/

section ParFacts

variable {R : Type} [LinearOrderedField R]

/-- With a stride of zero the chunk loop launches empty tasks for ever: whatever
the budget, it is still running. -/
theorem chunkLoop_stall (task : List Str → ConcurrentMap R → Except Fault (ConcurrentMap R))
    (htask : ∀ m, task [] m = Except.ok m) (words : List Str) (begin : Nat)
    (hb : begin < words.length) (budget : Nat) (m : ConcurrentMap R) :
    FindAllDocumentsPar.chunkLoop task words 0 budget begin m
      = Except.error Fault.still_running := by
  induction budget generalizing m with
  | zero => simp [FindAllDocumentsPar.chunkLoop, Nat.ne_of_lt hb]
  | succ budget ih =>
    have h2 : ¬ begin > words.length := by omega
    simp only [FindAllDocumentsPar.chunkLoop, Nat.ne_of_lt hb, ↓reduceIte, Nat.add_zero, h2,
      List.take_zero, htask, ih]

theorem chunks_stall (task : List Str → ConcurrentMap R → Except Fault (ConcurrentMap R))
    (htask : ∀ m, task [] m = Except.ok m) (words : List Str) (thread_count : Nat)
    (h1 : 0 < words.length) (h2 : words.length < thread_count) (budget : Nat)
    (m : ConcurrentMap R) :
    FindAllDocumentsPar.chunks task words thread_count budget m
      = Except.error Fault.still_running := by
  unfold FindAllDocumentsPar.chunks
  have h3 : words.length ≠ 0 := by omega
  have h4 : thread_count ≠ 0 := by omega
  simp only [h3, h4, ↓reduceIte, Nat.div_eq_of_lt h2]
  exact chunkLoop_stall task htask words 0 h1 budget m

/-- A query with fewer minus words than tasks, and at least one, never gets
through the parallel `FindAllDocuments`: either the plus-word phase ends
without a value, or the minus-word loop is still running at every budget. -/
theorem FindAllDocumentsPar_stall (ln : R → R) (s : SearchServer R) (query : Query)
    (pred : DocumentPredicate) (budget : Nat)
    (h1 : 0 < query.minus_words.length)
    (h2 : query.minus_words.length
      < (if query.plus_words.length < 10 then query.plus_words.length else 10)) :
    FindAllDocumentsPar ln s query pred budget = Except.error Fault.still_running
    ∨ ∃ e, FindAllDocumentsPar.chunks (FindAllDocumentsPar.plusTask ln s pred)
          query.plus_words (if query.plus_words.length < 10 then query.plus_words.length else 10)
          budget (ConcurrentMap.new
            (if query.plus_words.length < 10 then query.plus_words.length else 10))
        = Except.error e
      ∧ FindAllDocumentsPar ln s query pred budget = Except.error e := by
  unfold FindAllDocumentsPar
  simp only
  cases hp : FindAllDocumentsPar.chunks (FindAllDocumentsPar.plusTask ln s pred)
      query.plus_words (if query.plus_words.length < 10 then query.plus_words.length else 10)
      budget (ConcurrentMap.new
        (if query.plus_words.length < 10 then query.plus_words.length else 10)) with
  | error e => exact Or.inr ⟨e, rfl, rfl⟩
  | ok plus =>
    left
    simp only
    rw [chunks_stall (FindAllDocumentsPar.minusTask s) (fun m => rfl) query.minus_words _ h1 h2]

/-- Without plus words and with a minus word, the parallel `FindAllDocuments`
divides the number of minus words by a thread count of zero. -/
theorem FindAllDocumentsPar_no_plus (ln : R → R) (s : SearchServer R) (query : Query)
    (pred : DocumentPredicate) (budget : Nat) (hplus : query.plus_words = [])
    (hminus : query.minus_words ≠ []) :
    FindAllDocumentsPar ln s query pred budget = Except.error Fault.division_by_zero := by
  have hlen : query.minus_words.length ≠ 0 := fun h => hminus (List.length_eq_zero.1 h)
  simp [FindAllDocumentsPar, FindAllDocumentsPar.chunks, hplus, hlen]

/-- On the example server the parallel call for the query `cat dog -bird` is
still running at every budget. -/
theorem par_cat_dog_bird_stalls (ln : ℚ → ℚ) (budget : Nat) :
    FindTopDocumentsPolicy ln exampleServer1 ExecutionPolicy.par "cat dog -bird".toList
      (fun _ _ _ => true) budget = Except.error Fault.still_running := by
  have hq : ParseQuery exampleServer1 "cat dog -bird".toList
      = Except.ok { plus_words := ["cat".toList, "dog".toList],
                    minus_words := ["bird".toList] } := rfl
  have hplus : FindAllDocumentsPar.chunks
        (FindAllDocumentsPar.plusTask ln exampleServer1 (fun _ _ _ => true))
        ["cat".toList, "dog".toList] 2 budget (ConcurrentMap.new 2)
        = Except.error Fault.still_running
      ∨ ∃ plus, FindAllDocumentsPar.chunks
        (FindAllDocumentsPar.plusTask ln exampleServer1 (fun _ _ _ => true))
        ["cat".toList, "dog".toList] 2 budget (ConcurrentMap.new 2) = Except.ok plus := by
    match budget with
    | 0 => exact Or.inl rfl
    | 1 => exact Or.inl rfl
    | b + 2 =>
      right
      cases b with
      | zero => exact ⟨_, rfl⟩
      | succ n => exact ⟨_, rfl⟩
  have hpar : FindAllDocumentsPar ln exampleServer1
      { plus_words := ["cat".toList, "dog".toList], minus_words := ["bird".toList] }
      (fun _ _ _ => true) budget = Except.error Fault.still_running := by
    rcases FindAllDocumentsPar_stall ln exampleServer1
      { plus_words := ["cat".toList, "dog".toList], minus_words := ["bird".toList] }
      (fun _ _ _ => true) budget (by decide) (by decide) with h | ⟨e, he, h⟩
    · exact h
    · have he' : FindAllDocumentsPar.chunks
          (FindAllDocumentsPar.plusTask ln exampleServer1 (fun _ _ _ => true))
          ["cat".toList, "dog".toList] 2 budget (ConcurrentMap.new 2) = Except.error e := he
      rcases hplus with h' | ⟨plus, h'⟩
      · rw [h'] at he'
        rw [h]
        cases he'
        rfl
      · rw [h'] at he'
        cases he'
  unfold FindTopDocumentsPolicy
  simp only [hq, hpar]

end ParFacts

/-! ## Facts about the sharded map -/

section ShardFacts

variable {V : Type}

theorem sharded_new (N : Nat) : Sharded N (ConcurrentMap.new N : ConcurrentMap V) [] where
  length_eq := by simp [ConcurrentMap.new]
  bucket_sorted := by
    intro i b hb
    simp only [ConcurrentMap.new, List.getElem?_replicate] at hb
    split_ifs at hb
    cases hb
    simp [StdMap.keys]
  bucket_route := by
    intro i b k hb hk
    simp only [ConcurrentMap.new, List.getElem?_replicate] at hb
    split_ifs at hb
    cases hb
    simp [StdMap.keys] at hk
  bucket_find := by
    intro k b hb
    simp only [ConcurrentMap.new, List.getElem?_replicate] at hb
    split_ifs at hb
    cases hb
    rfl
  sorted := by simp [StdMap.keys]

theorem getElem?_modify_some (g : StdMap Int V → StdMap Int V) (i j : Nat)
    (l : List (StdMap Int V)) (b' : StdMap Int V) (h : (l.modify g i)[j]? = some b') :
    ∃ b, l[j]? = some b ∧ b' = if i = j then g b else b := by
  rw [List.getElem?_modify] at h
  cases hl : l[j]? with
  | none => simp [hl] at h
  | some b =>
    refine ⟨b, rfl, ?_⟩
    simp only [hl, Option.map_eq_map, Option.map_some', Option.some.injEq] at h
    exact h.symm

theorem sharded_access (init : V) (N : Nat) (hN : 0 < N) (m : ConcurrentMap V)
    (o : StdMap Int V) (h : Sharded N m o) (key : Int) (f : V → V) :
    ∃ m', ConcurrentMap.access init m key f = Except.ok m'
      ∧ Sharded N m' (StdMap.insert key (f ((StdMap.find o key).getD init)) o) := by
  have hlen : m.map_vec_.length ≠ 0 := by rw [h.length_eq]; omega
  refine ⟨ConcurrentMap.mk (m.map_vec_.modify
      (fun mp => StdMap.insert key (f ((StdMap.find mp key).getD init)) mp)
      (toUInt64 key % m.map_vec_.length)),
    by simp only [ConcurrentMap.access, hlen, ↓reduceIte], ?_⟩
  rw [h.length_eq]
  refine ⟨by simp [h.length_eq], ?_, ?_, ?_, StdMap.sorted_insert _ _ _ h.sorted⟩
  · intro j b' hb'
    obtain ⟨b, hb, rfl⟩ := getElem?_modify_some _ _ _ _ _ hb'
    split_ifs
    · exact StdMap.sorted_insert _ _ _ (h.bucket_sorted j b hb)
    · exact h.bucket_sorted j b hb
  · intro j b' k hb' hk
    obtain ⟨b, hb, rfl⟩ := getElem?_modify_some _ _ _ _ _ hb'
    split_ifs at hk with hij
    · rw [StdMap.keys_insert, StdSet.mem_insert] at hk
      rcases hk with rfl | hk
      · exact hij
      · exact h.bucket_route j b k hb hk
    · exact h.bucket_route j b k hb hk
  · intro k b' hb'
    obtain ⟨b, hb, rfl⟩ := getElem?_modify_some _ _ _ _ _ hb'
    have hbk := h.bucket_find k b hb
    by_cases hij : toUInt64 key % N = toUInt64 k % N
    · rw [← hij] at hb
      have hbkey := h.bucket_find key b hb
      simp only [hij, ↓reduceIte, StdMap.find_insert, hbkey, hbk]
    · have hne : key ≠ k := fun e => hij (by rw [e])
      simp only [hij, ↓reduceIte, StdMap.find_insert, hne, hbk]

theorem sharded_erase (N : Nat) (hN : 0 < N) (m : ConcurrentMap V)
    (o : StdMap Int V) (h : Sharded N m o) (key : Int) :
    ∃ m', ConcurrentMap.Erase m key = Except.ok m' ∧ Sharded N m' (StdMap.erase key o) := by
  have hlen : m.map_vec_.length ≠ 0 := by rw [h.length_eq]; omega
  refine ⟨ConcurrentMap.mk (m.map_vec_.modify (fun mp => StdMap.erase key mp)
      (toUInt64 key % m.map_vec_.length)),
    by simp only [ConcurrentMap.Erase, hlen, ↓reduceIte], ?_⟩
  rw [h.length_eq]
  refine ⟨by simp [h.length_eq], ?_, ?_, ?_, StdMap.sorted_erase _ _ h.sorted⟩
  · intro j b' hb'
    obtain ⟨b, hb, rfl⟩ := getElem?_modify_some _ _ _ _ _ hb'
    split_ifs
    · exact StdMap.sorted_erase _ _ (h.bucket_sorted j b hb)
    · exact h.bucket_sorted j b hb
  · intro j b' k hb' hk
    obtain ⟨b, hb, rfl⟩ := getElem?_modify_some _ _ _ _ _ hb'
    split_ifs at hk with hij
    · rw [StdMap.keys_erase, StdSet.mem_erase] at hk
      exact h.bucket_route j b k hb hk.2
    · exact h.bucket_route j b k hb hk
  · intro k b' hb'
    obtain ⟨b, hb, rfl⟩ := getElem?_modify_some _ _ _ _ _ hb'
    have hbk := h.bucket_find k b hb
    by_cases hij : toUInt64 key % N = toUInt64 k % N
    · simp only [hij, ↓reduceIte, StdMap.find_erase, hbk]
    · have hne : k ≠ key := fun e => hij (by rw [e])
      simp only [hij, ↓reduceIte, StdMap.find_erase, hne, hbk]

theorem sharded_run (init : V) (N : Nat) (hN : 0 < N) (ops : List (MapOp V))
    (m : ConcurrentMap V) (o : StdMap Int V) (h : Sharded N m o) :
    ∃ m', ConcurrentMap.run init ops m = Except.ok m' ∧ Sharded N m' (StdMap.run init ops o) := by
  induction ops generalizing m o with
  | nil => exact ⟨m, rfl, h⟩
  | cons op rest ih =>
    cases op with
    | access key f =>
      obtain ⟨m1, h1, h2⟩ := sharded_access init N hN m o h key f
      obtain ⟨m', h3, h4⟩ := ih m1 _ h2
      exact ⟨m', by simp only [ConcurrentMap.run, ConcurrentMap.applyOp, h1, h3], h4⟩
    | erase key =>
      obtain ⟨m1, h1, h2⟩ := sharded_erase N hN m o h key
      obtain ⟨m', h3, h4⟩ := ih m1 _ h2
      exact ⟨m', by simp only [ConcurrentMap.run, ConcurrentMap.applyOp, h1, h3], h4⟩

theorem merge_spec (result source : StdMap Int V) :
    ((StdMap.keys result).Sorted (· < ·) →
      (StdMap.keys (StdMap.merge result source)).Sorted (· < ·))
    ∧ ∀ k, StdMap.find (StdMap.merge result source) k
        = (StdMap.find result k).or (StdMap.find source k) := by
  induction source generalizing result with
  | nil => exact ⟨id, fun k => by simp [StdMap.merge, StdMap.find]⟩
  | cons p rest ih =>
    obtain ⟨a, v⟩ := p
    by_cases hc : StdMap.count result a = 0
    · obtain ⟨h1, h2⟩ := ih (StdMap.insert a v result)
      have hnone : StdMap.find result a = none := by
        unfold StdMap.count at hc
        split_ifs at hc with hs
        simpa using hs
      refine ⟨fun hs => ?_, fun k => ?_⟩
      · have := h1 (StdMap.sorted_insert _ _ _ hs)
        simpa [StdMap.merge, hc] using this
      · have := h2 k
        simp only [StdMap.merge, List.foldl_cons, hc, ↓reduceIte] at this ⊢
        rw [this, StdMap.find_insert]
        by_cases hak : a = k
        · subst hak
          simp [hnone, StdMap.find]
        · simp [hak, StdMap.find]
    · obtain ⟨h1, h2⟩ := ih result
      have hsome : (StdMap.find result a).isSome := by
        unfold StdMap.count at hc
        split_ifs at hc with hs
        · exact hs
        · exact absurd rfl hc
      refine ⟨fun hs => ?_, fun k => ?_⟩
      · have := h1 hs
        simpa [StdMap.merge, hc] using this
      · have := h2 k
        simp only [StdMap.merge, List.foldl_cons, hc, ↓reduceIte] at this ⊢
        rw [this]
        by_cases hak : a = k
        · subst hak
          obtain ⟨x, hx⟩ := Option.isSome_iff_exists.1 hsome
          simp [hx]
        · simp [hak, StdMap.find]

theorem foldl_merge_spec (buckets : List (StdMap Int V)) (result : StdMap Int V) :
    ((StdMap.keys result).Sorted (· < ·) →
      (StdMap.keys (buckets.foldl (fun result mp => StdMap.merge result mp) result)).Sorted
        (· < ·))
    ∧ ∀ k, StdMap.find (buckets.foldl (fun result mp => StdMap.merge result mp) result) k
        = (StdMap.find result k).or (buckets.findSome? (fun b => StdMap.find b k)) := by
  induction buckets generalizing result with
  | nil => exact ⟨id, fun k => by simp⟩
  | cons b rest ih =>
    obtain ⟨h1, h2⟩ := ih (StdMap.merge result b)
    obtain ⟨g1, g2⟩ := merge_spec result b
    refine ⟨fun hs => h1 (g1 hs), fun k => ?_⟩
    simp only [List.foldl_cons, h2 k, g2 k, List.findSome?_cons]
    cases StdMap.find result k <;> cases StdMap.find b k <;> simp

theorem findSome?_of_single {α β : Type} (f : α → Option β) (l : List α) (i : Nat) (b : α)
    (hi : l[i]? = some b) (hother : ∀ j b', j ≠ i → l[j]? = some b' → f b' = none) :
    l.findSome? f = f b := by
  induction l generalizing i with
  | nil => simp at hi
  | cons a rest ih =>
    cases i with
    | zero =>
      simp only [List.getElem?_cons_zero, Option.some.injEq] at hi
      subst hi
      cases hf : f a with
      | some x => simp [List.findSome?_cons, hf]
      | none =>
        simp only [List.findSome?_cons, hf]
        rw [List.findSome?_eq_none_iff]
        intro x hx
        obtain ⟨j, hj⟩ := List.getElem?_of_mem hx
        exact hother (j + 1) x (by omega) (by simpa using hj)
    | succ i =>
      have ha : f a = none := hother 0 a (by omega) (by simp)
      simp only [List.findSome?_cons, ha]
      apply ih i
      · simpa using hi
      · intro j b' hj hb'
        exact hother (j + 1) b' (by omega) (by simpa using hb')

/-- The snapshot of a sharded map that holds `o` is `o`. -/
theorem sharded_build (N : Nat) (hN : 0 < N) (m : ConcurrentMap V) (o : StdMap Int V)
    (h : Sharded N m o) : ConcurrentMap.BuildOrdinaryMap m = o := by
  obtain ⟨h1, h2⟩ := foldl_merge_spec m.map_vec_ []
  apply StdMap.sorted_ext (h1 (by simp [StdMap.keys])) h.sorted
  intro k
  show StdMap.find (m.map_vec_.foldl (fun result mp => StdMap.merge result mp) []) k = _
  rw [h2 k]
  have hlt : toUInt64 k % N < m.map_vec_.length := by
    rw [h.length_eq]; exact Nat.mod_lt _ hN
  obtain ⟨b, hb⟩ : ∃ b, m.map_vec_[toUInt64 k % N]? = some b :=
    ⟨_, List.getElem?_eq_getElem hlt⟩
  rw [findSome?_of_single (fun b => StdMap.find b k) m.map_vec_ _ b hb]
  · simp [StdMap.find, h.bucket_find k b hb]
  · intro j b' hj hb'
    rw [StdMap.find_eq_none_iff]
    intro hk
    exact hj (h.bucket_route j b' k hb' hk).symm

end ShardFacts

/-! ## Facts about the query parser -/

section ParseFacts

variable {R : Type} [LinearOrderedField R]

theorem head_dropWhile_space (l : Str) :
    (l.dropWhile (fun c => c == ' ')).head? ≠ some ' ' := by
  induction l with
  | nil => simp
  | cons a rest ih =>
    by_cases ha : a = ' '
    · subst ha
      simpa [List.dropWhile_cons] using ih
    · simp [List.dropWhile_cons, ha]

theorem SplitIntoWordsView.loop_nonempty (fuel : Nat) (t : Str) (ht : t.head? ≠ some ' ') :
    ∀ w ∈ SplitIntoWordsView.loop fuel t, w ≠ [] := by
  induction fuel generalizing t with
  | zero => simp [SplitIntoWordsView.loop]
  | succ fuel ih =>
    cases t with
    | nil => simp [SplitIntoWordsView.loop]
    | cons a rest =>
      have ha : a ≠ ' ' := by simpa using ht
      have h1 : (a != ' ') = true := by simpa using ha
      intro w hw
      simp only [SplitIntoWordsView.loop, List.isEmpty_cons, Bool.false_eq_true, ↓reduceIte,
        List.mem_cons] at hw
      rcases hw with rfl | hw
      · simp [List.takeWhile_cons, h1]
      · exact ih _ (head_dropWhile_space _) w hw

/-- No word of a text is empty. -/
theorem SplitIntoWordsView_nonempty (text : Str) : ∀ w ∈ SplitIntoWordsView text, w ≠ [] := by
  unfold SplitIntoWordsView
  split_ifs
  · simp
  · exact SplitIntoWordsView.loop_nonempty _ _ (head_dropWhile_space _)

theorem not_control_minus : ¬ ('-' : Char).toNat < 32 := by decide

theorem ParseQueryWord_malformed (s : SearchServer R) (w : Str) (h : malformedToken w) :
    ParseQueryWord s w = Except.error Exn.invalid_argument := by
  rcases h with rfl | ⟨rest, rfl⟩ | ⟨c, hc, h32⟩
  · rfl
  · simp [ParseQueryWord]
  · cases w with
    | nil => simp at hc
    | cons a tl =>
      by_cases ha : a = '-'
      · subst ha
        have hc' : c ∈ tl := by
          rcases List.mem_cons.1 hc with rfl | hc
          · exact absurd h32 not_control_minus
          · exact hc
        have hv : IsValidWord tl = false := (IsValidWord_eq_false_iff tl).2 ⟨c, hc', h32⟩
        simp [ParseQueryWord, hv]
      · have hv : IsValidWord (a :: tl) = false :=
          (IsValidWord_eq_false_iff _).2 ⟨c, hc, h32⟩
        simp [ParseQueryWord, ha, hv]

theorem isValidWord_of_not_control (w : Str) (h : ¬ ∃ c ∈ w, c.toNat < 32) :
    IsValidWord w = true := by
  cases hv : IsValidWord w with
  | true => rfl
  | false => exact absurd ((IsValidWord_eq_false_iff w).1 hv) h

/-- A plus token that is well formed parses into itself. -/
theorem ParseQueryWord_plus (s : SearchServer R) (w : Str) (hw : w ≠ [])
    (hhead : w.head? ≠ some '-') (h : ¬ malformedToken w) :
    ParseQueryWord s w
      = Except.ok { data := w, is_minus := false, is_stop := IsStopWord s w } := by
  have hv : IsValidWord w = true :=
    isValidWord_of_not_control w (fun hc => h (Or.inr (Or.inr hc)))
  cases w with
  | nil => exact absurd rfl hw
  | cons a tl =>
    have ha : a ≠ '-' := by simpa using hhead
    simp [ParseQueryWord, ha, hv]

/-- A minus token that is well formed parses into the token without its `-`. -/
theorem ParseQueryWord_minus (s : SearchServer R) (t : Str) (h : ¬ malformedToken ('-' :: t)) :
    ParseQueryWord s ('-' :: t)
      = Except.ok { data := t, is_minus := true, is_stop := IsStopWord s t } := by
  have hv : IsValidWord t = true := by
    apply isValidWord_of_not_control
    rintro ⟨c, hc, h32⟩
    exact h (Or.inr (Or.inr ⟨c, List.mem_cons_of_mem _ hc, h32⟩))
  cases t with
  | nil => exact absurd (Or.inl rfl) h
  | cons a tl =>
    have ha : a ≠ '-' := by
      rintro rfl
      exact h (Or.inr (Or.inl ⟨tl, rfl⟩))
    simp [ParseQueryWord, ha, hv]

theorem ParseQueryWord_error (s : SearchServer R) (w : Str) (e : Exn)
    (h : ParseQueryWord s w = Except.error e) : e = Exn.invalid_argument := by
  unfold ParseQueryWord at h
  by_cases h1 : w.isEmpty = true
  · rw [if_pos h1] at h
    cases h; rfl
  · rw [if_neg h1] at h
    simp only at h
    split_ifs at h <;> cases h <;> rfl

theorem ParseQuery.loop_error (s : SearchServer R) (ws : List Str) (result : Query)
    (h : ∃ w ∈ ws, malformedToken w) :
    ParseQuery.loop s ws result = Except.error Exn.invalid_argument := by
  induction ws generalizing result with
  | nil => simp at h
  | cons w rest ih =>
    by_cases hw : malformedToken w
    · simp [ParseQuery.loop, ParseQueryWord_malformed s w hw]
    · have hrest : ∃ w' ∈ rest, malformedToken w' := by
        obtain ⟨w', hw', hm⟩ := h
        rcases List.mem_cons.1 hw' with rfl | hw'
        · exact absurd hm hw
        · exact ⟨w', hw', hm⟩
      unfold ParseQuery.loop
      cases hp : ParseQueryWord s w with
      | error e =>
        simp only
        rw [ParseQueryWord_error s w e hp]
      | ok qw =>
        simp only
        split_ifs <;> exact ih _ hrest

/-- The query that the loop of `ParseQuery` builds from well-formed tokens. -/
theorem ParseQuery.loop_wellformed (s : SearchServer R) (ws : List Str) (result : Query)
    (hne : ∀ w ∈ ws, w ≠ []) (h : ¬ ∃ w ∈ ws, malformedToken w) :
    ∃ q, ParseQuery.loop s ws result = Except.ok q
      ∧ (∀ t, t ∈ q.plus_words ↔
          t ∈ result.plus_words ∨ (t ∈ ws ∧ t.head? ≠ some '-' ∧ t ∉ s.stop_words_))
      ∧ (∀ t, t ∈ q.minus_words ↔
          t ∈ result.minus_words ∨ (('-' :: t) ∈ ws ∧ t ∉ s.stop_words_))
      ∧ (result.plus_words.Sorted (· < ·) → q.plus_words.Sorted (· < ·))
      ∧ (result.minus_words.Sorted (· < ·) → q.minus_words.Sorted (· < ·)) := by
  induction ws generalizing result with
  | nil => exact ⟨result, rfl, by simp, by simp, id, id⟩
  | cons w rest ih =>
    have hw : ¬ malformedToken w := fun hm => h ⟨w, List.mem_cons_self _ _, hm⟩
    have hwne : w ≠ [] := hne w (List.mem_cons_self _ _)
    have hrest : ¬ ∃ w' ∈ rest, malformedToken w' :=
      fun ⟨w', hw', hm⟩ => h ⟨w', List.mem_cons_of_mem _ hw', hm⟩
    have hne' : ∀ w' ∈ rest, w' ≠ [] := fun w' hw' => hne w' (List.mem_cons_of_mem _ hw')
    by_cases hhead : w.head? = some '-'
    · -- a minus token
      obtain ⟨t, rfl⟩ : ∃ t, w = '-' :: t := by
        cases w with
        | nil => exact absurd rfl hwne
        | cons a tl =>
          simp only [List.head?_cons, Option.some.injEq] at hhead
          exact ⟨tl, by rw [hhead]⟩
      have hp := ParseQueryWord_minus s t hw
      by_cases hstop : t ∈ s.stop_words_
      · obtain ⟨q, h1, h2, h3, h4, h5⟩ := ih result hne' hrest
        refine ⟨q, ?_, ?_, ?_, h4, h5⟩
        · simp [ParseQuery.loop, hp, (isStopWord_iff s t).2 hstop, h1]
        · intro x
          rw [h2 x]
          constructor
          · rintro (hx | ⟨hx, hh, hs⟩)
            · exact Or.inl hx
            · exact Or.inr ⟨List.mem_cons_of_mem _ hx, hh, hs⟩
          · rintro (hx | ⟨hx, hh, hs⟩)
            · exact Or.inl hx
            · rcases List.mem_cons.1 hx with rfl | hx
              · simp at hh
              · exact Or.inr ⟨hx, hh, hs⟩
        · intro x
          rw [h3 x]
          constructor
          · rintro (hx | ⟨hx, hs⟩)
            · exact Or.inl hx
            · exact Or.inr ⟨List.mem_cons_of_mem _ hx, hs⟩
          · rintro (hx | ⟨hx, hs⟩)
            · exact Or.inl hx
            · rcases List.mem_cons.1 hx with hx | hx
              · simp only [List.cons.injEq, true_and] at hx
                subst hx
                exact absurd hstop hs
              · exact Or.inr ⟨hx, hs⟩
      · have hns : IsStopWord s t = false := by
          cases hb : IsStopWord s t with
          | false => rfl
          | true => exact absurd ((isStopWord_iff s t).1 hb) hstop
        obtain ⟨q, h1, h2, h3, h4, h5⟩ :=
          ih { result with minus_words := StdSet.insert t result.minus_words } hne' hrest
        refine ⟨q, ?_, ?_, ?_, h4, fun hs => h5 (StdSet.set_sorted_insert _ _ hs)⟩
        · simp [ParseQuery.loop, hp, hns, h1]
        · intro x
          rw [h2 x]
          constructor
          · rintro (hx | ⟨hx, hh, hs⟩)
            · exact Or.inl hx
            · exact Or.inr ⟨List.mem_cons_of_mem _ hx, hh, hs⟩
          · rintro (hx | ⟨hx, hh, hs⟩)
            · exact Or.inl hx
            · rcases List.mem_cons.1 hx with rfl | hx
              · simp at hh
              · exact Or.inr ⟨hx, hh, hs⟩
        · intro x
          rw [h3 x]
          simp only [StdSet.mem_insert]
          constructor
          · rintro ((rfl | hx) | ⟨hx, hs⟩)
            · exact Or.inr ⟨List.mem_cons_self _ _, hstop⟩
            · exact Or.inl hx
            · exact Or.inr ⟨List.mem_cons_of_mem _ hx, hs⟩
          · rintro (hx | ⟨hx, hs⟩)
            · exact Or.inl (Or.inr hx)
            · rcases List.mem_cons.1 hx with hx | hx
              · simp only [List.cons.injEq, true_and] at hx
                exact Or.inl (Or.inl hx)
              · exact Or.inr ⟨hx, hs⟩
    · -- a plus token
      have hp := ParseQueryWord_plus s w hwne hhead hw
      by_cases hstop : w ∈ s.stop_words_
      · obtain ⟨q, h1, h2, h3, h4, h5⟩ := ih result hne' hrest
        refine ⟨q, ?_, ?_, ?_, h4, h5⟩
        · simp [ParseQuery.loop, hp, (isStopWord_iff s w).2 hstop, h1]
        · intro x
          rw [h2 x]
          constructor
          · rintro (hx | ⟨hx, hh, hs⟩)
            · exact Or.inl hx
            · exact Or.inr ⟨List.mem_cons_of_mem _ hx, hh, hs⟩
          · rintro (hx | ⟨hx, hh, hs⟩)
            · exact Or.inl hx
            · rcases List.mem_cons.1 hx with rfl | hx
              · exact absurd hstop hs
              · exact Or.inr ⟨hx, hh, hs⟩
        · intro x
          rw [h3 x]
          constructor
          · rintro (hx | ⟨hx, hs⟩)
            · exact Or.inl hx
            · exact Or.inr ⟨List.mem_cons_of_mem _ hx, hs⟩
          · rintro (hx | ⟨hx, hs⟩)
            · exact Or.inl hx
            · rcases List.mem_cons.1 hx with hx | hx
              · rw [← hx] at hhead
                simp at hhead
              · exact Or.inr ⟨hx, hs⟩
      · have hns : IsStopWord s w = false := by
          cases hb : IsStopWord s w with
          | false => rfl
          | true => exact absurd ((isStopWord_iff s w).1 hb) hstop
        obtain ⟨q, h1, h2, h3, h4, h5⟩ :=
          ih { result with plus_words := StdSet.insert w result.plus_words } hne' hrest
        refine ⟨q, ?_, ?_, ?_, fun hs => h4 (StdSet.set_sorted_insert _ _ hs), h5⟩
        · simp [ParseQuery.loop, hp, hns, h1]
        · intro x
          rw [h2 x]
          simp only [StdSet.mem_insert]
          constructor
          · rintro ((rfl | hx) | ⟨hx, hh, hs⟩)
            · exact Or.inr ⟨List.mem_cons_self _ _, hhead, hstop⟩
            · exact Or.inl hx
            · exact Or.inr ⟨List.mem_cons_of_mem _ hx, hh, hs⟩
          · rintro (hx | ⟨hx, hh, hs⟩)
            · exact Or.inl (Or.inr hx)
            · rcases List.mem_cons.1 hx with hx | hx
              · exact Or.inl (Or.inl hx)
              · exact Or.inr ⟨hx, hh, hs⟩
        · intro x
          rw [h3 x]
          constructor
          · rintro (hx | ⟨hx, hs⟩)
            · exact Or.inl hx
            · exact Or.inr ⟨List.mem_cons_of_mem _ hx, hs⟩
          · rintro (hx | ⟨hx, hs⟩)
            · exact Or.inl hx
            · rcases List.mem_cons.1 hx with hx | hx
              · rw [← hx] at hhead
                simp at hhead
              · exact Or.inr ⟨hx, hs⟩

/-- What a query text that parses is parsed into. -/
theorem ParseQuery_spec (s : SearchServer R) (text : Str) (q : Query)
    (h : ParseQuery s text = Except.ok q) :
    (¬ ∃ w ∈ SplitIntoWordsView text, malformedToken w)
    ∧ (∀ t, t ∈ q.plus_words ↔
        (t ∈ SplitIntoWordsView text ∧ t.head? ≠ some '-' ∧ t ∉ s.stop_words_))
    ∧ (∀ t, t ∈ q.minus_words ↔ (('-' :: t) ∈ SplitIntoWordsView text ∧ t ∉ s.stop_words_)) := by
  have hm : ¬ ∃ w ∈ SplitIntoWordsView text, malformedToken w := by
    intro hm
    have := ParseQuery.loop_error s (SplitIntoWordsView text)
      { plus_words := [], minus_words := [] } hm
    unfold ParseQuery at h
    rw [this] at h
    cases h
  obtain ⟨q0, hq0, h1, h2, -, -⟩ := ParseQuery.loop_wellformed s (SplitIntoWordsView text)
    { plus_words := [], minus_words := [] } (SplitIntoWordsView_nonempty text) hm
  have hq : q0 = q := by
    unfold ParseQuery at h
    rw [hq0] at h
    cases h
    rfl
  subst hq
  exact ⟨hm, fun t => by simpa using h1 t, fun t => by simpa using h2 t⟩

end ParseFacts

/-! ## Facts about the tokenizer -/

theorem splitOn_space_cons (t : Str) :
    List.splitOn ' ' (' ' :: t) = [] :: List.splitOn ' ' t := by
  simp [List.splitOn, List.splitOnP_cons]

theorem splitOn_other_cons (c : Char) (t : Str) (hc : c ≠ ' ') :
    List.splitOn ' ' (c :: t) = (List.splitOn ' ' t).modifyHead (List.cons c) := by
  simp [List.splitOn, List.splitOnP_cons, hc]

theorem splitOn_nil_eq : List.splitOn ' ' ([] : Str) = [[]] := by
  simp [List.splitOn]

theorem modifyHead_of_id {α : Type} (f : α → α) (hf : ∀ x, f x = x) (l : List α) :
    l.modifyHead f = l := by
  cases l with
  | nil => rfl
  | cons a rest => simp [hf]

theorem SplitIntoWords.loop_splitOn (text word : Str) (words : List Str) :
    SplitIntoWords.loop text word words
      = words ++ ((List.splitOn ' ' text).modifyHead (fun h => word ++ h)).filter
          (fun w => !w.isEmpty) := by
  induction text generalizing word words with
  | nil =>
    cases word with
    | nil => simp [SplitIntoWords.loop, splitOn_nil_eq]
    | cons a rest => simp [SplitIntoWords.loop, splitOn_nil_eq]
  | cons c t ih =>
    by_cases hc : c = ' '
    · subst hc
      rw [splitOn_space_cons]
      cases word with
      | nil =>
        simp only [SplitIntoWords.loop, ↓reduceIte, List.isEmpty_nil, Bool.not_true,
          Bool.false_eq_true, ih, List.modifyHead_cons, List.append_nil, List.filter_cons]
        congr 2
        exact modifyHead_of_id _ (fun x => rfl) _
      | cons a rest =>
        simp only [SplitIntoWords.loop, ↓reduceIte, List.isEmpty_cons, Bool.not_false, ih,
          List.modifyHead_cons, List.append_nil, List.filter_cons, List.append_assoc,
          List.singleton_append]
        congr 3
        exact modifyHead_of_id _ (fun x => rfl) _
    · rw [splitOn_other_cons c t hc]
      simp only [SplitIntoWords.loop, hc, ↓reduceIte, ih, List.modifyHead_modifyHead]
      congr 3
      funext h
      simp

theorem SplitIntoWords_eq_spec (text : Str) : SplitIntoWords text = tokensOfSpec text := by
  unfold SplitIntoWords tokensOfSpec
  rw [SplitIntoWords.loop_splitOn, List.nil_append]
  congr 1
  exact modifyHead_of_id _ (fun x => rfl) _

theorem splitOn_eq_takeWhile (t : Str) :
    List.splitOn ' ' t
      = t.takeWhile (fun c => c != ' ')
        :: (match t.dropWhile (fun c => c != ' ') with
            | [] => []
            | _ :: r => List.splitOn ' ' r) := by
  induction t with
  | nil => simp [splitOn_nil_eq]
  | cons c t ih =>
    by_cases hc : c = ' '
    · subst hc
      simp [splitOn_space_cons, List.takeWhile_cons, List.dropWhile_cons]
    · have h1 : (c != ' ') = true := by simpa using hc
      rw [splitOn_other_cons c t hc, ih]
      simp [List.takeWhile_cons, List.dropWhile_cons, h1]

theorem tokensOfSpec_dropWhile (t : Str) :
    tokensOfSpec (t.dropWhile (fun c => c == ' ')) = tokensOfSpec t := by
  induction t with
  | nil => rfl
  | cons c t ih =>
    by_cases hc : c = ' '
    · subst hc
      simp only [List.dropWhile_cons, beq_self_eq_true, ↓reduceIte, ih]
      simp [tokensOfSpec, splitOn_space_cons]
    · simp [List.dropWhile_cons, hc]

theorem dropWhile_head_not {α : Type} (p : α → Bool) (l : List α) (b : α) (r : List α)
    (h : l.dropWhile p = b :: r) : p b = false := by
  induction l with
  | nil => simp at h
  | cons a rest ih =>
    by_cases ha : p a = true
    · rw [List.dropWhile_cons, if_pos ha] at h
      exact ih h
    · rw [List.dropWhile_cons, if_neg ha] at h
      simp only [List.cons.injEq] at h
      rw [← h.1]
      simpa using ha

theorem SplitIntoWordsView.loop_nil (fuel : Nat) : SplitIntoWordsView.loop fuel [] = [] := by
  cases fuel <;> rfl

theorem SplitIntoWordsView.loop_eq_spec (fuel : Nat) (t : Str) (hlen : t.length ≤ fuel)
    (ht : t.head? ≠ some ' ') : SplitIntoWordsView.loop fuel t = tokensOfSpec t := by
  induction fuel generalizing t with
  | zero =>
    have : t = [] := List.length_eq_zero.1 (Nat.le_zero.1 hlen)
    subst this
    rfl
  | succ fuel ih =>
    cases t with
    | nil => rfl
    | cons a rest =>
      have ha : a ≠ ' ' := by simpa using ht
      have h1 : (a != ' ') = true := by simpa using ha
      have hnext := SplitIntoWordsView.loop_next_length (a :: rest) (by simp)
      have hspec : tokensOfSpec (a :: rest)
          = (a :: rest).takeWhile (fun c => c != ' ')
            :: tokensOfSpec (((a :: rest).dropWhile (fun c => c != ' ')).dropWhile
                (fun c => c == ' ')) := by
        rw [tokensOfSpec_dropWhile]
        conv_lhs => rw [tokensOfSpec, splitOn_eq_takeWhile]
        have hne : ((a :: rest).takeWhile (fun c => c != ' ')).isEmpty = false := by
          simp [List.takeWhile_cons, h1]
        simp only [List.filter_cons, hne, Bool.not_false, ↓reduceIte, List.cons.injEq, true_and]
        cases hd : (a :: rest).dropWhile (fun c => c != ' ') with
        | nil => rfl
        | cons b r =>
          have hb := dropWhile_head_not _ _ b r hd
          have hb' : b = ' ' := by simpa using hb
          subst hb'
          simp only
          simp [tokensOfSpec, splitOn_space_cons]
      rw [hspec]
      simp only [SplitIntoWordsView.loop, List.isEmpty_cons, Bool.false_eq_true, ↓reduceIte,
        List.cons.injEq, true_and]
      exact ih _ (by simp only [List.length_cons] at hlen hnext; omega)
        (head_dropWhile_space _)

theorem SplitIntoWordsView_eq_spec (text : Str) : SplitIntoWordsView text = tokensOfSpec text := by
  unfold SplitIntoWordsView
  by_cases ht : text = []
  · subst ht; rfl
  · simp only [List.isEmpty_iff, ht, ↓reduceIte]
    rw [SplitIntoWordsView.loop_eq_spec _ _ (length_dropWhile_le _ _) (head_dropWhile_space _),
      tokensOfSpec_dropWhile]

theorem splitOn_no_space (t : Str) : ∀ w ∈ List.splitOn ' ' t, ' ' ∉ w := by
  induction t with
  | nil => simp [splitOn_nil_eq]
  | cons c t ih =>
    by_cases hc : c = ' '
    · subst hc
      rw [splitOn_space_cons]
      intro w hw
      rcases List.mem_cons.1 hw with rfl | hw
      · simp
      · exact ih w hw
    · rw [splitOn_other_cons c t hc]
      cases hs : List.splitOn ' ' t with
      | nil => simp
      | cons h rest =>
        rw [hs] at ih
        intro w hw
        simp only [List.modifyHead_cons, List.mem_cons] at hw
        rcases hw with rfl | hw
        · intro hmem
          rcases List.mem_cons.1 hmem with e | hmem
          · exact hc e.symm
          · exact ih h (List.mem_cons_self _ _) hmem
        · exact ih w (List.mem_cons_of_mem _ hw)

theorem tokensOfSpec_token (text : Str) : ∀ w ∈ tokensOfSpec text, w ≠ [] ∧ ' ' ∉ w := by
  intro w hw
  unfold tokensOfSpec at hw
  obtain ⟨h1, h2⟩ := List.mem_filter.1 hw
  refine ⟨?_, splitOn_no_space text w h1⟩
  intro he
  subst he
  simp at h2

theorem tokensOfSpec_intercalate (ls : List Str) (h : ∀ w ∈ ls, w ≠ [] ∧ ' ' ∉ w) :
    tokensOfSpec ([' '].intercalate ls) = ls := by
  by_cases hls : ls = []
  · subst hls
    rfl
  · unfold tokensOfSpec
    rw [List.splitOn_intercalate ls ' ' (fun l hl => (h l hl).2) hls]
    apply List.filter_eq_self.2
    intro w hw
    have := (h w hw).1
    simpa using this

/-! ## Facts about the average rating -/

theorem wrapInt32_of_fits (x : Int) (h1 : -2147483648 ≤ x) (h2 : x ≤ 2147483647) :
    wrapInt32 x = x := by
  unfold wrapInt32
  omega

theorem foldl_rating_sum (ratings : List Int) (a : Int)
    (h : ∀ n, n ≤ ratings.length →
      -2147483648 ≤ a + (ratings.take n).sum ∧ a + (ratings.take n).sum ≤ 2147483647) :
    ratings.foldl (fun rating_sum rating => wrapInt32 (rating_sum + rating)) a
      = a + ratings.sum := by
  induction ratings generalizing a with
  | nil => simp
  | cons r rest ih =>
    have h1 := h 1 (by simp)
    simp only [List.take_succ_cons, List.take_zero, List.sum_cons, List.sum_nil, add_zero] at h1
    simp only [List.foldl_cons, List.sum_cons, wrapInt32_of_fits _ h1.1 h1.2]
    rw [ih (a + r), add_assoc]
    intro n hn
    have h2 := h (n + 1) (by simpa using hn)
    simp only [List.take_succ_cons, List.sum_cons] at h2
    rw [add_assoc]
    exact h2

/-! ## Facts about the order of the results -/

section OrderFacts

variable {R : Type} [LinearOrderedField R]

end OrderFacts

/-! ## The claims -/

section Claims

variable {R : Type} [LinearOrderedField R]

/-- C1: in a reachable state, for a query text that parses, the sequential
`find_top_documents` returns `min(5, n)` documents with pairwise distinct ids,
`n` being the number of live documents for which the predicate holds and which
contain a plus term and no minus term, and every returned document is such a
document; on the example server the query `cat` returns document 0, whose
relevance is 0, and the query `cat -dog` returns nothing. -/
theorem C1_top_documents (ln : R → R) (s : SearchServer R) (hs : Reachable s) (raw_query : Str)
    (query : Query) (hq : ParseQuery s raw_query = Except.ok query) (pred : DocumentPredicate) :
    (∃ docs, FindTopDocuments ln s raw_query pred = Except.ok docs
      ∧ docs.length = min 5 (s.document_ids_.filter (qualifies s query pred)).length
      ∧ (docs.map Document.id).Nodup
      ∧ ∀ doc ∈ docs, IsLive s doc.id ∧ qualifies s query pred doc.id = true)
    ∧ (∀ d, qualifies s query pred d = true ↔
        (holdsFor s pred d = true ∧ (∃ t ∈ query.plus_words, containsTerm s d t = true)
          ∧ ∀ t ∈ query.minus_words, containsTerm s d t = false))
    ∧ (∀ ln' : ℚ → ℚ, ∃ r, FindTopDocumentsActual ln' exampleServer1 "cat".toList
        = Except.ok [{ id := 0, relevance := r, rating := 5 }])
    ∧ (∀ ln' : ℚ → ℚ, FindTopDocumentsActual ln' exampleServer1 "cat -dog".toList
        = Except.ok []) := by
  have hinv := hs.inv
  refine ⟨?_, ?_, fun ln' => ⟨_, rfl⟩, fun ln' => rfl⟩
  · obtain ⟨matched, hm, hsorted, hmem, -⟩ := FindAllDocuments_spec ln s hinv query pred
    have hperm := stdSort_perm compareDocuments matched
    have hlive : ∀ d, qualifies s query pred d = true → d ∈ s.document_ids_ := by
      intro d hd
      simp only [qualifies, Bool.and_eq_true] at hd
      have hh := hd.1.1
      unfold holdsFor at hh
      rw [hinv.ids_eq]
      cases hf : StdMap.find s.documents_ d with
      | none => simp [hf] at hh
      | some data => exact StdMap.mem_keys_of_find hf
    have hids : (s.document_ids_.filter (qualifies s query pred)).Nodup := by
      apply List.Nodup.filter
      rw [hinv.ids_eq]
      exact hinv.docs_sorted.nodup
    have hcount : (matched.map Document.id).Perm
        (s.document_ids_.filter (qualifies s query pred)) := by
      refine (List.perm_ext_iff_of_nodup hsorted.nodup hids).2 ?_
      intro d
      rw [hmem d, List.mem_filter]
      exact ⟨fun h => ⟨hlive d h, h⟩, fun h => h.2⟩
    refine ⟨_, FindTopDocuments_eq ln s raw_query query pred matched hq hm, ?_, ?_, ?_⟩
    · rw [List.length_take, hperm.length_eq, ← hcount.length_eq, List.length_map]
      rfl
    · have hsub : ((stdSort compareDocuments matched).take MAX_RESULT_DOCUMENT_COUNT).Sublist
          (stdSort compareDocuments matched) := List.take_sublist _ _
      exact ((hperm.map Document.id).nodup_iff.2 hsorted.nodup).sublist (hsub.map Document.id)
    · intro doc hdoc
      have h1 : doc ∈ matched := hperm.subset (List.mem_of_mem_take hdoc)
      have h2 : qualifies s query pred doc.id = true :=
        (hmem doc.id).1 (List.mem_map_of_mem _ h1)
      exact ⟨hlive doc.id h2, h2⟩
  · intro d
    simp only [qualifies, Bool.and_eq_true, List.any_eq_true, Bool.not_eq_true',
      List.any_eq_false, Bool.not_eq_true, and_assoc]

/-- Witness of C1 on the example server with the query `cat`. -/
theorem C1_top_documents_witness :
    Reachable exampleServer1
    ∧ ParseQuery exampleServer1 "cat".toList
        = Except.ok { plus_words := ["cat".toList], minus_words := [] }
    ∧ ∃ docs, FindTopDocuments (fun _ => 0) exampleServer1 "cat".toList (fun _ _ _ => true)
          = Except.ok docs
        ∧ docs.length = min 5 (exampleServer1.document_ids_.filter
            (qualifies exampleServer1 { plus_words := ["cat".toList], minus_words := [] }
              (fun _ _ _ => true))).length
        ∧ (docs.map Document.id).Nodup
        ∧ ∀ doc ∈ docs, IsLive exampleServer1 doc.id
            ∧ qualifies exampleServer1 { plus_words := ["cat".toList], minus_words := [] }
                (fun _ _ _ => true) doc.id = true :=
  ⟨exampleServer1_reachable, rfl,
    (C1_top_documents (fun _ => 0) exampleServer1 exampleServer1_reachable "cat".toList
      { plus_words := ["cat".toList], minus_words := [] } rfl (fun _ _ _ => true)).1⟩

/-- C2: in a reachable state every document that the sequential
`find_top_documents` returns carries as relevance the sum, over the plus terms
that occur in it, of its term frequency times `ln (document_count / number of
documents in the inverted entry of the term)`, and carries its stored rating;
on the example server with its one document the query `cat` yields exactly
document 0 with rating 5 and relevance 0, `ln 1` being 0. -/
theorem C2_relevance_and_rating (ln : R → R) (s : SearchServer R) (hs : Reachable s)
    (raw_query : Str) (query : Query) (hq : ParseQuery s raw_query = Except.ok query)
    (pred : DocumentPredicate) (docs : List (Document R))
    (h : FindTopDocuments ln s raw_query pred = Except.ok docs) :
    (∀ doc ∈ docs,
      doc.relevance
        = ((query.plus_words.filter (fun t => containsTerm s doc.id t)).map
            (fun t => termFreq s doc.id t
              * ln ((GetDocumentCount s : R) / (documentFreq s t : R)))).sum
      ∧ (StdMap.find s.documents_ doc.id).map DocumentData.rating = some doc.rating)
    ∧ (∀ ln' : ℚ → ℚ, ln' 1 = 0 →
        FindTopDocumentsActual ln' exampleServer1 "cat".toList
          = Except.ok [{ id := 0, relevance := 0, rating := 5 }]) := by
  refine ⟨?_, ?_⟩
  · obtain ⟨matched, hm, -, -, hrel⟩ := FindAllDocuments_spec ln s hs.inv query pred
    rw [FindTopDocuments_eq ln s raw_query query pred matched hq hm] at h
    simp only [Except.ok.injEq] at h
    subst h
    intro doc hdoc
    exact hrel doc ((stdSort_perm compareDocuments matched).subset (List.mem_of_mem_take hdoc))
  · intro ln' h1
    have he : FindTopDocumentsActual ln' exampleServer1 "cat".toList
        = Except.ok [{ id := 0
                       relevance := 0 + (0 + 1 / ((4 : ℕ) : ℚ))
                         * ln' (((1 : ℤ) : ℚ) * 1 / ((1 : ℕ) : ℚ))
                       rating := 5 }] := rfl
    rw [he]
    norm_num [h1]

/-- Witness of C2 on the example server with the query `cat`. -/
theorem C2_relevance_and_rating_witness :
    Reachable exampleServer1
    ∧ ParseQuery exampleServer1 "cat".toList
        = Except.ok { plus_words := ["cat".toList], minus_words := [] }
    ∧ FindTopDocuments (fun _ => 0) exampleServer1 "cat".toList (fun _ _ _ => true)
        = Except.ok [{ id := 0, relevance := 0 + (0 + 1 / ((4 : ℕ) : ℚ)) * 0, rating := 5 }]
    ∧ ∀ doc ∈ [({ id := 0, relevance := 0 + (0 + 1 / ((4 : ℕ) : ℚ)) * 0, rating := 5 }
          : Document ℚ)],
        (StdMap.find exampleServer1.documents_ doc.id).map DocumentData.rating
          = some doc.rating :=
  ⟨exampleServer1_reachable, rfl, rfl,
    fun doc hdoc =>
      ((C2_relevance_and_rating (fun _ => 0) exampleServer1 exampleServer1_reachable
        "cat".toList { plus_words := ["cat".toList], minus_words := [] } rfl
        (fun _ _ _ => true) _ rfl).1 doc hdoc).2⟩

/-- C4, evaluated at failing inputs.  On the example server the query
`cat dog -bird` parses into two plus words and one minus word; the sequential
call returns document 0, while in the parallel call the minus-word loop
advances by `1 / 2 = 0` words per pass and is still running at every budget.
The query `-bird` makes the sequential call return the empty list and the
parallel call divide by a thread count of zero. -/
theorem C4_parallel_differs_from_sequential :
    Reachable exampleServer1
    ∧ (∀ ln : ℚ → ℚ, ∃ r, FindTopDocuments ln exampleServer1 "cat dog -bird".toList
        (fun _ _ _ => true) = Except.ok [{ id := 0, relevance := r, rating := 5 }])
    ∧ (∀ (ln : ℚ → ℚ) (budget : Nat),
        FindTopDocumentsPolicy ln exampleServer1 ExecutionPolicy.par "cat dog -bird".toList
          (fun _ _ _ => true) budget = Except.error Fault.still_running)
    ∧ (∀ ln : ℚ → ℚ, FindTopDocuments ln exampleServer1 "-bird".toList (fun _ _ _ => true)
        = Except.ok [])
    ∧ (∀ (ln : ℚ → ℚ) (budget : Nat),
        FindTopDocumentsPolicy ln exampleServer1 ExecutionPolicy.par "-bird".toList
          (fun _ _ _ => true) budget = Except.error Fault.division_by_zero) := by
  refine ⟨exampleServer1_reachable, fun ln => ⟨_, rfl⟩, ?_, fun ln => rfl,
    fun ln budget => rfl⟩
  intro ln budget
  have hq : ParseQuery exampleServer1 "cat dog -bird".toList
      = Except.ok { plus_words := ["cat".toList, "dog".toList],
                    minus_words := ["bird".toList] } := rfl
  have hplus : FindAllDocumentsPar.chunks
        (FindAllDocumentsPar.plusTask ln exampleServer1 (fun _ _ _ => true))
        ["cat".toList, "dog".toList] 2 budget (ConcurrentMap.new 2)
        = Except.error Fault.still_running
      ∨ ∃ plus, FindAllDocumentsPar.chunks
        (FindAllDocumentsPar.plusTask ln exampleServer1 (fun _ _ _ => true))
        ["cat".toList, "dog".toList] 2 budget (ConcurrentMap.new 2) = Except.ok plus := by
    match budget with
    | 0 => exact Or.inl rfl
    | 1 => exact Or.inl rfl
    | b + 2 =>
      right
      cases b with
      | zero => exact ⟨_, rfl⟩
      | succ n => exact ⟨_, rfl⟩
  have hall := FindAllDocumentsPar_stall ln exampleServer1
    { plus_words := ["cat".toList, "dog".toList], minus_words := ["bird".toList] }
    (fun _ _ _ => true) budget (by decide) (by decide)
  have hpar : FindAllDocumentsPar ln exampleServer1
      { plus_words := ["cat".toList, "dog".toList], minus_words := ["bird".toList] }
      (fun _ _ _ => true) budget = Except.error Fault.still_running := by
    rcases hall with h | ⟨e, he, h⟩
    · exact h
    · have he' : FindAllDocumentsPar.chunks
          (FindAllDocumentsPar.plusTask ln exampleServer1 (fun _ _ _ => true))
          ["cat".toList, "dog".toList] 2 budget (ConcurrentMap.new 2) = Except.error e := he
      rcases hplus with h' | ⟨plus, h'⟩
      · rw [h'] at he'
        rw [h]
        cases he'
        rfl
      · rw [h'] at he'
        cases he'
  unfold FindTopDocumentsPolicy
  simp only [hq, hpar]

/-- C5: in a reachable state `add_document` fails exactly when the id is
negative, or the id is live, or a token of the text holds a character below 32
(which is to say that the text holds such a character); in every other case it
returns, the id is live afterwards and its record carries the given status. -/
theorem C5_add_document_fails_iff (s : SearchServer R) (hs : Reachable s) (document_id : Int)
    (document : Str) (status : DocumentStatus) (ratings : List Int) :
    ((∃ e, (AddDocument s document_id document status ratings).1 = Except.error e)
      ↔ (document_id < 0 ∨ IsLive s document_id
          ∨ ∃ w ∈ SplitIntoWordsView document, ∃ c ∈ w, c.toNat < 32))
    ∧ ((∃ w ∈ SplitIntoWordsView document, ∃ c ∈ w, c.toNat < 32)
      ↔ ∃ c ∈ document, c.toNat < 32)
    ∧ (¬ (document_id < 0 ∨ IsLive s document_id
          ∨ ∃ w ∈ SplitIntoWordsView document, ∃ c ∈ w, c.toNat < 32)
      → (AddDocument s document_id document status ratings).1 = Except.ok ()
        ∧ IsLive (AddDocument s document_id document status ratings).2 document_id
        ∧ (StdMap.find (AddDocument s document_id document status ratings).2.documents_
            document_id).map DocumentData.status = some status) := by
  have hinv := hs.inv
  have hlive : IsLive s document_id ↔ document_id ∈ StdMap.keys s.documents_ := by
    unfold IsLive; rw [hinv.ids_eq]
  have hfst := AddDocument_fst s document_id document status ratings
  have hvalid := all_valid_iff (SplitIntoWordsView document)
  refine ⟨?_, exists_control_iff document, ?_⟩
  · rw [hfst, hlive]
    generalize (∃ w ∈ SplitIntoWordsView document, ∃ c ∈ w, c.toNat < 32) = P at hvalid
    by_cases h1 : document_id < 0 ∨ document_id ∈ StdMap.keys s.documents_
    · simp only [h1, ↓reduceIte, Except.error.injEq, exists_eq', true_iff]
      tauto
    · by_cases h2 : (SplitIntoWordsView document).all IsValidWord = true
      · have h3 := hvalid.1 h2
        simp only [h1, ↓reduceIte, h2, reduceCtorEq, exists_false, false_iff]
        tauto
      · have h3 : P := by
          by_contra hc
          exact h2 (hvalid.2 hc)
        have h2' : (SplitIntoWordsView document).all IsValidWord = false := by
          simpa using h2
        simp only [h1, ↓reduceIte, h2', Bool.false_eq_true, Except.error.injEq, exists_eq',
          true_iff]
        exact Or.inr (Or.inr h3)
  · intro hno
    have h1 : ¬ (document_id < 0 ∨ document_id ∈ StdMap.keys s.documents_) := by
      rw [← hlive]
      exact fun h => hno (h.elim Or.inl (fun h => Or.inr (Or.inl h)))
    have h2 : (SplitIntoWordsView document).all IsValidWord = true :=
      hvalid.2 (fun h => hno (Or.inr (Or.inr h)))
    have hok : (AddDocument s document_id document status ratings).1 = Except.ok () := by
      rw [hfst]; simp [h1, h2]
    obtain ⟨-, -, -, hstate⟩ := AddDocument_ok s document_id document status ratings hok
    refine ⟨hok, ?_, ?_⟩
    · rw [hstate]
      exact (StdSet.mem_insert _ _ _).2 (Or.inl rfl)
    · rw [hstate]
      simp [StdMap.find_insert]

/-- Witness of C5 on the example server: document 0 is added. -/
theorem C5_add_document_fails_iff_witness :
    Reachable exampleServer
    ∧ (¬ ((0 : Int) < 0 ∨ IsLive exampleServer 0
          ∨ ∃ w ∈ SplitIntoWordsView "a cat and a dog".toList, ∃ c ∈ w, c.toNat < 32)
      → (AddDocument exampleServer 0 "a cat and a dog".toList DocumentStatus.ACTUAL [5, 6]).1
          = Except.ok ()
        ∧ IsLive (AddDocument exampleServer 0 "a cat and a dog".toList
            DocumentStatus.ACTUAL [5, 6]).2 0
        ∧ (StdMap.find (AddDocument exampleServer 0 "a cat and a dog".toList
            DocumentStatus.ACTUAL [5, 6]).2.documents_ 0).map DocumentData.status
          = some DocumentStatus.ACTUAL) :=
  ⟨exampleServer_reachable,
    (C5_add_document_fails_iff exampleServer exampleServer_reachable 0
      "a cat and a dog".toList DocumentStatus.ACTUAL [5, 6]).2.2⟩

/-- C6: a call of `add_document` that fails leaves the forward index, the
inverted index, the document records and the live-id set as they were, and so
the document count; a call with id `-1` always fails in this way. -/
theorem C6_failed_add_changes_nothing (s : SearchServer R) (document_id : Int) (document : Str)
    (status : DocumentStatus) (ratings : List Int) :
    (∀ e, (AddDocument s document_id document status ratings).1 = Except.error e →
      (AddDocument s document_id document status ratings).2.documents_to_word_freqs_
          = s.documents_to_word_freqs_
      ∧ (AddDocument s document_id document status ratings).2.word_to_document_freqs_
          = s.word_to_document_freqs_
      ∧ (AddDocument s document_id document status ratings).2.documents_ = s.documents_
      ∧ (AddDocument s document_id document status ratings).2.document_ids_ = s.document_ids_
      ∧ GetDocumentCount (AddDocument s document_id document status ratings).2
          = GetDocumentCount s)
    ∧ (AddDocument s (-1) document status ratings).1 = Except.error Exn.invalid_argument
    ∧ GetDocumentCount (AddDocument s (-1) document status ratings).2 = GetDocumentCount s := by
  refine ⟨?_, ?_, ?_⟩
  · intro e he
    rw [AddDocument_error_state s _ _ _ _ e he]
    exact ⟨rfl, rfl, rfl, rfl, rfl⟩
  · simp [AddDocument]
  · simp [AddDocument]

/-- Witness of C6: a control character after a valid token makes the call fail
and the example server keeps its one document. -/
theorem C6_failed_add_changes_nothing_witness :
    (AddDocument exampleServer1 7 ['c', 'a', 't', ' ', 'd', Char.ofNat 7]
        DocumentStatus.ACTUAL [1]).1 = Except.error Exn.invalid_argument
    ∧ (AddDocument exampleServer1 7 ['c', 'a', 't', ' ', 'd', Char.ofNat 7]
        DocumentStatus.ACTUAL [1]).2.word_to_document_freqs_
        = exampleServer1.word_to_document_freqs_
    ∧ GetDocumentCount (AddDocument exampleServer1 7 ['c', 'a', 't', ' ', 'd', Char.ofNat 7]
        DocumentStatus.ACTUAL [1]).2 = 1 :=
  have h : (AddDocument exampleServer1 7 ['c', 'a', 't', ' ', 'd', Char.ofNat 7]
      DocumentStatus.ACTUAL [1]).1 = Except.error Exn.invalid_argument := rfl
  have hc := (C6_failed_add_changes_nothing exampleServer1 7
    ['c', 'a', 't', ' ', 'd', Char.ofNat 7] DocumentStatus.ACTUAL [1]).1 _ h
  ⟨h, hc.2.1, hc.2.2.2.2.trans rfl⟩

/-- C7: after a call of `add_document` that returns, in a reachable state, the
forward entry of the id maps exactly the tokens of the text that are no stop
words, each to its number of occurrences among these tokens divided by their
number, a value in (0, 1]; the inverted index stores the same value for the
term and the id; no stop word is a key of the inverted index or of a forward
entry. -/
theorem C7_term_frequencies (s : SearchServer R) (hs : Reachable s) (document_id : Int)
    (document : Str) (status : DocumentStatus) (ratings : List Int)
    (hok : (AddDocument s document_id document status ratings).1 = Except.ok ()) :
    let words := (SplitIntoWordsView document).filter (fun w => decide (w ∉ s.stop_words_))
    let s' := (AddDocument s document_id document status ratings).2
    (∀ t, StdMap.find2 s'.documents_to_word_freqs_ document_id t
        = if t ∈ words then some ((words.count t : R) / ((words.length : Nat) : R)) else none)
    ∧ (∀ t, t ∈ words →
        0 < (words.count t : R) / ((words.length : Nat) : R)
        ∧ (words.count t : R) / ((words.length : Nat) : R) ≤ 1)
    ∧ (∀ t, StdMap.find2 s'.word_to_document_freqs_ t document_id
        = StdMap.find2 s'.documents_to_word_freqs_ document_id t)
    ∧ (∀ w, w ∈ s'.stop_words_ →
        w ∉ StdMap.keys s'.word_to_document_freqs_
        ∧ ∀ d, StdMap.find2 s'.documents_to_word_freqs_ d w = none) := by
  intro words s'
  have hinv := hs.inv
  have hinv' : Inv s' := AddDocument_inv s document_id document status ratings hinv
  obtain ⟨-, hnew, -, -⟩ := AddDocument_ok s document_id document status ratings hok
  refine ⟨?_, ?_, ?_, ?_⟩
  · intro t
    rw [AddDocument_find2 s hinv document_id document status ratings hok]
    by_cases ht : t ∈ words
    · simp only [true_and]
      rw [if_pos ht, if_pos ht]
    · have hnone : StdMap.find2 s.documents_to_word_freqs_ document_id t = none := by
        cases hf : StdMap.find2 s.documents_to_word_freqs_ document_id t with
        | none => rfl
        | some f =>
          have : (StdMap.find2 s.documents_to_word_freqs_ document_id t).isSome := by simp [hf]
          exact absurd (hinv.fwd_live _ (StdMap.find2_isSome_mem_keys this)) hnew
      simp only [true_and]
      rw [if_neg ht, if_neg ht, hnone]
  · intro t ht
    have hc : 0 < words.count t := List.count_pos_iff.2 ht
    have hl : words.count t ≤ words.length := List.count_le_length _ _
    have hc' : (0 : R) < (words.count t : R) := by exact_mod_cast hc
    have hl' : (words.count t : R) ≤ ((words.length : Nat) : R) := by exact_mod_cast hl
    have hn : (0 : R) < ((words.length : Nat) : R) := lt_of_lt_of_le hc' hl'
    exact ⟨div_pos hc' hn, (div_le_one hn).2 hl'⟩
  · intro t
    exact (hinv'.index.mirror document_id t).symm
  · intro w hw
    have hstop : IsStopWord s' w = true := (isStopWord_iff s' w).2 hw
    have hkey : w ∉ StdMap.keys s'.word_to_document_freqs_ := by
      intro hk
      rw [hinv'.index.no_stop w hk] at hstop
      exact Bool.false_ne_true hstop
    refine ⟨hkey, ?_⟩
    intro d
    rw [hinv'.index.mirror d w]
    cases hf : StdMap.find2 s'.word_to_document_freqs_ w d with
    | none => rfl
    | some f =>
      have : (StdMap.find2 s'.word_to_document_freqs_ w d).isSome := by simp [hf]
      exact absurd (StdMap.find2_isSome_mem_keys this) hkey

/-- Witness of C7: on the example server the document `a cat and a dog` stores
the frequency 1/4 for `cat`. -/
theorem C7_term_frequencies_witness :
    Reachable exampleServer
    ∧ (AddDocument exampleServer 0 "a cat and a dog".toList DocumentStatus.ACTUAL [5, 6]).1
        = Except.ok ()
    ∧ StdMap.find2 exampleServer1.documents_to_word_freqs_ 0 "cat".toList = some (1 / 4) := by
  refine ⟨exampleServer_reachable, rfl, ?_⟩
  have h := (C7_term_frequencies exampleServer exampleServer_reachable 0
    "a cat and a dog".toList DocumentStatus.ACTUAL [5, 6] rfl).1 "cat".toList
  have hw : (SplitIntoWordsView "a cat and a dog".toList).filter
      (fun w => decide (w ∉ exampleServer.stop_words_))
      = ["a".toList, "cat".toList, "a".toList, "dog".toList] := by decide
  have hc : List.count "cat".toList ["a".toList, "cat".toList, "a".toList, "dog".toList] = 1 := by
    decide
  simp only [hw] at h
  rw [exampleServer1, h, hc]
  norm_num

/-- C8, evaluated at the failing input: a document without words (an empty
text, or a text of stop words only) gets no forward entry, so `RemoveDocument`
returns at its first test and the document stays live with its record. -/
theorem C8_remove_keeps_wordless_document :
    Reachable blankServer
    ∧ (AddDocument blankServer 0 [] DocumentStatus.ACTUAL []).1 = Except.ok ()
    ∧ (0 : Int) ∈ (AddDocument blankServer 0 [] DocumentStatus.ACTUAL []).2.document_ids_
    ∧ (RemoveDocument (AddDocument blankServer 0 [] DocumentStatus.ACTUAL []).2 0).1
        = Except.ok ()
    ∧ (0 : Int) ∈ (RemoveDocument
        (AddDocument blankServer 0 [] DocumentStatus.ACTUAL []).2 0).2.document_ids_
    ∧ GetDocumentCount (RemoveDocument
        (AddDocument blankServer 0 [] DocumentStatus.ACTUAL []).2 0).2 = 1
    ∧ (AddDocument exampleServer 3 "and in".toList DocumentStatus.ACTUAL [2]).1 = Except.ok ()
    ∧ (3 : Int) ∈ (RemoveDocument
        (AddDocument exampleServer 3 "and in".toList DocumentStatus.ACTUAL [2]).2 3).2.document_ids_
    ∧ GetDocumentCount (RemoveDocument
        (AddDocument exampleServer 3 "and in".toList DocumentStatus.ACTUAL [2]).2 3).2 = 1 :=
  ⟨blankServer_reachable, rfl, by decide, rfl, by decide, rfl, rfl, by decide, rfl⟩

/-- C9, counterexample: on a server without documents, adding document 0 with
the text `cat` and removing it leaves the key `cat` with an empty entry in the
inverted index, which had no key before. -/
theorem C9_add_then_remove_counterexample :
    Reachable blankServer
    ∧ ¬ IsLive blankServer 0
    ∧ (AddDocument blankServer 0 "cat".toList DocumentStatus.ACTUAL [1]).1 = Except.ok ()
    ∧ (RemoveDocument (AddDocument blankServer 0 "cat".toList DocumentStatus.ACTUAL [1]).2
        0).2.word_to_document_freqs_ = [("cat".toList, [])]
    ∧ blankServer.word_to_document_freqs_ = []
    ∧ (RemoveDocument (AddDocument blankServer 0 "cat".toList DocumentStatus.ACTUAL [1]).2
        0).2.word_to_document_freqs_ ≠ blankServer.word_to_document_freqs_ :=
  ⟨blankServer_reachable, by unfold IsLive; decide, rfl, by decide, rfl, by decide⟩

/-- C9, amended: in a reachable state, when `add_document` returns for a text
with at least one token that is no stop word, a following `remove_document` of
the id returns, restores the forward index, the document records, the live-id
set and the stop words exactly, and restores every entry of the inverted index;
the tokens of the document that were no keys of the inverted index stay as
keys with an empty entry. -/
theorem C9_add_then_remove (s : SearchServer R) (hs : Reachable s) (document_id : Int)
    (document : Str) (status : DocumentStatus) (ratings : List Int)
    (hok : (AddDocument s document_id document status ratings).1 = Except.ok ())
    (hword : ∃ w ∈ SplitIntoWordsView document, w ∉ s.stop_words_) :
    let s1 := (AddDocument s document_id document status ratings).2
    (RemoveDocument s1 document_id).1 = Except.ok ()
    ∧ (RemoveDocument s1 document_id).2.documents_to_word_freqs_ = s.documents_to_word_freqs_
    ∧ (RemoveDocument s1 document_id).2.documents_ = s.documents_
    ∧ (RemoveDocument s1 document_id).2.document_ids_ = s.document_ids_
    ∧ (RemoveDocument s1 document_id).2.stop_words_ = s.stop_words_
    ∧ (∀ w, StdMap.find (RemoveDocument s1 document_id).2.word_to_document_freqs_ w
        = if w ∈ SplitIntoWordsView document ∧ w ∉ s.stop_words_ then
            some ((StdMap.find s.word_to_document_freqs_ w).getD [])
          else StdMap.find s.word_to_document_freqs_ w) := by
  intro s1
  have hinv := hs.inv
  have hinv1 : Inv s1 := AddDocument_inv s document_id document status ratings hinv
  obtain ⟨-, hnew, -, hstate⟩ := AddDocument_ok s document_id document status ratings hok
  have hnew' : document_id ∉ StdMap.keys s.documents_to_word_freqs_ :=
    fun h => hnew (hinv.fwd_live _ h)
  have hf2 := AddDocument_find2 s hinv document_id document status ratings hok
  set words := (SplitIntoWordsView document).filter (fun w => decide (w ∉ s.stop_words_))
    with hwords
  have hmemw : ∀ w, w ∈ words ↔ (w ∈ SplitIntoWordsView document ∧ w ∉ s.stop_words_) := by
    intro w; simp [hwords]
  obtain ⟨w0, hw0, hw0s⟩ := hword
  have hw0' : w0 ∈ words := (hmemw w0).2 ⟨hw0, hw0s⟩
  -- the forward entry of the new document
  have hsome : (StdMap.find2 s1.documents_to_word_freqs_ document_id w0).isSome := by
    rw [hf2]; simp [hw0']
  obtain ⟨entry, hentry⟩ :=
    StdMap.exists_find_of_mem_keys (StdMap.find2_isSome_mem_keys hsome)
  have hkeys : ∀ w, w ∈ StdMap.keys entry ↔ w ∈ words := by
    intro w
    rw [← StdMap.find_isSome_iff]
    have := hf2 document_id w
    simp only [StdMap.find2, hentry, Option.some_bind, true_and] at this
    rw [this]
    by_cases hw : w ∈ words
    · simp [hw]
    · have hn : StdMap.find s.documents_to_word_freqs_ document_id = none :=
        (StdMap.find_eq_none_iff _ _).2 hnew'
      simp [hw, hn]
  obtain ⟨inv', hrem, hfind, -⟩ := RemoveDocument_ok s1 document_id hinv1.index entry hentry
  rw [hrem]
  refine ⟨rfl, ?_, ?_, ?_, ?_, ?_⟩
  · -- forward index
    apply StdMap.sorted_ext (StdMap.sorted_erase _ _ hinv1.index.fwd_sorted) hinv.index.fwd_sorted
    intro x
    simp only [StdMap.find_erase]
    by_cases hx : x = document_id
    · subst hx
      simp [(StdMap.find_eq_none_iff _ _).2 hnew']
    · simp only [hx, ↓reduceIte]
      show StdMap.find s1.documents_to_word_freqs_ x = _
      simp only [s1, hstate]
      exact foldl_step_find_fwd_ne _ _ _ _ _ hx
  · show StdMap.erase document_id s1.documents_ = _
    simp only [s1, hstate]
    exact StdMap.erase_insert _ _ _ hnew
  · show StdSet.erase document_id s1.document_ids_ = _
    simp only [s1, hstate]
    apply StdSet.set_erase_insert
    rw [hinv.ids_eq]; exact hnew
  · show s1.stop_words_ = _
    simp only [s1, hstate]
    exact (foldl_step_fixed _ _ _ _).1
  · intro w
    show StdMap.find inv' w = _
    rw [hfind w]
    have hs1w : s1.word_to_document_freqs_
        = (((SplitIntoWordsView document).filter (fun w => !IsStopWord s w)).foldl
            (AddDocument.step document_id
              (1 / ((((SplitIntoWordsView document).filter
                (fun w => !IsStopWord s w)).length : Nat) : R))) s).word_to_document_freqs_ := by
      simp only [s1, hstate]
    by_cases hw : w ∈ words
    · rw [if_pos ((hkeys w).2 hw), if_pos ((hmemw w).1 hw)]
      have hk : w ∈ StdMap.keys s1.word_to_document_freqs_ := by
        rw [hs1w, foldl_step_inv_keys, filter_not_stop]
        exact Or.inl hw
      obtain ⟨e1, he1⟩ := StdMap.exists_find_of_mem_keys hk
      simp only [he1, Option.map_some', Option.some.injEq]
      have hsorted0 : (StdMap.keys ((StdMap.find s.word_to_document_freqs_ w).getD [])).Sorted
          (· < ·) := by
        cases h0 : StdMap.find s.word_to_document_freqs_ w with
        | none => simp [StdMap.keys]
        | some e0 => exact hinv.index.inv_inner w e0 h0
      apply StdMap.sorted_ext (StdMap.sorted_erase _ _ (hinv1.index.inv_inner w e1 he1)) hsorted0
      intro x
      rw [StdMap.find_erase, ← find2_eq_find_getD, ← hinv.index.mirror]
      by_cases hx : x = document_id
      · subst hx
        simp only [↓reduceIte]
        cases hf : StdMap.find2 s.documents_to_word_freqs_ x w with
        | none => rfl
        | some f =>
          have : (StdMap.find2 s.documents_to_word_freqs_ x w).isSome := by simp [hf]
          exact absurd (StdMap.find2_isSome_mem_keys this) hnew'
      · simp only [hx, ↓reduceIte]
        have h1 := hinv1.index.mirror x w
        simp only [StdMap.find2, he1, Option.some_bind] at h1
        rw [← h1]
        have h2 := hf2 x w
        simp only [StdMap.find2, hx, false_and, ↓reduceIte] at h2
        exact h2
    · have hk : w ∉ StdMap.keys entry := fun h => hw ((hkeys w).1 h)
      rw [if_neg hk, if_neg (fun h => hw ((hmemw w).2 h)), hs1w]
      apply foldl_step_find_inv_not_mem
      rw [filter_not_stop]; exact hw

/-- Witness of the amended C9: document 0 with the text `cat`, added to the
server without documents and removed again. -/
theorem C9_add_then_remove_witness :
    Reachable blankServer
    ∧ (AddDocument blankServer 0 "cat".toList DocumentStatus.ACTUAL [1]).1 = Except.ok ()
    ∧ (∃ w ∈ SplitIntoWordsView "cat".toList, w ∉ blankServer.stop_words_)
    ∧ (RemoveDocument (AddDocument blankServer 0 "cat".toList DocumentStatus.ACTUAL [1]).2
        0).2.documents_to_word_freqs_ = blankServer.documents_to_word_freqs_
    ∧ (RemoveDocument (AddDocument blankServer 0 "cat".toList DocumentStatus.ACTUAL [1]).2
        0).2.document_ids_ = blankServer.document_ids_ :=
  have hw : ∃ w ∈ SplitIntoWordsView "cat".toList, w ∉ blankServer.stop_words_ :=
    ⟨"cat".toList, by decide, by decide⟩
  have h := C9_add_then_remove blankServer blankServer_reachable 0 "cat".toList
    DocumentStatus.ACTUAL [1] rfl hw
  ⟨blankServer_reachable, rfl, hw, h.2.1, h.2.2.2.1⟩

/-- C10: in every reachable state the forward entry of `d` maps `t` to `f`
exactly when the inverted entry of `t` maps `d` to `f`. -/
theorem C10_indexes_mirror (s : SearchServer R) (hs : Reachable s) (d : Int) (t : Str) (f : R) :
    StdMap.find2 s.documents_to_word_freqs_ d t = some f
      ↔ StdMap.find2 s.word_to_document_freqs_ t d = some f := by
  rw [hs.inv.index.mirror]

/-- Witness of C10 on the example server with its document. -/
theorem C10_indexes_mirror_witness :
    Reachable exampleServer1
    ∧ (StdMap.find2 exampleServer1.documents_to_word_freqs_ 0 "dog".toList = some (1 / 4)
      ↔ StdMap.find2 exampleServer1.word_to_document_freqs_ "dog".toList 0 = some (1 / 4)) :=
  ⟨exampleServer1_reachable,
    C10_indexes_mirror exampleServer1 exampleServer1_reachable 0 "dog".toList (1 / 4)⟩

/-- C11, evaluated at the failing input: after `AddDocument(0, "", ACTUAL, {})`
on a server without documents the id 0 is in the live-id set and is counted,
and the forward index has no key.  The defect is the one of C8: a document
without words gets no forward entry. -/
theorem C11_live_id_without_forward_entry :
    Reachable (AddDocument blankServer 0 [] DocumentStatus.ACTUAL []).2
    ∧ (AddDocument blankServer 0 [] DocumentStatus.ACTUAL []).1 = Except.ok ()
    ∧ (AddDocument blankServer 0 [] DocumentStatus.ACTUAL []).2.document_ids_ = [0]
    ∧ GetDocumentCount (AddDocument blankServer 0 [] DocumentStatus.ACTUAL []).2 = 1
    ∧ StdMap.keys (AddDocument blankServer 0 [] DocumentStatus.ACTUAL []).2.documents_to_word_freqs_
        = [] :=
  ⟨Reachable.add blankServer 0 [] DocumentStatus.ACTUAL [] blankServer_reachable, rfl, rfl, rfl,
    rfl⟩

/-- C18: in a reachable state `remove_document` called twice on an id leaves
the server as one call leaves it, no call reports an error, and a call on an
id that is not live changes nothing. -/
theorem C18_remove_idempotent (s : SearchServer R) (hs : Reachable s) (document_id : Int) :
    (RemoveDocument (RemoveDocument s document_id).2 document_id).2
        = (RemoveDocument s document_id).2
    ∧ (RemoveDocument s document_id).1 = Except.ok ()
    ∧ (RemoveDocument (RemoveDocument s document_id).2 document_id).1 = Except.ok ()
    ∧ (¬ IsLive s document_id → RemoveDocument s document_id = (Except.ok (), s)) := by
  have hinv := hs.inv
  have hnot : ¬ IsLive s document_id → RemoveDocument s document_id = (Except.ok (), s) := by
    intro hl
    apply RemoveDocument_absent
    rw [StdMap.find_eq_none_iff]
    intro hk
    apply hl
    unfold IsLive
    rw [hinv.ids_eq]
    exact hinv.fwd_live _ hk
  cases hentry : StdMap.find s.documents_to_word_freqs_ document_id with
  | none =>
    have h1 := RemoveDocument_absent s document_id hentry
    rw [h1]
    simp only [h1]
    exact ⟨trivial, trivial, trivial, fun _ => trivial⟩
  | some entry =>
    obtain ⟨inv', h1, -, -⟩ := RemoveDocument_ok s document_id hinv.index entry hentry
    have h2 : RemoveDocument (RemoveDocument s document_id).2 document_id
        = (Except.ok (), (RemoveDocument s document_id).2) := by
      apply RemoveDocument_absent
      rw [h1]
      simp [StdMap.find_erase]
    refine ⟨by rw [h2], by rw [h1], by rw [h2], hnot⟩

/-- Witness of C18 on the example server and its document 0. -/
theorem C18_remove_idempotent_witness :
    Reachable exampleServer1
    ∧ (RemoveDocument (RemoveDocument exampleServer1 0).2 0).2 = (RemoveDocument exampleServer1 0).2
    ∧ (RemoveDocument exampleServer1 0).1 = Except.ok () :=
  ⟨exampleServer1_reachable,
    (C18_remove_idempotent exampleServer1 exampleServer1_reachable 0).1,
    (C18_remove_idempotent exampleServer1 exampleServer1_reachable 0).2.1⟩

/-- C19, counterexample: for the ratings 2147483647 and 1 the sum does not fit
in `int`; the rating computed and stored is -1073741824, the mean is
1073741824. -/
theorem C19_average_rating_counterexample :
    ComputeAverageRating [2147483647, 1] = -1073741824
    ∧ Int.tdiv ([2147483647, 1] : List Int).sum 2 = 1073741824
    ∧ (AddDocument blankServer 0 "cat".toList DocumentStatus.ACTUAL [2147483647, 1]).1
        = Except.ok ()
    ∧ (StdMap.find (AddDocument blankServer 0 "cat".toList DocumentStatus.ACTUAL
        [2147483647, 1]).2.documents_ 0).map DocumentData.rating = some (-1073741824) :=
  ⟨by decide, by decide, rfl, by decide⟩

/-- C19, amended: for a list of ratings on which `rating_sum` never leaves the
range of `int` (and whose length is in that range), the rating that
`add_document` stores is the sum of the ratings divided by their number,
rounded toward zero, also for a negative sum, and 0 for the empty list; the
ratings 5 and 6 give 5. -/
theorem C19_average_rating (ratings : List Int)
    (hfit : ∀ n, n ≤ ratings.length →
      -2147483648 ≤ (ratings.take n).sum ∧ (ratings.take n).sum ≤ 2147483647)
    (hlen : ratings.length ≤ 2147483647) :
    ComputeAverageRating ratings
        = (if ratings = [] then 0 else Int.tdiv ratings.sum (ratings.length : Int))
    ∧ (∀ (s : SearchServer R) (document_id : Int) (document : Str) (status : DocumentStatus),
        (AddDocument s document_id document status ratings).1 = Except.ok () →
        (StdMap.find (AddDocument s document_id document status ratings).2.documents_
            document_id).map DocumentData.rating
          = some (if ratings = [] then 0 else Int.tdiv ratings.sum (ratings.length : Int)))
    ∧ ComputeAverageRating [5, 6] = 5
    ∧ ComputeAverageRating [-5, -6] = -5 := by
  have hmean : ComputeAverageRating ratings
      = (if ratings = [] then 0 else Int.tdiv ratings.sum (ratings.length : Int)) := by
    unfold ComputeAverageRating
    by_cases he : ratings = []
    · subst he; rfl
    · have hsum := foldl_rating_sum ratings 0 (by simpa using hfit)
      have hl : wrapInt32 (ratings.length : Int) = (ratings.length : Int) :=
        wrapInt32_of_fits _ (by omega) (by omega)
      simp only [List.isEmpty_iff, he, ↓reduceIte, hsum, hl, zero_add]
  refine ⟨hmean, ?_, by decide, by decide⟩
  intro s document_id document status hok
  obtain ⟨-, -, -, hstate⟩ := AddDocument_ok s document_id document status ratings hok
  rw [hstate, ← hmean]
  simp [StdMap.find_insert]

/-- Witness of the amended C19: the ratings -7 and 2 have the mean -2.5, and
-2 is stored. -/
theorem C19_average_rating_witness :
    (∀ n, n ≤ ([-7, 2] : List Int).length →
      -2147483648 ≤ (([-7, 2] : List Int).take n).sum
      ∧ (([-7, 2] : List Int).take n).sum ≤ 2147483647)
    ∧ ComputeAverageRating [-7, 2] = -2 :=
  have hfit : ∀ n, n ≤ ([-7, 2] : List Int).length →
      -2147483648 ≤ (([-7, 2] : List Int).take n).sum
      ∧ (([-7, 2] : List Int).take n).sum ≤ 2147483647 := by
    intro n hn
    have h3 : n = 0 ∨ n = 1 ∨ n = 2 := by
      simp only [List.length_cons, List.length_nil] at hn
      omega
    rcases h3 with rfl | rfl | rfl <;> decide
  ⟨hfit, ((C19_average_rating (R := ℚ) [-7, 2] hfit (by decide)).1).trans (by decide)⟩

/-- C12: for every server, whatever its stop words, and every query text,
parsing fails exactly when some token of the text is the bare `-`, or begins
with `--`, or holds a character below 32; the failure is `invalid_argument`.
With the stop word `-` the query `--` fails although the token without its
first minus is a stop word. -/
theorem C12_query_parsing_fails_iff (s : SearchServer R) (text : Str) :
    ((∃ e, ParseQuery s text = Except.error e)
      ↔ ∃ w ∈ SplitIntoWordsView text,
          w = ['-'] ∨ (∃ rest, w = '-' :: '-' :: rest) ∨ ∃ c ∈ w, c.toNat < 32)
    ∧ (∀ e, ParseQuery s text = Except.error e → e = Exn.invalid_argument)
    ∧ ParseQuery
        ({ stop_words_ := [['-']]
           word_to_document_freqs_ := []
           documents_to_word_freqs_ := []
           documents_ := []
           document_ids_ := [] } : SearchServer ℚ) "cat --".toList
        = Except.error Exn.invalid_argument := by
  have hne := SplitIntoWordsView_nonempty text
  refine ⟨?_, ?_, rfl⟩
  · constructor
    · rintro ⟨e, he⟩
      by_contra hno
      obtain ⟨q, hq, -⟩ := ParseQuery.loop_wellformed s (SplitIntoWordsView text)
        { plus_words := [], minus_words := [] } hne hno
      unfold ParseQuery at he
      rw [hq] at he
      cases he
    · intro hm
      exact ⟨_, ParseQuery.loop_error s (SplitIntoWordsView text)
        { plus_words := [], minus_words := [] } hm⟩
  · intro e he
    by_cases hm : ∃ w ∈ SplitIntoWordsView text, malformedToken w
    · have := ParseQuery.loop_error s (SplitIntoWordsView text)
        { plus_words := [], minus_words := [] } hm
      unfold ParseQuery at he
      rw [this] at he
      cases he
      rfl
    · obtain ⟨q, hq, -⟩ := ParseQuery.loop_wellformed s (SplitIntoWordsView text)
        { plus_words := [], minus_words := [] } hne hm
      unfold ParseQuery at he
      rw [hq] at he
      cases he

/-- C13: when a query text parses, the plus words are exactly the tokens that
do not begin with `-` and are no stop words, the minus words are exactly the
tokens that begin with `-`, taken without it, that are no stop words, and
neither set lists a word twice; a text with the same tokens, in any order and
any number of times, parses into the same query. -/
theorem C13_parsed_query (s : SearchServer R) (text : Str) (q : Query)
    (h : ParseQuery s text = Except.ok q) :
    (∀ t, t ∈ q.plus_words ↔
        (t ∈ SplitIntoWordsView text ∧ t.head? ≠ some '-' ∧ t ∉ s.stop_words_))
    ∧ (∀ t, t ∈ q.minus_words ↔ (('-' :: t) ∈ SplitIntoWordsView text ∧ t ∉ s.stop_words_))
    ∧ q.plus_words.Nodup ∧ q.minus_words.Nodup
    ∧ (∀ text', (∀ w, w ∈ SplitIntoWordsView text' ↔ w ∈ SplitIntoWordsView text) →
        ParseQuery s text' = Except.ok q) := by
  have hne := SplitIntoWordsView_nonempty text
  have hm : ¬ ∃ w ∈ SplitIntoWordsView text, malformedToken w := by
    intro hm
    have := ParseQuery.loop_error s (SplitIntoWordsView text)
      { plus_words := [], minus_words := [] } hm
    unfold ParseQuery at h
    rw [this] at h
    cases h
  obtain ⟨q0, hq0, h1, h2, h3, h4⟩ := ParseQuery.loop_wellformed s (SplitIntoWordsView text)
    { plus_words := [], minus_words := [] } hne hm
  have hq : q0 = q := by
    unfold ParseQuery at h
    rw [hq0] at h
    cases h
    rfl
  subst hq
  have hsp := h3 (by simp)
  have hsm := h4 (by simp)
  refine ⟨fun t => by simpa using h1 t, fun t => by simpa using h2 t, hsp.nodup, hsm.nodup, ?_⟩
  intro text' hsame
  have hne' := SplitIntoWordsView_nonempty text'
  have hm' : ¬ ∃ w ∈ SplitIntoWordsView text', malformedToken w := by
    rintro ⟨w, hw, hmal⟩
    exact hm ⟨w, (hsame w).1 hw, hmal⟩
  obtain ⟨q', hq', g1, g2, g3, g4⟩ := ParseQuery.loop_wellformed s (SplitIntoWordsView text')
    { plus_words := [], minus_words := [] } hne' hm'
  have e1 : q'.plus_words = q0.plus_words := by
    apply StdSet.set_sorted_ext (g3 (by simp)) hsp
    intro x
    rw [g1 x, h1 x, hsame x]
  have e2 : q'.minus_words = q0.minus_words := by
    apply StdSet.set_sorted_ext (g4 (by simp)) hsm
    intro x
    rw [g2 x, h2 x, hsame ('-' :: x)]
  unfold ParseQuery
  rw [hq']
  cases q'
  cases q0
  simp only at e1 e2
  rw [e1, e2]

/-- Witness of C13: with the stop words `and in on`, the text
`cat -dog and cat` and the text `-dog cat and` parse into the same query. -/
theorem C13_parsed_query_witness :
    ParseQuery exampleServer "cat -dog and cat".toList
      = Except.ok { plus_words := ["cat".toList], minus_words := ["dog".toList] }
    ∧ ParseQuery exampleServer "-dog cat and".toList
      = Except.ok { plus_words := ["cat".toList], minus_words := ["dog".toList] } := by
  have h : ParseQuery exampleServer "cat -dog and cat".toList
      = Except.ok { plus_words := ["cat".toList], minus_words := ["dog".toList] } := rfl
  refine ⟨h, (C13_parsed_query exampleServer "cat -dog and cat".toList _ h).2.2.2.2
    "-dog cat and".toList ?_⟩
  intro w
  have e1 : SplitIntoWordsView "-dog cat and".toList
      = ["-dog".toList, "cat".toList, "and".toList] := rfl
  have e2 : SplitIntoWordsView "cat -dog and cat".toList
      = ["cat".toList, "-dog".toList, "and".toList, "cat".toList] := rfl
  rw [e1, e2]
  simp only [List.mem_cons, List.mem_singleton, List.not_mem_nil, or_false]
  tauto

/-- C14, evaluated at the failing input.  On the example server the first call
`MatchDocument("cat", 0)` returns the term `cat`; the query is kept in a
function-local `static`, so the next call `MatchDocument("dog", 0)` returns
`cat` again, where a first call with `dog` returns `dog`, and the call
`MatchDocument("cat -dog", 0)` returns `cat` where a first call returns no
term.  The same holds under the parallel policy. -/
theorem C14_match_document_keeps_first_query :
    Reachable exampleServer1
    ∧ (MatchDocumentPolicy { seq_query := none, par_query := none } exampleServer1
        ExecutionPolicy.seq "cat".toList 0).1
        = Except.ok (["cat".toList], DocumentStatus.ACTUAL)
    ∧ (MatchDocumentPolicy
        (MatchDocumentPolicy { seq_query := none, par_query := none } exampleServer1
          ExecutionPolicy.seq "cat".toList 0).2
        exampleServer1 ExecutionPolicy.seq "dog".toList 0).1
        = Except.ok (["cat".toList], DocumentStatus.ACTUAL)
    ∧ (MatchDocumentPolicy { seq_query := none, par_query := none } exampleServer1
        ExecutionPolicy.seq "dog".toList 0).1
        = Except.ok (["dog".toList], DocumentStatus.ACTUAL)
    ∧ (MatchDocumentPolicy
        (MatchDocumentPolicy { seq_query := none, par_query := none } exampleServer1
          ExecutionPolicy.seq "cat".toList 0).2
        exampleServer1 ExecutionPolicy.seq "cat -dog".toList 0).1
        = Except.ok (["cat".toList], DocumentStatus.ACTUAL)
    ∧ (MatchDocumentPolicy { seq_query := none, par_query := none } exampleServer1
        ExecutionPolicy.seq "cat -dog".toList 0).1
        = Except.ok ([], DocumentStatus.ACTUAL)
    ∧ (MatchDocumentPolicy
        (MatchDocumentPolicy { seq_query := none, par_query := none } exampleServer1
          ExecutionPolicy.par "cat".toList 0).2
        exampleServer1 ExecutionPolicy.par "dog".toList 0).1
        = Except.ok (["cat".toList], DocumentStatus.ACTUAL) :=
  ⟨exampleServer1_reachable, rfl, rfl, rfl, rfl, rfl, rfl⟩

/-- C15, evaluated at the failing input.  On the example server, after the call
`MatchDocument("cat", 0)` the call `MatchDocument("--", 0)` does not parse its
text and returns the term `cat`, where a first call with `--` fails with
`invalid_argument`; the defect is the `static` query of C14.  A call for an id
without a record fails with `out_of_range` whatever the static holds. -/
theorem C15_match_document_skips_parsing :
    Reachable exampleServer1
    ∧ (MatchDocumentPolicy { seq_query := none, par_query := none } exampleServer1
        ExecutionPolicy.seq "--".toList 0).1 = Except.error Exn.invalid_argument
    ∧ (MatchDocumentPolicy
        (MatchDocumentPolicy { seq_query := none, par_query := none } exampleServer1
          ExecutionPolicy.seq "cat".toList 0).2
        exampleServer1 ExecutionPolicy.seq "--".toList 0).1
        = Except.ok (["cat".toList], DocumentStatus.ACTUAL)
    ∧ (∀ (query_static : Option Query) (s : SearchServer ℚ) (raw_query : Str)
        (document_id : Int), StdMap.count s.documents_ document_id = 0 →
        (MatchDocument query_static s raw_query document_id).1
          = Except.error Exn.out_of_range) :=
  ⟨exampleServer1_reachable, rfl, rfl,
    fun query_static s raw_query document_id h => by simp [MatchDocument, h]⟩

/-- C16, evaluated at the failing input.  On the server with the documents 1
`white cat white dog` and 2 `white cat`, the first call
`GetWordFrequencies(1)` returns the terms of document 1; the `static` map is
never cleared and `emplace` keeps what it holds, so the next call
`GetWordFrequencies(2)` returns the same map, with the term `dog` that
document 2 does not contain, and the call `GetWordFrequencies(5)` for an id
that is not live returns it too instead of the empty map. -/
theorem C16_word_frequencies_accumulate :
    Reachable exampleServer2
    ∧ StdMap.find exampleServer2.documents_to_word_freqs_ 1
        = some (GetWordFrequencies [] exampleServer2 1)
    ∧ StdMap.keys (GetWordFrequencies [] exampleServer2 1)
        = ["cat".toList, "dog".toList, "white".toList]
    ∧ GetWordFrequencies (GetWordFrequencies [] exampleServer2 1) exampleServer2 2
        = GetWordFrequencies [] exampleServer2 1
    ∧ (StdMap.find exampleServer2.documents_to_word_freqs_ 2).map StdMap.keys
        = some ["cat".toList, "white".toList]
    ∧ ¬ IsLive exampleServer2 5
    ∧ GetWordFrequencies (GetWordFrequencies [] exampleServer2 1) exampleServer2 5
        = GetWordFrequencies [] exampleServer2 1 :=
  ⟨exampleServer2_reachable, rfl, rfl, rfl, rfl, by unfold IsLive; decide, rfl⟩

/-- C17: for a shard count of at least 1 and every sequence of operations
(update of the value under a key through `operator[]`, which creates a missing
value from `init`, or `Erase` of a key) applied one after another to a fresh
sharded map, no operation fails, `BuildOrdinaryMap` returns exactly the map
that the same operations produce on one ordinary map, and a bucket `i` holds
only keys `k` with `uint64(k) % N = i`, so that no key is in two buckets. -/
theorem C17_sharded_map_refines_map {V : Type} (init : V) (N : Nat) (hN : 1 ≤ N)
    (ops : List (MapOp V)) :
    ∃ m, ConcurrentMap.run init ops (ConcurrentMap.new N) = Except.ok m
      ∧ ConcurrentMap.BuildOrdinaryMap m = StdMap.run init ops []
      ∧ (∀ (i : Nat) (b : StdMap Int V) (k : Int),
          m.map_vec_[i]? = some b → k ∈ StdMap.keys b → toUInt64 k % N = i)
      ∧ (∀ (i j : Nat) (b c : StdMap Int V) (k : Int),
          m.map_vec_[i]? = some b → m.map_vec_[j]? = some c →
          k ∈ StdMap.keys b → k ∈ StdMap.keys c → i = j) := by
  obtain ⟨m, h1, h2⟩ := sharded_run init N hN ops (ConcurrentMap.new N) [] (sharded_new N)
  refine ⟨m, h1, sharded_build N hN m _ h2, h2.bucket_route, ?_⟩
  intro i j b c k hb hc hkb hkc
  rw [← h2.bucket_route i b k hb hkb, ← h2.bucket_route j c k hc hkc]

/-- Witness of C17: three buckets; the keys 4, -1 and 7 are updated, 4 twice,
and 7 is erased. -/
theorem C17_sharded_map_refines_map_witness :
    1 ≤ 3
    ∧ ∃ m, ConcurrentMap.run (0 : Int)
          [MapOp.access 4 (fun v => v + 1), MapOp.access (-1) (fun v => v + 5),
            MapOp.access 7 (fun v => v + 2), MapOp.access 4 (fun v => v + 1), MapOp.erase 7]
          (ConcurrentMap.new 3) = Except.ok m
        ∧ ConcurrentMap.BuildOrdinaryMap m = [(-1, 5), (4, 2)] := by
  refine ⟨by decide, ?_⟩
  obtain ⟨m, h1, h2, -⟩ := C17_sharded_map_refines_map (0 : Int) 3 (by decide)
    [MapOp.access 4 (fun v => v + 1), MapOp.access (-1) (fun v => v + 5),
      MapOp.access 7 (fun v => v + 2), MapOp.access 4 (fun v => v + 1), MapOp.erase 7]
  exact ⟨m, h1, h2.trans (by decide)⟩

/-- C20, evaluated at failing inputs.  The stride of the plus-word loop is
`n / min(10, n)` and the loop ends only when `begin` meets `end()`.  For the 21
plus words `b` to `v` the stride is 2: the eleventh pass advances `end` from 20
to 22, beyond `end()`, where the sequential call returns the empty list.  For
the 15 plus words `b` to `p` the stride is 1: the loop is still running after
14 passes and ends with the fifteenth, so it launches 15 tasks, one per pass,
not `min(10, 15) = 10`. -/
theorem C20_chunking_overruns_or_splits_further :
    Reachable exampleServer1
    ∧ (∃ query, ParseQuery exampleServer1 "b c d e f g h i j k l m n o p q r s t u v".toList
          = Except.ok query ∧ query.plus_words.length = 21)
    ∧ (∀ ln : ℚ → ℚ, FindTopDocuments ln exampleServer1
        "b c d e f g h i j k l m n o p q r s t u v".toList (fun _ _ _ => true) = Except.ok [])
    ∧ (∀ (ln : ℚ → ℚ) (budget : Nat), FindTopDocumentsPolicy ln exampleServer1
        ExecutionPolicy.par "b c d e f g h i j k l m n o p q r s t u v".toList
        (fun _ _ _ => true) (budget + 11) = Except.error Fault.past_the_end)
    ∧ (∃ query, ParseQuery exampleServer1 "b c d e f g h i j k l m n o p".toList
          = Except.ok query ∧ query.plus_words.length = 15)
    ∧ (∀ ln : ℚ → ℚ, FindTopDocumentsPolicy ln exampleServer1
        ExecutionPolicy.par "b c d e f g h i j k l m n o p".toList
        (fun _ _ _ => true) 14 = Except.error Fault.still_running)
    ∧ (∀ ln : ℚ → ℚ, FindTopDocumentsPolicy ln exampleServer1
        ExecutionPolicy.par "b c d e f g h i j k l m n o p".toList
        (fun _ _ _ => true) 15 = Except.ok []) :=
  ⟨exampleServer1_reachable, ⟨_, rfl, rfl⟩, fun _ => rfl, fun _ _ => rfl, ⟨_, rfl, rfl⟩,
    fun _ => rfl, fun _ => rfl⟩

/-- C21, evaluated at the failing input.  On the example server the query
`cat dog -bird` parses and the sequential call returns, while the parallel
call is still running at every budget: the minus-word loop advances `end` by
`1 / 2 = 0` words per pass, so `begin` never meets `end()`.  The same holds in
every state for every query with a minus word and fewer minus words than
`min(10, |plus words|)`: the parallel `FindAllDocuments` returns at no budget. -/
theorem C21_parallel_minus_loop_stalls :
    Reachable exampleServer1
    ∧ ParseQuery exampleServer1 "cat dog -bird".toList
        = Except.ok { plus_words := ["cat".toList, "dog".toList],
                      minus_words := ["bird".toList] }
    ∧ (∀ ln : ℚ → ℚ, ∃ docs, FindTopDocuments ln exampleServer1 "cat dog -bird".toList
        (fun _ _ _ => true) = Except.ok docs)
    ∧ (∀ (ln : ℚ → ℚ) (budget : Nat),
        FindTopDocumentsPolicy ln exampleServer1 ExecutionPolicy.par "cat dog -bird".toList
          (fun _ _ _ => true) budget = Except.error Fault.still_running)
    ∧ (∀ (ln : ℚ → ℚ) (s : SearchServer ℚ) (query : Query) (pred : DocumentPredicate)
        (budget : Nat), 0 < query.minus_words.length →
        query.minus_words.length
          < (if query.plus_words.length < 10 then query.plus_words.length else 10) →
        ∀ docs, FindAllDocumentsPar ln s query pred budget ≠ Except.ok docs) := by
  refine ⟨exampleServer1_reachable, rfl, fun ln => ⟨_, rfl⟩, par_cat_dog_bird_stalls, ?_⟩
  intro ln s query pred budget h1 h2 docs hdocs
  rcases FindAllDocumentsPar_stall ln s query pred budget h1 h2 with h | ⟨e, -, h⟩
  · rw [h] at hdocs; cases hdocs
  · rw [h] at hdocs; cases hdocs

/-- C22, evaluated at the failing input.  On the example server the query `-cat`
parses into no plus word and the minus word `cat`; the sequential call returns
the empty list, while the parallel call computes `1 / thread_count` with a
thread count of zero.  The same holds in every state for every query without
plus words and with a minus word.  For the empty query the parallel call
returns the empty list. -/
theorem C22_parallel_divides_by_zero :
    Reachable exampleServer1
    ∧ ParseQuery exampleServer1 "-cat".toList
        = Except.ok { plus_words := [], minus_words := ["cat".toList] }
    ∧ (∀ ln : ℚ → ℚ, FindTopDocuments ln exampleServer1 "-cat".toList (fun _ _ _ => true)
        = Except.ok [])
    ∧ (∀ (ln : ℚ → ℚ) (budget : Nat),
        FindTopDocumentsPolicy ln exampleServer1 ExecutionPolicy.par "-cat".toList
          (fun _ _ _ => true) budget = Except.error Fault.division_by_zero)
    ∧ (∀ (ln : ℚ → ℚ) (s : SearchServer ℚ) (query : Query) (pred : DocumentPredicate)
        (budget : Nat), query.plus_words = [] → query.minus_words ≠ [] →
        FindAllDocumentsPar ln s query pred budget = Except.error Fault.division_by_zero)
    ∧ (∀ (ln : ℚ → ℚ) (budget : Nat),
        FindTopDocumentsPolicy ln exampleServer1 ExecutionPolicy.par [] (fun _ _ _ => true)
          budget = Except.ok []) :=
  ⟨exampleServer1_reachable, rfl, fun _ => rfl, fun _ _ => rfl,
    fun ln s query pred budget h1 h2 => FindAllDocumentsPar_no_plus ln s query pred budget h1 h2,
    fun _ _ => rfl⟩

/-- C23, counterexample: with the stop words `and in on` the text `cat -cat`
parses, and the term `cat` is a plus word and a minus word of the query. -/
theorem C23_plus_and_minus_counterexample :
    ParseQuery exampleServer "cat -cat".toList
      = Except.ok { plus_words := ["cat".toList], minus_words := ["cat".toList] }
    ∧ "cat".toList ∈ ({ plus_words := ["cat".toList], minus_words := ["cat".toList] }
        : Query).plus_words
    ∧ "cat".toList ∈ ({ plus_words := ["cat".toList], minus_words := ["cat".toList] }
        : Query).minus_words :=
  ⟨rfl, by decide, by decide⟩

/-- C23, amended: when a query text parses, a term is both a plus word and a
minus word exactly when the text has the term as a token and has it with a `-`
in front as a token, and the term is no stop word; so when no word of the text
occurs in both forms, no term is in both sets. -/
theorem C23_plus_and_minus_terms (s : SearchServer R) (text : Str) (q : Query)
    (h : ParseQuery s text = Except.ok q) :
    (∀ t, (t ∈ q.plus_words ∧ t ∈ q.minus_words) ↔
        (t ∈ SplitIntoWordsView text ∧ ('-' :: t) ∈ SplitIntoWordsView text
          ∧ t ∉ s.stop_words_))
    ∧ ((∀ t, t ∈ SplitIntoWordsView text → ('-' :: t) ∉ SplitIntoWordsView text) →
        ∀ t, ¬ (t ∈ q.plus_words ∧ t ∈ q.minus_words)) := by
  obtain ⟨hm, h1, h2⟩ := ParseQuery_spec s text q h
  have hiff : ∀ t, (t ∈ q.plus_words ∧ t ∈ q.minus_words) ↔
      (t ∈ SplitIntoWordsView text ∧ ('-' :: t) ∈ SplitIntoWordsView text
        ∧ t ∉ s.stop_words_) := by
    intro t
    rw [h1 t, h2 t]
    constructor
    · rintro ⟨⟨a, -, c⟩, b, -⟩
      exact ⟨a, b, c⟩
    · rintro ⟨a, b, c⟩
      refine ⟨⟨a, ?_, c⟩, b, c⟩
      intro hhead
      apply hm
      refine ⟨'-' :: t, b, Or.inr (Or.inl ?_)⟩
      cases t with
      | nil => simp at hhead
      | cons x rest =>
        simp only [List.head?_cons, Option.some.injEq] at hhead
        exact ⟨rest, by rw [hhead]⟩
  refine ⟨hiff, ?_⟩
  intro hno t ht
  have := (hiff t).1 ht
  exact hno t this.1 this.2.1

/-- Witness of the amended C23: the text `cat -dog and cat` has no word in
both forms, and its query has no term in both sets. -/
theorem C23_plus_and_minus_terms_witness :
    ParseQuery exampleServer "cat -dog and cat".toList
      = Except.ok { plus_words := ["cat".toList], minus_words := ["dog".toList] }
    ∧ ∀ t, ¬ (t ∈ ({ plus_words := ["cat".toList], minus_words := ["dog".toList] }
          : Query).plus_words
        ∧ t ∈ ({ plus_words := ["cat".toList], minus_words := ["dog".toList] }
          : Query).minus_words) := by
  have h : ParseQuery exampleServer "cat -dog and cat".toList
      = Except.ok { plus_words := ["cat".toList], minus_words := ["dog".toList] } := rfl
  refine ⟨h, (C23_plus_and_minus_terms exampleServer "cat -dog and cat".toList _ h).2 ?_⟩
  have e : SplitIntoWordsView "cat -dog and cat".toList
      = ["cat".toList, "-dog".toList, "and".toList, "cat".toList] := rfl
  rw [e]
  decide

/-- C24: in a reachable state, after `remove_document(id)` and any further
calls that do not add the id again, no sequential `find_top_documents` call
returns a document with that id, whatever the query and the predicate; and in
every reachable state every id that `find_top_documents` returns is live. -/
theorem C24_removed_document_not_returned (ln : R → R) (s : SearchServer R) (hs : Reachable s)
    (document_id : Int) (s' : SearchServer R)
    (hafter : NotAddedAgain document_id (RemoveDocument s document_id).2 s')
    (raw_query : Str) (pred : DocumentPredicate) (docs : List (Document R))
    (h : FindTopDocuments ln s' raw_query pred = Except.ok docs) :
    (∀ doc ∈ docs, doc.id ≠ document_id)
    ∧ (∀ doc ∈ docs, IsLive s' doc.id)
    ∧ (∀ (s0 : SearchServer R) (docs0 : List (Document R)), Reachable s0 →
        FindTopDocuments ln s0 raw_query pred = Except.ok docs0 →
        ∀ doc ∈ docs0, IsLive s0 doc.id) := by
  obtain ⟨hreach, habsent⟩ := NotAddedAgain.spec hs hafter
  have hret := FindTopDocuments_returns ln s' hreach raw_query pred docs h
  refine ⟨?_, fun doc hdoc => (hret doc hdoc).1, ?_⟩
  · intro doc hdoc heq
    obtain ⟨-, t, ht⟩ := hret doc hdoc
    rw [heq] at ht
    simp [containsTerm, StdMap.find2, habsent] at ht
  · intro s0 docs0 hs0 h0 doc hdoc
    exact (FindTopDocuments_returns ln s0 hs0 raw_query pred docs0 h0 doc hdoc).1

/-- Witness of C24: on the server with the documents 1 and 2, document 1 is
removed, the text `dog` is added under the id 3, and the query `white dog`
returns the documents 2 and 3. -/
theorem C24_removed_document_not_returned_witness :
    Reachable exampleServer2
    ∧ NotAddedAgain 1 (RemoveDocument exampleServer2 1).2
        (AddDocument (RemoveDocument exampleServer2 1).2 3 "dog".toList
          DocumentStatus.ACTUAL [4]).2
    ∧ FindTopDocuments (fun _ => 0)
        (AddDocument (RemoveDocument exampleServer2 1).2 3 "dog".toList
          DocumentStatus.ACTUAL [4]).2 "white dog".toList (fun _ _ _ => true)
        = Except.ok [{ id := 2, relevance := 0, rating := 7 },
            { id := 3, relevance := 0, rating := 4 }]
    ∧ ∀ doc ∈ [({ id := 2, relevance := 0, rating := 7 } : Document ℚ),
          { id := 3, relevance := 0, rating := 4 }], doc.id ≠ 1 := by
  have hafter : NotAddedAgain 1 (RemoveDocument exampleServer2 1).2
      (AddDocument (RemoveDocument exampleServer2 1).2 3 "dog".toList
        DocumentStatus.ACTUAL [4]).2 :=
    NotAddedAgain.add _ 3 _ _ _ NotAddedAgain.start (fun h => absurd h (by decide))
  have hfind : FindTopDocuments (fun _ => 0)
      (AddDocument (RemoveDocument exampleServer2 1).2 3 "dog".toList
        DocumentStatus.ACTUAL [4]).2 "white dog".toList (fun _ _ _ => true)
      = Except.ok [{ id := 2, relevance := 0, rating := 7 },
          { id := 3, relevance := 0, rating := 4 }] := by
    with_unfolding_all rfl
  exact ⟨exampleServer2_reachable, hafter, hfind,
    (C24_removed_document_not_returned (fun _ => 0) exampleServer2 exampleServer2_reachable 1
      _ hafter "white dog".toList (fun _ _ _ => true) _ hfind).1⟩

/-- C25: for every text the two overloads of `SplitIntoWords` return the same
list, the one the specification describes: the text cut at every space,
without the empty pieces.  The pieces joined with one space between them are
the text again and no piece holds a space, so the tokens are the maximal runs
of characters other than the space, in their order.  No token is empty or
holds a space, and the tokens joined with single spaces split into the same
tokens. -/
theorem C25_split_into_words (text : Str) :
    SplitIntoWords text = SplitIntoWordsView text
    ∧ SplitIntoWords text = tokensOfSpec text
    ∧ [' '].intercalate (List.splitOn ' ' text) = text
    ∧ (∀ w ∈ List.splitOn ' ' text, ' ' ∉ w)
    ∧ (∀ w ∈ SplitIntoWords text, w ≠ [] ∧ ' ' ∉ w)
    ∧ SplitIntoWords ([' '].intercalate (SplitIntoWords text)) = SplitIntoWords text
    ∧ SplitIntoWordsView ([' '].intercalate (SplitIntoWordsView text))
        = SplitIntoWordsView text := by
  have h1 := SplitIntoWords_eq_spec text
  have h2 := SplitIntoWordsView_eq_spec text
  have htok := tokensOfSpec_token text
  refine ⟨h1.trans h2.symm, h1, List.intercalate_splitOn text ' ', splitOn_no_space text, ?_, ?_,
    ?_⟩
  · rw [h1]; exact htok
  · rw [SplitIntoWords_eq_spec, h1]
    exact tokensOfSpec_intercalate _ htok
  · rw [SplitIntoWordsView_eq_spec, h2]
    exact tokensOfSpec_intercalate _ htok

end Claims

end TfIdf
